import Mathlib

/-!
# ktr0731/proto: the `pb` wire codec

A shallow embedding of `pb/encode.go` and `pb/decode.go`.

* Bytes are natural numbers below 256; a stream (`bytes.Reader`) is the list of the
  bytes that are still unread.
* `uint64`/`uint32` values are natural numbers, `int64`/`int32`/`int` values are
  integers; every conversion and every operation that can wrap is written with its
  explicit modulus.
* A Go `error` result is `Except Err _`; a run-time panic, which no function of the
  package recovers from, is the error `Err.panic`.
-/

namespace Pb

/-! ## Errors and machine integers -/

/-- The outcomes other than success. `eof` is `io.EOF`, `unexpectedEOF` is
`io.ErrUnexpectedEOF`, `unreachable` is `errors.New("unreachable")`, `notFound` is the
registry's error of `FindMessageByName`, `panic` is a Go run-time panic (nil
dereference, type mismatch in the object model). `outOfFuel` is not a Go outcome: it
marks a run of the embedding whose recursion budget was too small. -/
inductive Err where
  | eof
  | unexpectedEOF
  | unreachable
  | notFound
  | panic
  | outOfFuel
  deriving DecidableEq, Repr

deriving instance DecidableEq for Except

/-- Conversion `uint64(x)` of a signed integer: the value modulo `2^64`. -/
def toUint64 (x : Int) : Nat := (x % 2 ^ 64).toNat

/-- Conversion `uint32(x)`. -/
def toUint32 (x : Int) : Nat := (x % 2 ^ 32).toNat

/-- Conversion `int64(x)` (also `int(x)`: Go's `int` has 64 bits on the platforms the
package targets): two's complement wrap into `[-2^63, 2^63)`. -/
def toInt64 (x : Int) : Int := (x + 2 ^ 63) % 2 ^ 64 - 2 ^ 63

/-- Conversion `int32(x)`: two's complement wrap into `[-2^31, 2^31)`. -/
def toInt32 (x : Int) : Int := (x + 2 ^ 31) % 2 ^ 32 - 2 ^ 31

/-- The `int64` operation `x << k`. -/
def shl64 (x : Int) (k : Nat) : Int := toInt64 (x * 2 ^ k)

/-- The `int64` operation `x >> k`: the arithmetic (sign-propagating) shift. -/
def sar64 (x : Int) (k : Nat) : Int := x >>> k

/-- The `int64` operation `x ^ y`, computed on the two's complement bit patterns. -/
def xor64 (x y : Int) : Int := toInt64 ((toUint64 x ^^^ toUint64 y : Nat) : Int)

/-! ## Streams: `bytes.Reader` and `encoding/binary` -/

/-- The unread bytes of a `bytes.Reader`. -/
abbrev Stream := List Nat

/-- Method `bytes.Reader.ReadByte`: `io.EOF` when nothing is left. -/
def ReadByte : Stream → Except Err (Nat × Stream)
  | [] => .error .eof
  | b :: rest => .ok (b, rest)

/-- Method `bytes.Reader.Read(b)` for a buffer `b = make([]byte, n)`: when no byte is left it
returns `io.EOF` (also for `n = 0`); otherwise it copies `min(n, remaining)` bytes and
returns a nil error. The result is the buffer afterwards, whose uncopied tail keeps the
zero bytes of `make`, and the rest of the stream. -/
def Read (n : Nat) : Stream → Except Err (List Nat × Stream)
  | [] => .error .eof
  | b :: rest =>
    .ok ((b :: rest).take n ++ List.replicate (n - (b :: rest).length) 0, (b :: rest).drop n)

/-- Function `io.ReadFull` on a `bytes.Reader`, as `binary.Read` calls it for the `n` bytes of a
fixed-size value: `io.EOF` when nothing is left, `io.ErrUnexpectedEOF` when fewer than
`n` bytes are. -/
def ReadFull (n : Nat) (inp : Stream) : Except Err (List Nat × Stream) :=
  if n ≤ inp.length then .ok (inp.take n, inp.drop n)
  else if inp.length = 0 then .error .eof
  else .error .unexpectedEOF

/-- Methods `binary.LittleEndian.Uint32`/`Uint64`: `b[0] | b[1]<<8 | ...`. -/
def littleEndian : List Nat → Nat
  | [] => 0
  | b :: rest => b ||| (littleEndian rest <<< 8)

/-- Methods `binary.LittleEndian.PutUint32`/`PutUint64` on `make([]byte, n)`:
`b[i] = byte(v >> (8*i))`. -/
def putLittleEndian (n : Nat) (v : Nat) : List Nat :=
  (List.range n).map (fun i => (v >>> (8 * i)) % 256)

/-! ## Varint, ZigZag and fixed-width codecs -/

/-- The first loop of `encodeVarint`: `for v := val; v >= 1<<7; v >>= 7 { length++ }`.
The first argument bounds the number of iterations; a `uint64` needs at most nine. -/
def encodeVarintLength : Nat → Nat → Nat → Nat
  | 0, _, length => length
  | fuel + 1, v, length =>
    if v ≥ 1 <<< 7 then encodeVarintLength fuel (v >>> 7) (length + 1) else length

/-- Function `encodeVarint(val uint64) (int, []byte)`. -/
def encodeVarint (val : Nat) : Nat × List Nat :=
  let length := encodeVarintLength 64 val 1
  let b := (List.range length).map (fun i =>
    let v := (val >>> (7 * i)) &&& 0x7f
    let v := if i + 1 ≠ length then v ||| 0x80 else v
    v % 256)
  (b.length, b)

/-- Function `encodeZigZag(n int64) (int, []byte)`. -/
def encodeZigZag (n : Int) : Nat × List Nat :=
  let v := toUint64 (shl64 n 1) ^^^ toUint64 (sar64 n 63)
  encodeVarint v

/-- Function `encodeFixed64(n uint64) (int, []byte)`. -/
def encodeFixed64 (n : Nat) : Nat × List Nat := (8, putLittleEndian 8 n)

/-- Function `encodeFixed32(n uint32) (int, []byte)`. -/
def encodeFixed32 (n : Nat) : Nat × List Nat := (4, putLittleEndian 4 n)

/-- Function `encodeBytes(b []byte) (int, []byte)`. -/
def encodeBytes (b : List Nat) : Nat × List Nat :=
  let v := encodeVarint (b.length % 2 ^ 64)
  (v.1 + b.length, v.2 ++ b)

/-- Function `dropMSB(b byte) (byte, hasNext bool)`. -/
def dropMSB (b : Nat) : Nat × Bool := (b &&& 0x7f, b >>> 7 == 1)

/-- The loop of `decoder.decodeVarint`, entered at iteration `i` with the running
`length` and `n`. The shift `uint64(v) << (7*i)` drops the bits that leave the 64-bit
word. -/
def decodeVarintLoop : Stream → Nat → Nat → Nat → Except Err (Nat × Nat × Stream)
  | [], _, _, _ => .error .eof
  | b :: rest, i, length, n =>
    let length := length + 1
    let (v, hasNext) := dropMSB b
    let n := n ||| ((v <<< (7 * i)) % 2 ^ 64)
    if !hasNext then .ok (length, n, rest)
    else decodeVarintLoop rest (i + 1) length n

/-- Method `decoder.decodeVarint`: the consumed length, the value and the unread
rest. -/
def decodeVarint (inp : Stream) : Except Err (Nat × Nat × Stream) :=
  decodeVarintLoop inp 0 0 0

/-- Method `decoder.decodeTag`. -/
def decodeTag (inp : Stream) : Except Err (Nat × Stream) :=
  match decodeVarint inp with
  | .ok (_, n, rest) => .ok (n, rest)
  | .error e => .error e

/-- Method `decoder.decodeFixed64bit`. -/
def decodeFixed64bit (inp : Stream) : Except Err (Nat × Stream) :=
  match ReadFull 8 inp with
  | .ok (bs, rest) => .ok (littleEndian bs, rest)
  | .error e => .error e

/-- Method `decoder.decodeFixed32bit`. -/
def decodeFixed32bit (inp : Stream) : Except Err (Nat × Stream) :=
  match ReadFull 4 inp with
  | .ok (bs, rest) => .ok (littleEndian bs, rest)
  | .error e => .error e

/-- Method `decoder.decodeBytes`: the length varint, `make([]byte, n)`, one `Read`
whose byte count is discarded. Allocation failure for a huge `n` is outside the
embedding. -/
def decodeBytes (inp : Stream) : Except Err (List Nat × Stream) :=
  match decodeVarint inp with
  | .error e => .error e
  | .ok (_, n, rest) => Read n rest

/-- Function `decodeZigZag(n uint64) int64`: `int64(n>>1) ^ int64(n)<<63>>63`. -/
def decodeZigZag (n : Nat) : Int :=
  xor64 (toInt64 ((n >>> 1 : Nat) : Int)) (sar64 (shl64 (toInt64 (n : Int)) 63) 63)

/-! ## Descriptors and the dynamic message object model

The descriptor graph and the message object model are the `protoreflect` interfaces the
package is written against. The embedding keeps what the codec observes of them. -/

/-- The constants of `protoreflect.Kind`. -/
inductive Kind where
  | bool | enum | int32 | sint32 | uint32 | int64 | sint64 | uint64
  | sfixed32 | fixed32 | float | sfixed64 | fixed64 | double
  | string | bytes | message | group
  deriving DecidableEq, Repr

/-- What the codec reads of a `protoreflect.FieldDescriptor`: `Number()`, `Kind()`,
`IsList()`, `IsMap()`, `IsPacked()`, `Message()` (the index in the schema of the
descriptor of the field's message type; for a map field that is the entry message, whose
fields 1 and 2 are `MapKey()` and `MapValue()`) and the oneof the field belongs to. -/
structure FieldDesc where
  number : Nat
  kind : Kind
  isList : Bool
  isMap : Bool
  isPacked : Bool
  message : Nat
  oneof : Option Nat
  deriving DecidableEq, Repr

/-- A `protoreflect.MessageDescriptor`: its fields, and whether
`protoregistry.GlobalTypes` knows a message type of its full name. -/
structure MessageDesc where
  fields : List FieldDesc
  registered : Bool
  deriving DecidableEq, Repr

/-- The message descriptors in scope, addressed by index. -/
abbrev Schema := List MessageDesc

/-- Lookup `Fields().ByNumber(n)`: nil (`none`) when no field has the number. -/
def MessageDesc.ByNumber (md : MessageDesc) (n : Int) : Option FieldDesc :=
  md.fields.find? (fun fd => decide ((fd.number : Int) = n))

/-- The descriptor at an index; an index out of range has no fields. -/
def Schema.desc (s : Schema) (t : Nat) : MessageDesc := s.getD t ⟨[], false⟩

/-- A `protoreflect.Value`. Floating-point values are kept as their IEEE bit patterns
(`math.Float32bits`/`math.Float64bits`); a message is its type index and the fields
that hold a value, by number, in the order `Range` visits them (see `Msg`); a map is its
entries in the order `Range` visits them. -/
inductive Value where
  | bool (b : Bool)
  | int32 (n : Int)
  | int64 (n : Int)
  | uint32 (n : Nat)
  | uint64 (n : Nat)
  | float32 (bits : Nat)
  | float64 (bits : Nat)
  | string (s : List Nat)
  | bytes (b : List Nat)
  | enum (n : Int)
  | message (typ : Nat) (fields : List (Nat × Value))
  | list (xs : List Value)
  | map (entries : List (Value × Value))
  deriving Repr

/-- A `protoreflect.Message`: the type index and the fields that hold a value, in the
order `Range` visits them. The interface leaves that order undefined; a message built by
`Set` keeps here the order in which its fields were first set. A value that was `Set` is
kept as it is, also the zero value (or an empty list or map) of a field without presence,
which the object model reports as unpopulated: `Get`, the one read the decoder makes,
returns the same value either way, while `Range` of the object model skips such a field. -/
structure Msg where
  typ : Nat
  fields : List (Nat × Value)
  deriving Repr

/-- Function `protoreflect.ValueOfMessage`. -/
def Msg.toValue (m : Msg) : Value := .message m.typ m.fields

/-- Whether a value has the Go type that a field of the given kind and message type
holds; the object model panics on a value of another type. -/
def Value.hasKind (kind : Kind) (typ : Nat) : Value → Bool
  | .bool _ => kind = .bool
  | .int32 _ => kind = .int32 ∨ kind = .sint32 ∨ kind = .sfixed32
  | .int64 _ => kind = .int64 ∨ kind = .sint64 ∨ kind = .sfixed64
  | .uint32 _ => kind = .uint32 ∨ kind = .fixed32
  | .uint64 _ => kind = .uint64 ∨ kind = .fixed64
  | .float32 _ => kind = .float
  | .float64 _ => kind = .double
  | .string _ => kind = .string
  | .bytes _ => kind = .bytes
  | .enum _ => kind = .enum
  | .message t _ => (kind = .message ∨ kind = .group) ∧ t = typ
  | .list _ => false
  | .map _ => false

/-- Whether `Message.Set(fd, v)` accepts `v`: a list value for a list field, a map
value for a map field, a value of the field's kind otherwise. -/
def FieldDesc.accepts (fd : FieldDesc) : Value → Bool
  | .list _ => fd.isList
  | .map _ => fd.isMap
  | v => !fd.isList && !fd.isMap && v.hasKind fd.kind fd.message

/-- Methods `Int`, `Uint`, `Bool`, `Enum`, `Bytes`, `Message`, `List` and `Map` of
`protoreflect.Value`: each panics on a value of another type. -/
def Value.asInt : Value → Except Err Int
  | .int32 n => .ok n
  | .int64 n => .ok n
  | _ => .error .panic

@[inherit_doc Value.asInt]
def Value.asUint : Value → Except Err Nat
  | .uint32 n => .ok n
  | .uint64 n => .ok n
  | _ => .error .panic

@[inherit_doc Value.asInt]
def Value.asBool : Value → Except Err Bool
  | .bool b => .ok b
  | _ => .error .panic

@[inherit_doc Value.asInt]
def Value.asEnum : Value → Except Err Int
  | .enum n => .ok n
  | _ => .error .panic

@[inherit_doc Value.asInt]
def Value.asBytes : Value → Except Err (List Nat)
  | .bytes b => .ok b
  | _ => .error .panic

/-- Conversion `[]byte(val.String())`. For a value that is not a string Go formats it with
`fmt.Sprint`; no type-checked message reaches that case and the embedding gives it no
bytes to encode. -/
def Value.asString : Value → Except Err (List Nat)
  | .string s => .ok s
  | _ => .error .panic

/-- Bits `math.Float64bits(val.Float())` of a `float64` value. -/
def Value.asFloat64bits : Value → Except Err Nat
  | .float64 bits => .ok bits
  | _ => .error .panic

/-- The bits of a `float32` that has been widened to `float64` and narrowed back: the
widening quiets a signalling NaN (mantissa bit 22 is set, the rest of the payload is
kept); every other value comes back with the bits it had. -/
def quietNaN32 (bits : Nat) : Nat :=
  if 0x7f800000 < bits % 2 ^ 31 then bits ||| 0x00400000 else bits

/-- Bits `math.Float32bits(float32(val.Float()))` of a `float32` value: the value is held
widened to `float64` and is narrowed back, so a signalling NaN is written quiet. -/
def Value.asFloat32bits : Value → Except Err Nat
  | .float32 bits => .ok (quietNaN32 bits)
  | _ => .error .panic

@[inherit_doc Value.asInt]
def Value.asMessage : Value → Except Err Msg
  | .message t fs => .ok ⟨t, fs⟩
  | _ => .error .panic

@[inherit_doc Value.asInt]
def Value.asList : Value → Except Err (List Value)
  | .list xs => .ok xs
  | _ => .error .panic

@[inherit_doc Value.asInt]
def Value.asMap : Value → Except Err (List (Value × Value))
  | .map es => .ok es
  | _ => .error .panic

/-- Method `MapKey` of `protoreflect.Value`: panics unless the value has one of the key types. -/
def Value.asMapKey : Value → Except Err Value
  | .bool b => .ok (.bool b)
  | .int32 n => .ok (.int32 n)
  | .int64 n => .ok (.int64 n)
  | .uint32 n => .ok (.uint32 n)
  | .uint64 n => .ok (.uint64 n)
  | .string s => .ok (.string s)
  | _ => .error .panic

/-- Equality of two map keys. -/
def Value.keyEq : Value → Value → Bool
  | .bool a, .bool b => a = b
  | .int32 a, .int32 b => a = b
  | .int64 a, .int64 b => a = b
  | .uint32 a, .uint32 b => a = b
  | .uint64 a, .uint64 b => a = b
  | .string a, .string b => a = b
  | _, _ => false

/-- Method `Map.Set(k, v)`: the entry of an equal key is overwritten, a new key is added. -/
def mapSet (k v : Value) : List (Value × Value) → List (Value × Value)
  | [] => [(k, v)]
  | (k', v') :: rest => if k'.keyEq k then (k, v) :: rest else (k', v') :: mapSet k v rest

/-- Method `Map.Get(k)` as an option. -/
def mapGet (k : Value) : List (Value × Value) → Option Value
  | [] => none
  | (k', v') :: rest => if k'.keyEq k then some v' else mapGet k rest

/-- The value a field holds, if any (`Get` of a field that has been set). -/
def Msg.lookup (m : Msg) (num : Nat) : Option Value :=
  (m.fields.find? (fun p => p.1 = num)).map (fun p => p.2)

/-- The value `Get` returns for a singular field that is not populated: the zero value
of the kind, an empty message for a message kind. -/
def FieldDesc.default (fd : FieldDesc) : Value :=
  match fd.kind with
  | .bool => .bool false
  | .enum => .enum 0
  | .int32 | .sint32 | .sfixed32 => .int32 0
  | .uint32 | .fixed32 => .uint32 0
  | .int64 | .sint64 | .sfixed64 => .int64 0
  | .uint64 | .fixed64 => .uint64 0
  | .float => .float32 0
  | .double => .float64 0
  | .string => .string []
  | .bytes => .bytes []
  | .message | .group => .message fd.message []

/-- Method `Message.Get(fd)`: the value held, else an empty list, an empty map or the
default. -/
def Msg.Get (m : Msg) (fd : FieldDesc) : Value :=
  match m.lookup fd.number with
  | some v => v
  | none => if fd.isList then .list [] else if fd.isMap then .map [] else fd.default

/-- Whether a populated field is a sibling that `Set(fd, _)` clears: another member of
the oneof of `fd`. -/
def MessageDesc.isSibling (md : MessageDesc) (fd : FieldDesc) (num : Nat) : Bool :=
  num ≠ fd.number ∧ fd.oneof.isSome ∧
    (md.ByNumber num).any (fun fd' => fd'.oneof = fd.oneof)

/-- The store of `Set`: the value replaces the field's present one in place, or becomes
the last field held. -/
def setField (num : Nat) (v : Value) : List (Nat × Value) → List (Nat × Value)
  | [] => [(num, v)]
  | (n', v') :: rest => if n' = num then (num, v) :: rest else (n', v') :: setField num v rest

/-- Method `Message.Set(fd, v)`: panics on a value of the wrong type; clears the other members
of the field's oneof; stores the value, whatever it is (see `Msg` for a zero value). -/
def Msg.Set (md : MessageDesc) (m : Msg) (fd : FieldDesc) (v : Value) : Except Err Msg :=
  if fd.accepts v then
    .ok { m with fields := setField fd.number v (m.fields.filter (fun p => !md.isSibling fd p.1)) }
  else .error .panic

/-- Method `List.Append(v)`: panics on an element of the wrong type. -/
def listAppend (fd : FieldDesc) (xs : List Value) (v : Value) : Except Err (List Value) :=
  if v.hasKind fd.kind fd.message then .ok (xs ++ [v]) else .error .panic

/-- Call `Message.NewField(fd).List()`: a new empty list; the conversion panics when the
field is not a list. -/
def newFieldList (fd : FieldDesc) : Except Err (List Value) :=
  if fd.isList then .ok [] else .error .panic

/-- Methods `fd.MapKey()` and `fd.MapValue()`: fields 1 and 2 of the entry message. -/
def Schema.MapKey (s : Schema) (fd : FieldDesc) : Option FieldDesc :=
  if fd.isMap then (s.desc fd.message).ByNumber 1 else none

@[inherit_doc Schema.MapKey]
def Schema.MapValue (s : Schema) (fd : FieldDesc) : Option FieldDesc :=
  if fd.isMap then (s.desc fd.message).ByNumber 2 else none

/-! ## Wire types -/

/-- Constant `wireTypeVarint`. -/
def wireTypeVarint : Nat := 0
/-- Constant `wireTypeFixed64bit`. -/
def wireTypeFixed64bit : Nat := 1
/-- Constant `wireTypeBytesType`. -/
def wireTypeBytesType : Nat := 2
/-- Constant `wireTypeFixed32bit`. -/
def wireTypeFixed32bit : Nat := 5

/-- The map `wireTypeByKind`, as indexed by `wireTypeByKind[kind]`: the group kind is
not a key, and indexing a Go map with a missing key yields the zero value. -/
def wireTypeByKind : Kind → Nat
  | .int32 | .int64 | .uint32 | .uint64 | .sint32 | .sint64 | .bool | .enum => wireTypeVarint
  | .fixed64 | .sfixed64 | .double => wireTypeFixed64bit
  | .bytes | .string | .message => wireTypeBytesType
  | .fixed32 | .sfixed32 | .float => wireTypeFixed32bit
  | .group => 0

/-! ## The encoder (`encode.go`)

The functions below call one another recursively (`encodeValue` calls `Encode` for an
embedded message). Their first argument after the schema bounds the depth of the call
stack: every call passes one less, and `Err.outOfFuel` is the result at depth 0. -/

/-- Function `encodeTag(kind, fieldNumber) (int, []byte)`. -/
def encodeTag (kind : Kind) (fieldNumber : Nat) : Nat × List Nat :=
  let wireType := wireTypeByKind kind
  let tag := toInt64 ((fieldNumber <<< 3 ||| wireType : Nat) : Int)
  encodeVarint (toUint64 tag)

mutual
/-- Function `encodeValue(desc, val) (int, []byte, error)`. -/
def encodeValue (s : Schema) : Nat → FieldDesc → Value → Except Err (Nat × List Nat)
  | 0, _, _ => .error .outOfFuel
  | fuel + 1, desc, val =>
    match desc.kind with
    | .int32 => do let x ← val.asInt; pure (encodeVarint (toUint64 (toInt32 x)))
    | .int64 => do let x ← val.asInt; pure (encodeVarint (toUint64 x))
    | .uint32 => do let x ← val.asUint; pure (encodeVarint x)
    | .uint64 => do let x ← val.asUint; pure (encodeVarint x)
    | .sint32 => do let x ← val.asInt; pure (encodeZigZag x)
    | .sint64 => do let x ← val.asInt; pure (encodeZigZag x)
    | .bool => do let x ← val.asBool; pure (encodeVarint (if x then 1 else 0))
    | .enum => do let x ← val.asEnum; pure (encodeVarint (toUint64 x))
    | .fixed64 => do let x ← val.asUint; pure (encodeFixed64 x)
    | .sfixed64 => do let x ← val.asInt; pure (encodeFixed64 (toUint64 x))
    | .double => do let x ← val.asFloat64bits; pure (encodeFixed64 x)
    | .bytes => do let x ← val.asBytes; pure (encodeBytes x)
    | .string => do let x ← val.asString; pure (encodeBytes x)
    | .message => do
      let m ← val.asMessage
      let msg ← Encode s fuel m
      pure (encodeBytes msg)
    | .fixed32 => do let x ← val.asUint; pure (encodeFixed32 (x % 2 ^ 32))
    | .sfixed32 => do let x ← val.asInt; pure (encodeFixed32 (toUint32 x))
    | .float => do let x ← val.asFloat32bits; pure (encodeFixed32 x)
    | .group => .error .unreachable

/-- Function `encodeField(desc, val) (int, []byte, error)`. -/
def encodeField (s : Schema) : Nat → FieldDesc → Value → Except Err (Nat × List Nat)
  | 0, _, _ => .error .outOfFuel
  | fuel + 1, desc, val =>
    let t := encodeTag desc.kind desc.number
    match encodeValue s fuel desc val with
    | .error e => .error e
    | .ok (vn, vb) => .ok (t.1 + vn, t.2 ++ vb)

/-- Method `encoder.encodeList(desc, val)`: the bytes it writes. -/
def encodeList (s : Schema) : Nat → FieldDesc → Value → Except Err (List Nat)
  | 0, _, _ => .error .outOfFuel
  | fuel + 1, desc, val =>
    if desc.isPacked then do
      let b := (encodeTag .bytes desc.number).2
      let xs ← val.asList
      let (total, buf) ← xs.foldlM (fun (acc : Nat × List Nat) x => do
        let (n, b) ← encodeValue s fuel desc x
        pure (acc.1 + n, acc.2 ++ b)) (0, [])
      let lb := (encodeVarint (toUint64 (toInt64 total))).2
      pure (b ++ lb ++ buf)
    else do
      let xs ← val.asList
      xs.foldlM (fun (out : List Nat) x => do
        let (_, b) ← encodeField s fuel desc x
        pure (out ++ b)) []

/-- Method `encoder.encodeMap(desc, val)`: the bytes it writes. A nil key or value
descriptor makes `encodeField` panic. -/
def encodeMap (s : Schema) : Nat → FieldDesc → Value → Except Err (List Nat)
  | 0, _, _ => .error .outOfFuel
  | fuel + 1, desc, val => do
    let es ← val.asMap
    es.foldlM (fun (out : List Nat) (e : Value × Value) => do
      let b := (encodeTag .bytes desc.number).2
      let keyDesc ← (s.MapKey desc).elim (.error .panic) .ok
      let (kn, kb) ← encodeField s fuel keyDesc e.1
      let valDesc ← (s.MapValue desc).elim (.error .panic) .ok
      let (vn, vb) ← encodeField s fuel valDesc e.2
      let length := (encodeVarint (toUint64 (toInt64 ((kn + vn : Nat) : Int)))).2
      pure (out ++ b ++ length ++ kb ++ vb)) []

/-- Method `encoder.encodeMessage(msg)`: the bytes it writes, ranging over the fields the
message holds, which stand for the ones `Range` visits. -/
def encodeMessage (s : Schema) : Nat → Msg → Except Err (List Nat)
  | 0, _ => .error .outOfFuel
  | fuel + 1, msg =>
    msg.fields.foldlM (fun (out : List Nat) (p : Nat × Value) =>
      match (s.desc msg.typ).ByNumber p.1 with
      | none => pure out
      | some desc =>
        if desc.isList then do
          let b ← encodeList s fuel desc p.2
          pure (out ++ b)
        else if desc.isMap then do
          let b ← encodeMap s fuel desc p.2
          pure (out ++ b)
        else do
          let (_, b) ← encodeField s fuel desc p.2
          pure (out ++ b)) []

/-- Function `Encode(msg) ([]byte, error)`. -/
def Encode (s : Schema) : Nat → Msg → Except Err (List Nat)
  | 0, _ => .error .outOfFuel
  | fuel + 1, msg => encodeMessage s fuel msg
end

/-! ## The decoder (`decode.go`)

The first argument after the schema bounds the calls and loop iterations still allowed:
every call and every iteration passes one less. -/

/-- The descriptor `&nonRepeatedFieldDescriptor{desc}`: `IsPacked` is overridden to
false, every other method is the one of `desc`. -/
def nonRepeatedFieldDescriptor (desc : FieldDesc) : FieldDesc := { desc with isPacked := false }

mutual
/-- Method `decoder.decodeValue(desc, wireType)`: the returned count, the value and the
unread rest of the stream. A nil `desc` is `none`; calling `Kind()` on it panics. The
value is given as the `protoreflect.ValueOf` that both callers apply to it at once keeps
it: a `float32` is widened to `float64` there, which quiets a signalling NaN. -/
def decodeValue (s : Schema) :
    Nat → Option FieldDesc → Nat → Stream → Except Err (Nat × Value × Stream)
  | 0, _, _, _ => .error .outOfFuel
  | fuel + 1, desc, wireType, inp =>
    if wireType = wireTypeVarint then
      match decodeVarint inp with
      | .error e => .error e
      | .ok (n, v, rest) =>
        match desc with
        | none => .error .panic
        | some d =>
          match d.kind with
          | .int32 => .ok (n, .int32 (toInt32 v), rest)
          | .int64 => .ok (n, .int64 (toInt64 v), rest)
          | .uint32 => .ok (n, .uint32 (v % 2 ^ 32), rest)
          | .uint64 => .ok (n, .uint64 v, rest)
          | .sint32 => .ok (n, .int32 (toInt32 (decodeZigZag v)), rest)
          | .sint64 => .ok (n, .int64 (decodeZigZag v), rest)
          | .bool => .ok (n, .bool (v != 0), rest)
          | .enum => .ok (n, .enum (toInt32 v), rest)
          | _ => .error .unreachable
    else if wireType = wireTypeFixed64bit then
      match decodeFixed64bit inp with
      | .error e => .error e
      | .ok (n, rest) =>
        match desc with
        | none => .error .panic
        | some d =>
          match d.kind with
          | .fixed64 => .ok (8, .uint64 n, rest)
          | .sfixed64 => .ok (8, .int64 (toInt64 n), rest)
          | .double => .ok (8, .float64 n, rest)
          | _ => .error .unreachable
    else if wireType = wireTypeBytesType then
      match desc with
      | none => .error .panic
      | some d =>
        match d.kind with
        | .bytes =>
          match decodeBytes inp with
          | .error e => .error e
          | .ok (b, rest) => .ok (b.length, .bytes b, rest)
        | .string =>
          match decodeBytes inp with
          | .error e => .error e
          | .ok (b, rest) => .ok (b.length, .string b, rest)
        | .message =>
          match decodeBytes inp with
          | .error e => .error e
          | .ok (b, rest) =>
            if !d.isMap && !(s.desc d.message).registered then .error .notFound
            else
              match Decode s fuel ⟨d.message, []⟩ b with
              | .error e => .error e
              | .ok msg => .ok (b.length, msg.toValue, rest)
        | _ =>
          match newFieldList d with
          | .error e => .error e
          | .ok list =>
            match decodeVarint inp with
            | .error e => .error e
            | .ok (_, maxLen, rest) => decodePacked s fuel d (toInt64 maxLen) 0 list rest
    else if wireType = wireTypeFixed32bit then
      match decodeFixed32bit inp with
      | .error e => .error e
      | .ok (n, rest) =>
        match desc with
        | none => .error .panic
        | some d =>
          match d.kind with
          | .fixed32 => .ok (4, .uint32 n, rest)
          | .sfixed32 => .ok (4, .int32 (toInt32 n), rest)
          | .float => .ok (4, .float32 (quietNaN32 n), rest)
          | _ => .error .unreachable
    else .error .unreachable

/-- The loop `for totalLen < int(maxLen)` of the packed branch of `decodeValue`, with
the running `totalLen` and `list`. -/
def decodePacked (s : Schema) :
    Nat → FieldDesc → Int → Nat → List Value → Stream → Except Err (Nat × Value × Stream)
  | 0, _, _, _, _, _ => .error .outOfFuel
  | fuel + 1, desc, maxLen, totalLen, list, inp =>
    if (totalLen : Int) < maxLen then
      match decodeValue s fuel (some (nonRepeatedFieldDescriptor desc))
          (wireTypeByKind desc.kind) inp with
      | .error e => .error e
      | .ok (n, v, rest) =>
        match listAppend desc list v with
        | .error e => .error e
        | .ok list => decodePacked s fuel desc maxLen (totalLen + n) list rest
    else .ok (totalLen, .list list, inp)

/-- Method `decoder.decodeField(desc, wireType, fieldNumber)`. -/
def decodeField (s : Schema) :
    Nat → Option FieldDesc → Nat → Int → Stream → Except Err (Value × Stream)
  | 0, _, _, _, _ => .error .outOfFuel
  | fuel + 1, desc, wireType, _, inp =>
    match decodeValue s fuel desc wireType inp with
    | .error e => .error e
    | .ok (_, v, rest) => .ok (v, rest)

/-- Method `decoder.decodeMessage()`: the message after the loop has run to the end of
the stream. An `io.EOF` from `decodeTag` ends the loop. -/
def decodeMessage (s : Schema) : Nat → Msg → Stream → Except Err Msg
  | 0, _, _ => .error .outOfFuel
  | fuel + 1, msg, inp =>
    match decodeTag inp with
    | .error .eof => .ok msg
    | .error e => .error e
    | .ok (tag, rest) =>
      let wireType := tag &&& 0x07
      let fieldNumber := toInt32 ((tag >>> 3 : Nat) : Int)
      let fieldDesc := (s.desc msg.typ).ByNumber fieldNumber
      match decodeField s fuel fieldDesc wireType fieldNumber rest with
      | .error e => .error e
      | .ok (v, rest) =>
        match fieldDesc with
        | none => .error .panic
        | some fd =>
          if fd.isList && !fd.isPacked then
            match (msg.Get fd).asList with
            | .error e => .error e
            | .ok list =>
              match listAppend fd list v with
              | .error e => .error e
              | .ok list =>
                match msg.Set (s.desc msg.typ) fd (.list list) with
                | .error e => .error e
                | .ok msg => decodeMessage s fuel msg rest
          else if fd.isMap then
            match (msg.Get fd).asMap, v.asMessage with
            | .ok m, .ok e =>
              match s.MapKey fd, s.MapValue fd with
              | some kd, some vd =>
                match (e.Get kd).asMapKey with
                | .error err => .error err
                | .ok k =>
                  match msg.Set (s.desc msg.typ) fd (.map (mapSet k (e.Get vd) m)) with
                  | .error err => .error err
                  | .ok msg => decodeMessage s fuel msg rest
              | _, _ => .error .panic
            | _, _ => .error .panic
          else
            match msg.Set (s.desc msg.typ) fd v with
            | .error e => .error e
            | .ok msg => decodeMessage s fuel msg rest

/-- Function `Decode(msg, in) error`: the message as the call leaves it. On an error
the embedding does not keep the partly filled message. -/
def Decode (s : Schema) : Nat → Msg → Stream → Except Err Msg
  | 0, _, _ => .error .outOfFuel
  | fuel + 1, msg, inp => decodeMessage s fuel msg inp
end

/-! ## Scalar values and the wire layouts of a repeated field -/

/-- Whether a value is one that a field of the given integer, bool or enum kind holds:
it has the Go type of the kind and lies in the range of that type. -/
def Value.isScalarOf : Kind → Value → Bool
  | .int32, .int32 n => decide (-2 ^ 31 ≤ n ∧ n < 2 ^ 31)
  | .sint32, .int32 n => decide (-2 ^ 31 ≤ n ∧ n < 2 ^ 31)
  | .sfixed32, .int32 n => decide (-2 ^ 31 ≤ n ∧ n < 2 ^ 31)
  | .int64, .int64 n => decide (-2 ^ 63 ≤ n ∧ n < 2 ^ 63)
  | .sint64, .int64 n => decide (-2 ^ 63 ≤ n ∧ n < 2 ^ 63)
  | .sfixed64, .int64 n => decide (-2 ^ 63 ≤ n ∧ n < 2 ^ 63)
  | .uint32, .uint32 n => decide (n < 2 ^ 32)
  | .fixed32, .uint32 n => decide (n < 2 ^ 32)
  | .uint64, .uint64 n => decide (n < 2 ^ 64)
  | .fixed64, .uint64 n => decide (n < 2 ^ 64)
  | .bool, .bool _ => true
  | .enum, .enum n => decide (-2 ^ 31 ≤ n ∧ n < 2 ^ 31)
  | _, _ => false

/-- The bytes `encodeValue` returns for a value of a field; no bytes where it returns an
error. -/
def valueBytes (s : Schema) (desc : FieldDesc) (x : Value) : List Nat :=
  match encodeValue s 1 desc x with
  | .ok (_, b) => b
  | .error _ => []

/-- The payload of a packed list: the bare encodings of the elements, back to back. -/
def packedPayload (s : Schema) (desc : FieldDesc) : List Value → List Nat
  | [] => []
  | x :: xs => valueBytes s desc x ++ packedPayload s desc xs

/-- The packed layout of a list: one tag of wire type 2, the varint of a declared
length, the payload. -/
def packedLayout (s : Schema) (desc : FieldDesc) (declared : Nat) (xs : List Value) : List Nat :=
  (encodeTag .bytes desc.number).2 ++ (encodeVarint declared).2 ++ packedPayload s desc xs

/-- The unpacked layout of a list: the tag of the field's kind and the value, once per
element. -/
def unpackedLayout (s : Schema) (desc : FieldDesc) : List Value → List Nat
  | [] => []
  | x :: xs =>
    (encodeTag desc.kind desc.number).2 ++ valueBytes s desc x ++ unpackedLayout s desc xs

/-- A repeated field of kind `kind` and number `number`, packed or not, that is not a
map. -/
def FieldDesc.isRepeated (d : FieldDesc) (kind : Kind) (number : Nat) (packed : Bool) : Bool :=
  d.kind = kind ∧ d.number = number ∧ d.isList ∧ d.isPacked = packed ∧ !d.isMap

/-- What the packed and unpacked round trips need of one scalar element. -/
structure ScalarCodec (s : Schema) (desc : FieldDesc) (x : Value) : Prop where
  encode : ∀ fuel, encodeValue s (fuel + 1) desc x
    = .ok ((valueBytes s desc x).length, valueBytes s desc x)
  pos : 1 ≤ (valueBytes s desc x).length
  decode : ∀ (fuel : Nat) (d : FieldDesc) (rest : Stream), d.kind = desc.kind →
    decodeValue s (fuel + 1) (some d) (wireTypeByKind desc.kind) (valueBytes s desc x ++ rest)
      = .ok ((valueBytes s desc x).length, x, rest)
  kind : ∀ typ, x.hasKind desc.kind typ = true

/-! ## An example schema

Three message types with fields of the kinds the message of `TestDecode` uses. The
generated package of that test is not part of the sources read here; the field numbers
below are this development's own. -/

/-- Type 0, `Message`: `int32_field = 1`, `string_field = 2`,
`embedded_message_field = 3`, `repeated_packed_int32_field = 4` (packed),
`repeated_int32_field = 5` (not packed), `map_string = 6`. -/
def exMessage : MessageDesc :=
  { fields := [⟨1, .int32, false, false, false, 0, none⟩,
               ⟨2, .string, false, false, false, 0, none⟩,
               ⟨3, .message, false, false, false, 1, none⟩,
               ⟨4, .int32, true, false, true, 0, none⟩,
               ⟨5, .int32, true, false, false, 0, none⟩,
               ⟨6, .message, false, true, false, 2, none⟩],
    registered := true }

/-- Type 1, `EmbeddedMessage`: `field = 1` and the self-referential
`circular_field = 2`. -/
def exEmbeddedMessage : MessageDesc :=
  { fields := [⟨1, .int32, false, false, false, 0, none⟩,
               ⟨2, .message, false, false, false, 0, none⟩],
    registered := true }

/-- Type 2, the entry message of `map_string`: `key = 1` and `value = 2`, both strings.
Entry messages are synthetic and not in the registry. -/
def exMapStringEntry : MessageDesc :=
  { fields := [⟨1, .string, false, false, false, 0, none⟩,
               ⟨2, .string, false, false, false, 0, none⟩],
    registered := false }

/-- The example schema. -/
def exSchema : Schema := [exMessage, exEmbeddedMessage, exMapStringEntry]

/-- A fresh `Message`. -/
def exFresh : Msg := ⟨0, []⟩

/-- A `Message` with every field of the example schema populated, after the message of
`TestDecode`: `int32_field = -5`, `string_field = "ab"`, an embedded message that holds
a `Message` in its self-referential field, the lists `[1, 2, 300]` and `[1, 2]`, and a
map with two entries. -/
def exPopulated : Msg :=
  ⟨0, [(1, .int32 (-5)), (2, .string [0x61, 0x62]),
       (3, .message 1 [(1, .int32 10), (2, .message 0 [(1, .int32 100)])]),
       (4, .list [.int32 1, .int32 2, .int32 300]), (5, .list [.int32 1, .int32 2]),
       (6, .map [(.string [0x61], .string [0x78]), (.string [0x62], .string [0x79])])]⟩

/-! ## Definitions for the claims on the codecs -/

/-- The sum of the seven-bit groups of a byte sequence, least significant group first:
the group `b & 0x7f` of the byte at index `j` has the weight `2^(7*(i+j))`, where `i` is
the index of the first byte. -/
def groupSum : List Nat → Nat → Nat
  | [], _ => 0
  | b :: bs, i => (b &&& 0x7f) * 2 ^ (7 * i) + groupSum bs (i + 1)

/-- A sequence of framed payloads: for each payload a tag, the varint of the payload's
byte count, and the payload. -/
def framedLayout (tag : List Nat) : List (List Nat) → List Nat
  | [] => []
  | p :: ps => tag ++ (encodeVarint p.length).2 ++ p ++ framedLayout tag ps

/-- The schema of the `sint32` scenario: one message type whose field 1, `int32_field`,
has the kind `sint32`. -/
def exSint32Schema : Schema :=
  [{ fields := [⟨1, .sint32, false, false, false, 0, none⟩], registered := true }]

/-- The `sint32` scenario with field 1 declared repeated: packed in message type 0, not
packed in message type 1. -/
def exRepeatedSint32Schema : Schema :=
  [{ fields := [⟨1, .sint32, true, false, true, 0, none⟩], registered := true },
   { fields := [⟨1, .sint32, true, false, false, 0, none⟩], registered := true }]

/-! ## Varint lemmas -/

theorem dropMSB_low (y : Nat) (h : y < 128) : dropMSB y = (y, false) := by
  revert y; decide

theorem dropMSB_high (y : Nat) (h : y < 128) : dropMSB (y + 128) = (y, true) := by
  revert y; decide

theorem group_low (x : Nat) : (x &&& 0x7f) % 256 = x % 128 := by
  have h : x &&& 0x7f = x % 128 := Nat.and_pow_two_sub_one_eq_mod x 7
  rw [h]; omega

theorem group_high (x : Nat) : ((x &&& 0x7f) ||| 0x80) % 256 = x % 128 + 128 := by
  have h : x &&& 0x7f = x % 128 := Nat.and_pow_two_sub_one_eq_mod x 7
  rw [h]
  have h2 : x % 128 < 128 := Nat.mod_lt _ (by decide)
  generalize x % 128 = y at h2
  revert y; decide

theorem shiftRight_seven (val i : Nat) : val >>> (7 * i) = val / 128 ^ i := by
  rw [Nat.shiftRight_eq_div_pow, pow_mul]; norm_num

theorem or_shiftLeft_group (val i : Nat) :
    (val % 128 ^ i) ||| ((val / 128 ^ i % 128) <<< (7 * i)) = val % 128 ^ (i + 1) := by
  have hp : (128 : Nat) ^ i = 2 ^ (7 * i) := by rw [pow_mul]; norm_num
  rw [Nat.shiftLeft_eq, Nat.lor_comm, ← hp, Nat.mul_comm]
  have hlt : val % 128 ^ i < 2 ^ (7 * i) := by rw [← hp]; exact Nat.mod_lt _ (by positivity)
  have := Nat.mul_add_lt_is_or hlt (val / 128 ^ i % 128)
  rw [← hp] at this
  rw [← this, pow_succ, Nat.mod_mul, Nat.add_comm]

theorem encodeVarintLength_spec (fuel : Nat) : ∀ (v length : Nat), v < 128 ^ (fuel + 1) →
    length ≤ encodeVarintLength fuel v length ∧
      v < 128 ^ (encodeVarintLength fuel v length - length + 1) := by
  induction fuel with
  | zero => intro v length h; simpa [encodeVarintLength] using h
  | succ fuel ih =>
    intro v length h
    unfold encodeVarintLength
    have e : v >>> 7 = v / 128 := by rw [Nat.shiftRight_eq_div_pow]
    rw [e]
    split
    · have hv : v / 128 < 128 ^ (fuel + 1) := by
        apply Nat.div_lt_of_lt_mul
        rw [pow_succ] at h; omega
      obtain ⟨h1, h2⟩ := ih (v / 128) (length + 1) hv
      refine ⟨by omega, ?_⟩
      generalize encodeVarintLength fuel (v / 128) (length + 1) = L at h1 h2
      have : L - length + 1 = (L - (length + 1) + 1) + 1 := by omega
      rw [this, pow_succ]
      generalize 128 ^ (L - (length + 1) + 1) = P at h2
      omega
    · rename_i hge
      simp at hge ⊢
      exact hge

theorem encodeVarint_length_bound (val : Nat) (h : val < 2 ^ 64) :
    1 ≤ encodeVarintLength 64 val 1 ∧ val < 128 ^ encodeVarintLength 64 val 1 := by
  have hv : val < 128 ^ (64 + 1) := lt_trans h (by norm_num)
  obtain ⟨h1, h2⟩ := encodeVarintLength_spec 64 val 1 hv
  refine ⟨h1, ?_⟩
  have : encodeVarintLength 64 val 1 - 1 + 1 = encodeVarintLength 64 val 1 := by omega
  rwa [this] at h2

/-- The bytes `encodeVarint` builds for the indices `i, i+1, ..., i+k-1`. -/
theorem decodeVarintLoop_encode (val L : Nat) (hval : val < 2 ^ 64) (hL : val < 128 ^ L)
    (rest : Stream) : ∀ (k i : Nat), i + (k + 1) = L →
    decodeVarintLoop ((List.range' i (k + 1)).map (fun i =>
        (if i + 1 ≠ L then ((val >>> (7 * i)) &&& 0x7f) ||| 0x80
          else (val >>> (7 * i)) &&& 0x7f) % 256) ++ rest) i i (val % 128 ^ i)
      = .ok (L, val, rest) := by
  intro k
  induction k with
  | zero =>
    intro i hi
    have hi1 : i + 1 = L := hi
    simp only [List.range'_one, List.map_cons, List.map_nil, List.singleton_append,
      decodeVarintLoop, hi1, ne_eq, not_true_eq_false, if_false]
    rw [group_low, shiftRight_seven, dropMSB_low _ (Nat.mod_lt _ (by decide))]
    have hle : val / 128 ^ i % 128 * 2 ^ (7 * i) ≤ val := by
      have hp : (2 : Nat) ^ (7 * i) = 128 ^ i := by rw [pow_mul]; norm_num
      rw [hp]
      calc val / 128 ^ i % 128 * 128 ^ i ≤ val / 128 ^ i * 128 ^ i :=
            Nat.mul_le_mul_right _ (Nat.mod_le _ _)
        _ ≤ val := Nat.div_mul_le_self _ _
    have hmod : (val / 128 ^ i % 128) <<< (7 * i) % 2 ^ 64
        = (val / 128 ^ i % 128) <<< (7 * i) := by
      rw [Nat.shiftLeft_eq]; exact Nat.mod_eq_of_lt (lt_of_le_of_lt hle hval)
    simp only [hmod, or_shiftLeft_group, hi1, Nat.mod_eq_of_lt hL]
    rfl
  | succ k ih =>
    intro i hi
    have hne : i + 1 ≠ L := by omega
    rw [List.range'_succ]
    simp only [List.map_cons, List.cons_append, decodeVarintLoop, hne, ne_eq,
      not_false_eq_true, if_true]
    rw [group_high, shiftRight_seven, dropMSB_high _ (Nat.mod_lt _ (by decide))]
    have hle : val / 128 ^ i % 128 * 2 ^ (7 * i) ≤ val := by
      have hp : (2 : Nat) ^ (7 * i) = 128 ^ i := by rw [pow_mul]; norm_num
      rw [hp]
      calc val / 128 ^ i % 128 * 128 ^ i ≤ val / 128 ^ i * 128 ^ i :=
            Nat.mul_le_mul_right _ (Nat.mod_le _ _)
        _ ≤ val := Nat.div_mul_le_self _ _
    have hmod : (val / 128 ^ i % 128) <<< (7 * i) % 2 ^ 64
        = (val / 128 ^ i % 128) <<< (7 * i) := by
      rw [Nat.shiftLeft_eq]; exact Nat.mod_eq_of_lt (lt_of_le_of_lt hle hval)
    simp only [hmod, or_shiftLeft_group]
    exact ih (i + 1) (by omega)

theorem encodeVarint_snd (val : Nat) : (encodeVarint val).2 =
    (List.range' 0 (encodeVarintLength 64 val 1)).map (fun i =>
        (if i + 1 ≠ encodeVarintLength 64 val 1 then ((val >>> (7 * i)) &&& 0x7f) ||| 0x80
          else (val >>> (7 * i)) &&& 0x7f) % 256) := by
  simp only [encodeVarint, List.range_eq_range']

theorem encodeVarint_fst (val : Nat) : (encodeVarint val).1 = encodeVarintLength 64 val 1 := by
  simp [encodeVarint]

/-- Reading back a varint: the bytes of `encodeVarint val`, followed by anything, decode
to `val`, consume exactly those bytes and leave the rest. -/
theorem decodeVarint_encodeVarint_append (val : Nat) (h : val < 2 ^ 64) (rest : Stream) :
    decodeVarint ((encodeVarint val).2 ++ rest) = .ok ((encodeVarint val).1, val, rest) := by
  obtain ⟨h1, h2⟩ := encodeVarint_length_bound val h
  rw [encodeVarint_snd, encodeVarint_fst, decodeVarint]
  obtain ⟨k, hk⟩ : ∃ k, encodeVarintLength 64 val 1 = k + 1 := ⟨_, (Nat.sub_add_cancel h1).symm⟩
  have := decodeVarintLoop_encode val (encodeVarintLength 64 val 1) h h2 rest k 0 (by omega)
  simp only [pow_zero, Nat.mod_one] at this
  rw [← hk] at this
  exact this

/-! ## ZigZag lemmas -/

theorem xor_ones (a : Nat) (h : a < 2 ^ 64) : a ^^^ (2 ^ 64 - 1) = 2 ^ 64 - 1 - a := by
  have e : 2 ^ 64 - 1 - a = 2 ^ 64 - (a + 1) := by omega
  rw [e]
  apply Nat.eq_of_testBit_eq
  intro i
  rw [Nat.testBit_xor, Nat.testBit_two_pow_sub_one, Nat.testBit_two_pow_sub_succ h]
  by_cases hi : i < 64
  · simp [hi]
  · have : a.testBit i = false := by
      apply Nat.testBit_lt_two_pow
      exact lt_of_lt_of_le h (Nat.pow_le_pow_right (by decide) (by omega))
    simp [hi, this]

theorem sar64_63 (n : Int) (h1 : -2 ^ 63 ≤ n) (h2 : n < 2 ^ 63) :
    sar64 n 63 = if 0 ≤ n then 0 else -1 := by
  unfold sar64
  rw [Int.shiftRight_eq_div_pow]
  norm_num
  split <;> omega

/-- The unsigned value `encodeZigZag` hands to `encodeVarint`. -/
theorem zigzag_value (n : Int) (h1 : -2 ^ 63 ≤ n) (h2 : n < 2 ^ 63) :
    toUint64 (shl64 n 1) ^^^ toUint64 (sar64 n 63)
      = if 0 ≤ n then (2 * n).toNat else (-2 * n - 1).toNat := by
  rw [sar64_63 n h1 h2]
  by_cases hn : 0 ≤ n
  · simp only [hn, if_true]
    have : toUint64 (shl64 n 1) = (2 * n).toNat := by
      unfold toUint64 shl64 toInt64; omega
    rw [this]
    simp [toUint64]
  · simp only [hn, if_false]
    have ha : toUint64 (shl64 n 1) = (2 * n + 2 ^ 64).toNat := by
      unfold toUint64 shl64 toInt64; omega
    have hb : toUint64 (-1) = 2 ^ 64 - 1 := by decide
    rw [ha, hb, xor_ones _ (by omega)]
    omega

theorem decodeZigZag_even (m : Nat) (h : m < 2 ^ 63) : decodeZigZag (2 * m) = m := by
  unfold decodeZigZag
  have e1 : (2 * m) >>> 1 = m := by rw [Nat.shiftRight_eq_div_pow]; omega
  have e2 : shl64 (toInt64 ((2 * m : Nat) : Int)) 63 = 0 := by
    unfold shl64 toInt64; push_cast; omega
  rw [e1, e2]
  have e3 : sar64 0 63 = 0 := by decide
  rw [e3]
  unfold xor64
  have e4 : toUint64 (toInt64 (m : Int)) = m := by unfold toUint64 toInt64; omega
  have e5 : toUint64 0 = 0 := by decide
  rw [e4, e5]
  simp only [Nat.xor_zero]
  unfold toInt64; omega

theorem decodeZigZag_odd (m : Nat) (h : m < 2 ^ 63) : decodeZigZag (2 * m + 1) = -(m : Int) - 1 := by
  unfold decodeZigZag
  have e1 : (2 * m + 1) >>> 1 = m := by rw [Nat.shiftRight_eq_div_pow]; omega
  have e2 : shl64 (toInt64 ((2 * m + 1 : Nat) : Int)) 63 = -2 ^ 63 := by
    unfold shl64 toInt64; push_cast; omega
  rw [e1, e2]
  have e3 : sar64 (-2 ^ 63) 63 = -1 := by decide
  rw [e3]
  unfold xor64
  have e4 : toUint64 (toInt64 (m : Int)) = m := by unfold toUint64 toInt64; omega
  have e5 : toUint64 (-1) = 2 ^ 64 - 1 := by decide
  rw [e4, e5, xor_ones _ (by omega)]
  unfold toInt64; omega

theorem decodeZigZag_value (n : Int) (h1 : -2 ^ 63 ≤ n) (h2 : n < 2 ^ 63) :
    decodeZigZag (if 0 ≤ n then (2 * n).toNat else (-2 * n - 1).toNat) = n := by
  by_cases hn : 0 ≤ n
  · simp only [hn, if_true]
    have : (2 * n).toNat = 2 * n.toNat := by omega
    rw [this, decodeZigZag_even _ (by omega)]; omega
  · simp only [hn, if_false]
    have : (-2 * n - 1).toNat = 2 * (-n - 1).toNat + 1 := by omega
    rw [this, decodeZigZag_odd _ (by omega)]; omega

/-! ## Fixed-width lemmas -/

theorem littleEndian_range' (v : Nat) : ∀ (k i : Nat),
    littleEndian ((List.range' i k).map (fun i => (v >>> (8 * i)) % 256)) = v / 256 ^ i % 256 ^ k := by
  intro k
  induction k with
  | zero => intro i; simp [littleEndian, Nat.mod_one]
  | succ k ih =>
    intro i
    rw [List.range'_succ, List.map_cons, littleEndian, ih (i + 1)]
    have e1 : v >>> (8 * i) = v / 256 ^ i := by
      rw [Nat.shiftRight_eq_div_pow, pow_mul]; norm_num
    rw [e1, Nat.shiftLeft_eq, Nat.lor_comm]
    have hlt : v / 256 ^ i % 256 < 2 ^ 8 := Nat.mod_lt _ (by norm_num)
    have := Nat.mul_add_lt_is_or hlt (v / 256 ^ (i + 1) % 256 ^ k)
    rw [Nat.mul_comm] at this
    rw [← this]
    have e2 : v / 256 ^ (i + 1) = v / 256 ^ i / 256 := by
      rw [pow_succ, Nat.div_div_eq_div_mul]
    have e3 : (256 : Nat) ^ (k + 1) = 256 * 256 ^ k := by rw [pow_succ, Nat.mul_comm]
    rw [e2, e3, Nat.mod_mul]
    generalize v / 256 ^ i = a
    generalize a / 256 % 256 ^ k = c
    norm_num
    omega

theorem littleEndian_putLittleEndian (n v : Nat) (h : v < 256 ^ n) :
    littleEndian (putLittleEndian n v) = v := by
  unfold putLittleEndian
  rw [List.range_eq_range', littleEndian_range' v n 0]
  simp [Nat.mod_eq_of_lt h]

theorem putLittleEndian_length (n v : Nat) : (putLittleEndian n v).length = n := by
  simp [putLittleEndian]

theorem ReadFull_append (bs rest : Stream) :
    ReadFull bs.length (bs ++ rest) = .ok (bs, rest) := by
  unfold ReadFull
  simp

theorem decodeFixed64bit_encode (v : Nat) (h : v < 2 ^ 64) (rest : Stream) :
    decodeFixed64bit ((encodeFixed64 v).2 ++ rest) = .ok (v, rest) := by
  unfold decodeFixed64bit encodeFixed64
  have := ReadFull_append (putLittleEndian 8 v) rest
  rw [putLittleEndian_length] at this
  simp only [this]
  rw [littleEndian_putLittleEndian 8 v (lt_of_lt_of_le h (by norm_num))]

theorem decodeFixed32bit_encode (v : Nat) (h : v < 2 ^ 32) (rest : Stream) :
    decodeFixed32bit ((encodeFixed32 v).2 ++ rest) = .ok (v, rest) := by
  unfold decodeFixed32bit encodeFixed32
  have := ReadFull_append (putLittleEndian 4 v) rest
  rw [putLittleEndian_length] at this
  simp only [this]
  rw [littleEndian_putLittleEndian 4 v (lt_of_lt_of_le h (by norm_num))]

theorem encodeVarint_length_pos (v : Nat) (h : v < 2 ^ 64) : 1 ≤ (encodeVarint v).2.length := by
  have := (encodeVarint_length_bound v h).1
  simpa [encodeVarint] using this

theorem encodeVarint_fst_eq_length (v : Nat) : (encodeVarint v).1 = (encodeVarint v).2.length := by
  simp [encodeVarint]
/-! ## Tag lemmas -/

theorem tag_value (k : Kind) (f : Nat) (h : f ≤ 2 ^ 29 - 1) :
    toUint64 (toInt64 ((f <<< 3 ||| wireTypeByKind k : Nat) : Int)) = 8 * f + wireTypeByKind k := by
  have hw : wireTypeByKind k < 2 ^ 3 := by cases k <;> decide
  have e : f <<< 3 ||| wireTypeByKind k = 8 * f + wireTypeByKind k := by
    rw [Nat.shiftLeft_eq, Nat.mul_comm]
    exact (Nat.mul_add_lt_is_or hw f).symm
  rw [e]
  unfold toUint64 toInt64
  norm_num at hw
  omega

/-! ## Scalar values -/

theorem ScalarCodec.of_bytes {s : Schema} {desc : FieldDesc} {x : Value} (n : Nat)
    (b : List Nat) (hn : n = b.length) (hpos : 1 ≤ b.length)
    (henc : ∀ fuel, encodeValue s (fuel + 1) desc x = .ok (n, b))
    (hdec : ∀ (fuel : Nat) (d : FieldDesc) (rest : Stream), d.kind = desc.kind →
      decodeValue s (fuel + 1) (some d) (wireTypeByKind desc.kind) (b ++ rest) = .ok (n, x, rest))
    (hkind : ∀ typ, x.hasKind desc.kind typ = true) : ScalarCodec s desc x := by
  have hb : valueBytes s desc x = b := by
    unfold valueBytes; rw [henc 0]
  refine ⟨?_, ?_, ?_, hkind⟩
  · intro fuel; rw [henc fuel, hb, hn]
  · rw [hb]; exact hpos
  · intro fuel d rest hd
    rw [hb, hdec fuel d rest hd, hn]

theorem decodeValue_varint (s : Schema) (fuel : Nat) (d : FieldDesc) (u : Nat) (hu : u < 2 ^ 64)
    (rest : Stream) :
    decodeValue s (fuel + 1) (some d) wireTypeVarint ((encodeVarint u).2 ++ rest) =
      match d.kind with
      | .int32 => .ok ((encodeVarint u).1, .int32 (toInt32 u), rest)
      | .int64 => .ok ((encodeVarint u).1, .int64 (toInt64 u), rest)
      | .uint32 => .ok ((encodeVarint u).1, .uint32 (u % 2 ^ 32), rest)
      | .uint64 => .ok ((encodeVarint u).1, .uint64 u, rest)
      | .sint32 => .ok ((encodeVarint u).1, .int32 (toInt32 (decodeZigZag u)), rest)
      | .sint64 => .ok ((encodeVarint u).1, .int64 (decodeZigZag u), rest)
      | .bool => .ok ((encodeVarint u).1, .bool (u != 0), rest)
      | .enum => .ok ((encodeVarint u).1, .enum (toInt32 u), rest)
      | _ => .error .unreachable := by
  rw [decodeValue]
  simp only [if_true, decodeVarint_encodeVarint_append u hu rest]

theorem decodeValue_fixed64 (s : Schema) (fuel : Nat) (d : FieldDesc) (u : Nat) (hu : u < 2 ^ 64)
    (rest : Stream) :
    decodeValue s (fuel + 1) (some d) wireTypeFixed64bit ((encodeFixed64 u).2 ++ rest) =
      match d.kind with
      | .fixed64 => .ok (8, .uint64 u, rest)
      | .sfixed64 => .ok (8, .int64 (toInt64 u), rest)
      | .double => .ok (8, .float64 u, rest)
      | _ => .error .unreachable := by
  rw [decodeValue]
  have h1 : ¬ wireTypeFixed64bit = wireTypeVarint := by decide
  simp only [if_true, if_false, h1, decodeFixed64bit_encode u hu rest]

theorem decodeValue_fixed32 (s : Schema) (fuel : Nat) (d : FieldDesc) (u : Nat) (hu : u < 2 ^ 32)
    (rest : Stream) :
    decodeValue s (fuel + 1) (some d) wireTypeFixed32bit ((encodeFixed32 u).2 ++ rest) =
      match d.kind with
      | .fixed32 => .ok (4, .uint32 u, rest)
      | .sfixed32 => .ok (4, .int32 (toInt32 u), rest)
      | .float => .ok (4, .float32 (quietNaN32 u), rest)
      | _ => .error .unreachable := by
  rw [decodeValue]
  have h1 : ¬ wireTypeFixed32bit = wireTypeVarint := by decide
  have h2 : ¬ wireTypeFixed32bit = wireTypeFixed64bit := by decide
  have h3 : ¬ wireTypeFixed32bit = wireTypeBytesType := by decide
  simp only [if_true, if_false, h1, h2, h3, decodeFixed32bit_encode u hu rest]


theorem zigzag_lt (n : Int) (h1 : -2 ^ 63 ≤ n) (h2 : n < 2 ^ 63) :
    toUint64 (shl64 n 1) ^^^ toUint64 (sar64 n 63) < 2 ^ 64 := by
  rw [zigzag_value n h1 h2]
  split <;> omega

theorem decodeZigZag_encode (n : Int) (h1 : -2 ^ 63 ≤ n) (h2 : n < 2 ^ 63) :
    decodeZigZag (toUint64 (shl64 n 1) ^^^ toUint64 (sar64 n 63)) = n := by
  rw [zigzag_value n h1 h2]
  exact decodeZigZag_value n h1 h2

theorem scalarCodec_int32 (s : Schema) (desc : FieldDesc) (hK : desc.kind = .int32) (n : Int)
    (h1 : -2 ^ 31 ≤ n) (h2 : n < 2 ^ 31) : ScalarCodec s desc (.int32 n) := by
  have hu : toUint64 (toInt32 n) < 2 ^ 64 := by unfold toUint64 toInt32; omega
  refine ScalarCodec.of_bytes (encodeVarint (toUint64 (toInt32 n))).1 (encodeVarint (toUint64 (toInt32 n))).2
    (encodeVarint_fst_eq_length _) (encodeVarint_length_pos _ hu) ?_ ?_ ?_
  · intro fuel
    rw [encodeValue]
    simp only [hK]
    rfl
  · intro fuel d rest hd
    rw [hK] at hd ⊢
    show decodeValue s (fuel + 1) (some d) wireTypeVarint _ = _
    rw [decodeValue_varint s fuel d _ hu rest]
    simp only [hd]
    have hb : toInt32 ((toUint64 (toInt32 n) : Nat) : Int) = n := by
      unfold toUint64 toInt32; omega
    rw [hb]
  · intro typ
    simp [Value.hasKind, hK]

theorem scalarCodec_int64 (s : Schema) (desc : FieldDesc) (hK : desc.kind = .int64) (n : Int)
    (h1 : -2 ^ 63 ≤ n) (h2 : n < 2 ^ 63) : ScalarCodec s desc (.int64 n) := by
  have hu : toUint64 n < 2 ^ 64 := by unfold toUint64; omega
  refine ScalarCodec.of_bytes (encodeVarint (toUint64 n)).1 (encodeVarint (toUint64 n)).2
    (encodeVarint_fst_eq_length _) (encodeVarint_length_pos _ hu) ?_ ?_ ?_
  · intro fuel
    rw [encodeValue]
    simp only [hK]
    rfl
  · intro fuel d rest hd
    rw [hK] at hd ⊢
    show decodeValue s (fuel + 1) (some d) wireTypeVarint _ = _
    rw [decodeValue_varint s fuel d _ hu rest]
    simp only [hd]
    have hb : toInt64 ((toUint64 n : Nat) : Int) = n := by
      unfold toUint64 toInt64; omega
    rw [hb]
  · intro typ
    simp [Value.hasKind, hK]

theorem scalarCodec_uint32 (s : Schema) (desc : FieldDesc) (hK : desc.kind = .uint32) (n : Nat)
    (h2 : n < 2 ^ 32) : ScalarCodec s desc (.uint32 n) := by
  have hu : n < 2 ^ 64 := by omega
  refine ScalarCodec.of_bytes (encodeVarint (n)).1 (encodeVarint (n)).2
    (encodeVarint_fst_eq_length _) (encodeVarint_length_pos _ hu) ?_ ?_ ?_
  · intro fuel
    rw [encodeValue]
    simp only [hK]
    rfl
  · intro fuel d rest hd
    rw [hK] at hd ⊢
    show decodeValue s (fuel + 1) (some d) wireTypeVarint _ = _
    rw [decodeValue_varint s fuel d _ hu rest]
    simp only [hd]
    rw [Nat.mod_eq_of_lt h2]
  · intro typ
    simp [Value.hasKind, hK]

theorem scalarCodec_uint64 (s : Schema) (desc : FieldDesc) (hK : desc.kind = .uint64) (n : Nat)
    (h2 : n < 2 ^ 64) : ScalarCodec s desc (.uint64 n) := by
  have hu : n < 2 ^ 64 := by omega
  refine ScalarCodec.of_bytes (encodeVarint (n)).1 (encodeVarint (n)).2
    (encodeVarint_fst_eq_length _) (encodeVarint_length_pos _ hu) ?_ ?_ ?_
  · intro fuel
    rw [encodeValue]
    simp only [hK]
    rfl
  · intro fuel d rest hd
    rw [hK] at hd ⊢
    show decodeValue s (fuel + 1) (some d) wireTypeVarint _ = _
    rw [decodeValue_varint s fuel d _ hu rest]
    simp only [hd]
  · intro typ
    simp [Value.hasKind, hK]

theorem scalarCodec_sint32 (s : Schema) (desc : FieldDesc) (hK : desc.kind = .sint32) (n : Int)
    (h1 : -2 ^ 31 ≤ n) (h2 : n < 2 ^ 31) : ScalarCodec s desc (.int32 n) := by
  have hu : toUint64 (shl64 n 1) ^^^ toUint64 (sar64 n 63) < 2 ^ 64 := zigzag_lt n (by omega) (by omega)
  refine ScalarCodec.of_bytes (encodeVarint (toUint64 (shl64 n 1) ^^^ toUint64 (sar64 n 63))).1 (encodeVarint (toUint64 (shl64 n 1) ^^^ toUint64 (sar64 n 63))).2
    (encodeVarint_fst_eq_length _) (encodeVarint_length_pos _ hu) ?_ ?_ ?_
  · intro fuel
    rw [encodeValue]
    simp only [hK]
    rfl
  · intro fuel d rest hd
    rw [hK] at hd ⊢
    show decodeValue s (fuel + 1) (some d) wireTypeVarint _ = _
    rw [decodeValue_varint s fuel d _ hu rest]
    simp only [hd]
    rw [decodeZigZag_encode n (by omega) (by omega)]
    have hb : toInt32 n = n := by unfold toInt32; omega
    rw [hb]
  · intro typ
    simp [Value.hasKind, hK]

theorem scalarCodec_sint64 (s : Schema) (desc : FieldDesc) (hK : desc.kind = .sint64) (n : Int)
    (h1 : -2 ^ 63 ≤ n) (h2 : n < 2 ^ 63) : ScalarCodec s desc (.int64 n) := by
  have hu : toUint64 (shl64 n 1) ^^^ toUint64 (sar64 n 63) < 2 ^ 64 := zigzag_lt n (by omega) (by omega)
  refine ScalarCodec.of_bytes (encodeVarint (toUint64 (shl64 n 1) ^^^ toUint64 (sar64 n 63))).1 (encodeVarint (toUint64 (shl64 n 1) ^^^ toUint64 (sar64 n 63))).2
    (encodeVarint_fst_eq_length _) (encodeVarint_length_pos _ hu) ?_ ?_ ?_
  · intro fuel
    rw [encodeValue]
    simp only [hK]
    rfl
  · intro fuel d rest hd
    rw [hK] at hd ⊢
    show decodeValue s (fuel + 1) (some d) wireTypeVarint _ = _
    rw [decodeValue_varint s fuel d _ hu rest]
    simp only [hd]
    rw [decodeZigZag_encode n h1 h2]
  · intro typ
    simp [Value.hasKind, hK]

theorem scalarCodec_enum (s : Schema) (desc : FieldDesc) (hK : desc.kind = .enum) (n : Int)
    (h1 : -2 ^ 31 ≤ n) (h2 : n < 2 ^ 31) : ScalarCodec s desc (.enum n) := by
  have hu : toUint64 n < 2 ^ 64 := by unfold toUint64; omega
  refine ScalarCodec.of_bytes (encodeVarint (toUint64 n)).1 (encodeVarint (toUint64 n)).2
    (encodeVarint_fst_eq_length _) (encodeVarint_length_pos _ hu) ?_ ?_ ?_
  · intro fuel
    rw [encodeValue]
    simp only [hK]
    rfl
  · intro fuel d rest hd
    rw [hK] at hd ⊢
    show decodeValue s (fuel + 1) (some d) wireTypeVarint _ = _
    rw [decodeValue_varint s fuel d _ hu rest]
    simp only [hd]
    have hb : toInt32 ((toUint64 n : Nat) : Int) = n := by
      unfold toUint64 toInt32; omega
    rw [hb]
  · intro typ
    simp [Value.hasKind, hK]

theorem scalarCodec_fixed64 (s : Schema) (desc : FieldDesc) (hK : desc.kind = .fixed64) (n : Nat)
    (h2 : n < 2 ^ 64) : ScalarCodec s desc (.uint64 n) := by
  have hu : n < 2 ^ 64 := by omega
  refine ScalarCodec.of_bytes (encodeFixed64 (n)).1 (encodeFixed64 (n)).2
    ((putLittleEndian_length 8 _).symm) (by simp [encodeFixed64, encodeFixed32, putLittleEndian_length]) ?_ ?_ ?_
  · intro fuel
    rw [encodeValue]
    simp only [hK]
    rfl
  · intro fuel d rest hd
    rw [hK] at hd ⊢
    show decodeValue s (fuel + 1) (some d) wireTypeFixed64bit _ = _
    rw [decodeValue_fixed64 s fuel d _ hu rest]
    simp only [hd]
    rfl
  · intro typ
    simp [Value.hasKind, hK]

theorem scalarCodec_sfixed64 (s : Schema) (desc : FieldDesc) (hK : desc.kind = .sfixed64) (n : Int)
    (h1 : -2 ^ 63 ≤ n) (h2 : n < 2 ^ 63) : ScalarCodec s desc (.int64 n) := by
  have hu : toUint64 n < 2 ^ 64 := by unfold toUint64; omega
  refine ScalarCodec.of_bytes (encodeFixed64 (toUint64 n)).1 (encodeFixed64 (toUint64 n)).2
    ((putLittleEndian_length 8 _).symm) (by simp [encodeFixed64, encodeFixed32, putLittleEndian_length]) ?_ ?_ ?_
  · intro fuel
    rw [encodeValue]
    simp only [hK]
    rfl
  · intro fuel d rest hd
    rw [hK] at hd ⊢
    show decodeValue s (fuel + 1) (some d) wireTypeFixed64bit _ = _
    rw [decodeValue_fixed64 s fuel d _ hu rest]
    simp only [hd]
    have hb : toInt64 ((toUint64 n : Nat) : Int) = n := by
      unfold toUint64 toInt64; omega
    rw [hb]
    rfl
  · intro typ
    simp [Value.hasKind, hK]

theorem scalarCodec_fixed32 (s : Schema) (desc : FieldDesc) (hK : desc.kind = .fixed32) (n : Nat)
    (h2 : n < 2 ^ 32) : ScalarCodec s desc (.uint32 n) := by
  have hu : n % 2 ^ 32 < 2 ^ 32 := by omega
  refine ScalarCodec.of_bytes (encodeFixed32 (n % 2 ^ 32)).1 (encodeFixed32 (n % 2 ^ 32)).2
    ((putLittleEndian_length 4 _).symm) (by simp [encodeFixed64, encodeFixed32, putLittleEndian_length]) ?_ ?_ ?_
  · intro fuel
    rw [encodeValue]
    simp only [hK]
    rfl
  · intro fuel d rest hd
    rw [hK] at hd ⊢
    show decodeValue s (fuel + 1) (some d) wireTypeFixed32bit _ = _
    rw [decodeValue_fixed32 s fuel d _ hu rest]
    simp only [hd]
    rw [Nat.mod_eq_of_lt h2]
    rfl
  · intro typ
    simp [Value.hasKind, hK]

theorem scalarCodec_sfixed32 (s : Schema) (desc : FieldDesc) (hK : desc.kind = .sfixed32) (n : Int)
    (h1 : -2 ^ 31 ≤ n) (h2 : n < 2 ^ 31) : ScalarCodec s desc (.int32 n) := by
  have hu : toUint32 n < 2 ^ 32 := by unfold toUint32; omega
  refine ScalarCodec.of_bytes (encodeFixed32 (toUint32 n)).1 (encodeFixed32 (toUint32 n)).2
    ((putLittleEndian_length 4 _).symm) (by simp [encodeFixed64, encodeFixed32, putLittleEndian_length]) ?_ ?_ ?_
  · intro fuel
    rw [encodeValue]
    simp only [hK]
    rfl
  · intro fuel d rest hd
    rw [hK] at hd ⊢
    show decodeValue s (fuel + 1) (some d) wireTypeFixed32bit _ = _
    rw [decodeValue_fixed32 s fuel d _ hu rest]
    simp only [hd]
    have hb : toInt32 ((toUint32 n : Nat) : Int) = n := by
      unfold toUint32 toInt32; omega
    rw [hb]
    rfl
  · intro typ
    simp [Value.hasKind, hK]

theorem scalarCodec_bool (s : Schema) (desc : FieldDesc) (hK : desc.kind = .bool) (b : Bool) :
    ScalarCodec s desc (.bool b) := by
  have hu : (if b then 1 else 0 : Nat) < 2 ^ 64 := by cases b <;> decide
  refine ScalarCodec.of_bytes (encodeVarint (if b then 1 else 0)).1
    (encodeVarint (if b then 1 else 0)).2
    (encodeVarint_fst_eq_length _) (encodeVarint_length_pos _ hu) ?_ ?_ ?_
  · intro fuel
    rw [encodeValue]
    simp only [hK]
    rfl
  · intro fuel d rest hd
    rw [hK] at hd ⊢
    show decodeValue s (fuel + 1) (some d) wireTypeVarint _ = _
    rw [decodeValue_varint s fuel d _ hu rest]
    simp only [hd]
    cases b <;> rfl
  · intro typ
    simp [Value.hasKind, hK]

/-- Every value of an integer, bool or enum kind has the codec properties. -/
theorem scalarCodec_of_isScalarOf (s : Schema) (desc : FieldDesc) (x : Value)
    (h : x.isScalarOf desc.kind = true) : ScalarCodec s desc x := by
  cases hK : desc.kind <;> rw [hK] at h <;> cases x <;>
    simp only [Value.isScalarOf, decide_eq_true_eq, Bool.false_eq_true] at h
  · exact scalarCodec_bool s desc hK _
  · exact scalarCodec_enum s desc hK _ h.1 h.2
  · exact scalarCodec_int32 s desc hK _ h.1 h.2
  · exact scalarCodec_sint32 s desc hK _ h.1 h.2
  · exact scalarCodec_uint32 s desc hK _ h
  · exact scalarCodec_int64 s desc hK _ h.1 h.2
  · exact scalarCodec_sint64 s desc hK _ h.1 h.2
  · exact scalarCodec_uint64 s desc hK _ h
  · exact scalarCodec_sfixed32 s desc hK _ h.1 h.2
  · exact scalarCodec_fixed32 s desc hK _ h
  · exact scalarCodec_sfixed64 s desc hK _ h.1 h.2
  · exact scalarCodec_fixed64 s desc hK _ h


/-! ## Decoding the fields of a message -/

theorem tag_fields (f w : Nat) (hf : f ≤ 2 ^ 29 - 1) (hw : w < 8) :
    (8 * f + w) &&& 0x07 = w ∧ toInt32 (((8 * f + w) >>> 3 : Nat) : Int) = (f : Int) := by
  constructor
  · have := Nat.and_pow_two_sub_one_eq_mod (8 * f + w) 3
    norm_num at this
    rw [this]; omega
  · have : (8 * f + w) >>> 3 = f := by rw [Nat.shiftRight_eq_div_pow]; omega
    rw [this]; unfold toInt32; omega

theorem decodeTag_encodeTag_append (k : Kind) (f : Nat) (hf : f ≤ 2 ^ 29 - 1) (rest : Stream) :
    decodeTag ((encodeTag k f).2 ++ rest) = .ok (8 * f + wireTypeByKind k, rest) := by
  have hw : wireTypeByKind k < 8 := by cases k <;> decide
  have e : encodeTag k f = encodeVarint (8 * f + wireTypeByKind k) := by
    show encodeVarint (toUint64 (toInt64 _)) = _
    rw [tag_value k f hf]
  rw [e]
  unfold decodeTag
  rw [decodeVarint_encodeVarint_append _ (by omega) rest]

theorem ByNumber_number (md : MessageDesc) (n : Int) (fd : FieldDesc)
    (h : md.ByNumber n = some fd) : (fd.number : Int) = n := by
  unfold MessageDesc.ByNumber at h
  have := List.find?_some h
  simpa using this

/-- One iteration of `decodeMessage` on a field whose value is stored by `Set` alone (a
singular field or a packed list). -/
theorem decodeMessage_step_set (s : Schema) (fuel : Nat) (msg msg' : Msg) (k : Kind) (f : Nat)
    (hf : f ≤ 2 ^ 29 - 1) (fd : FieldDesc) (inp rest : Stream) (n : Nat) (v : Value)
    (hfd : (s.desc msg.typ).ByNumber f = some fd)
    (hlist : (fd.isList && !fd.isPacked) = false) (hmap : fd.isMap = false)
    (hval : decodeValue s (fuel + 1) (some fd) (wireTypeByKind k) inp = .ok (n, v, rest))
    (hset : msg.Set (s.desc msg.typ) fd v = .ok msg') :
    decodeMessage s (fuel + 3) msg ((encodeTag k f).2 ++ inp) = decodeMessage s (fuel + 2) msg' rest := by
  have hw : wireTypeByKind k < 8 := by cases k <;> decide
  obtain ⟨h1, h2⟩ := tag_fields f (wireTypeByKind k) hf hw
  rw [decodeMessage]
  simp only [decodeTag_encodeTag_append k f hf inp, h1, h2, hfd]
  rw [decodeField]
  simp only [hval, hlist, hmap, hset, Bool.false_eq_true, if_false]

/-- One iteration of `decodeMessage` on an element of a repeated field that is not
packed. -/
theorem decodeMessage_step_append (s : Schema) (fuel : Nat) (msg msg' : Msg) (k : Kind) (f : Nat)
    (hf : f ≤ 2 ^ 29 - 1) (fd : FieldDesc) (inp rest : Stream) (n : Nat) (v : Value)
    (list list' : List Value)
    (hfd : (s.desc msg.typ).ByNumber f = some fd)
    (hlist : (fd.isList && !fd.isPacked) = true)
    (hval : decodeValue s (fuel + 1) (some fd) (wireTypeByKind k) inp = .ok (n, v, rest))
    (hget : (msg.Get fd).asList = .ok list)
    (happ : listAppend fd list v = .ok list')
    (hset : msg.Set (s.desc msg.typ) fd (.list list') = .ok msg') :
    decodeMessage s (fuel + 3) msg ((encodeTag k f).2 ++ inp) = decodeMessage s (fuel + 2) msg' rest := by
  have hw : wireTypeByKind k < 8 := by cases k <;> decide
  obtain ⟨h1, h2⟩ := tag_fields f (wireTypeByKind k) hf hw
  rw [decodeMessage]
  simp only [decodeTag_encodeTag_append k f hf inp, h1, h2, hfd]
  rw [decodeField]
  simp only [hval, hlist, hget, happ, hset, if_true]

/-- The iteration of `decodeMessage` that finds the stream exhausted. -/
theorem decodeMessage_nil (s : Schema) (fuel : Nat) (msg : Msg) :
    decodeMessage s (fuel + 1) msg [] = .ok msg := by
  rw [decodeMessage]
  rfl


/-! ## Packed and unpacked lists -/

theorem packedPayload_append (s : Schema) (desc : FieldDesc) (xs ys : List Value) :
    packedPayload s desc (xs ++ ys) = packedPayload s desc xs ++ packedPayload s desc ys := by
  induction xs with
  | nil => rfl
  | cons x xs ih => simp [packedPayload, ih]

/-- The packed loop reads whole elements until the running count reaches the declared
length: with the count below the declared length before the last element and not below
it after, all elements are read and the loop ends. -/
theorem decodePacked_elems (s : Schema) (desc : FieldDesc) (maxLen : Int) (rest : Stream)
    (y : Value) (hy : ScalarCodec s desc y) :
    ∀ (ys : List Value) (fuel totalLen : Nat) (list : List Value),
      (∀ x ∈ ys, ScalarCodec s desc x) → ys.length + 2 ≤ fuel →
      ((totalLen + (packedPayload s desc ys).length : Nat) : Int) < maxLen →
      maxLen ≤ ((totalLen + (packedPayload s desc (ys ++ [y])).length : Nat) : Int) →
      decodePacked s fuel desc maxLen totalLen list (packedPayload s desc (ys ++ [y]) ++ rest)
        = .ok (totalLen + (packedPayload s desc (ys ++ [y])).length,
            .list (list ++ (ys ++ [y])), rest) := by
  intro ys
  induction ys with
  | nil =>
    intro fuel totalLen list _ hfuel h1 h2
    obtain ⟨f, rfl⟩ : ∃ f, fuel = f + 2 := ⟨fuel - 2, by simp at hfuel; omega⟩
    simp only [packedPayload, List.nil_append, List.append_nil, List.length_nil,
      Nat.add_zero] at h1 h2 ⊢
    rw [decodePacked]
    simp only [h1, if_true]
    rw [hy.decode f (nonRepeatedFieldDescriptor desc) rest rfl]
    simp only [listAppend, hy.kind, if_true]
    rw [decodePacked]
    have : ¬ (((totalLen + (valueBytes s desc y).length : Nat) : Int) < maxLen) := by omega
    simp only [this, if_false]
  | cons x ys ih =>
    intro fuel totalLen list hall hfuel h1 h2
    obtain ⟨f, rfl⟩ : ∃ f, fuel = f + 2 := ⟨fuel - 2, by simp at hfuel; omega⟩
    have hx : ScalarCodec s desc x := hall x (List.mem_cons_self _ _)
    have e : packedPayload s desc ((x :: ys) ++ [y])
        = valueBytes s desc x ++ packedPayload s desc (ys ++ [y]) := rfl
    have e' : packedPayload s desc (x :: ys)
        = valueBytes s desc x ++ packedPayload s desc ys := rfl
    rw [e] at h2 ⊢
    rw [e'] at h1
    rw [List.length_append] at h1 h2 ⊢
    rw [List.append_assoc, decodePacked]
    have hlt : (totalLen : Int) < maxLen := by omega
    simp only [hlt, if_true]
    rw [hx.decode f (nonRepeatedFieldDescriptor desc) _ rfl]
    simp only [listAppend, hx.kind, if_true]
    have := ih (f + 1) (totalLen + (valueBytes s desc x).length) (list ++ [x])
      (fun z hz => hall z (List.mem_cons_of_mem _ hz))
      (by rw [List.length_cons] at hfuel; omega)
      (by push_cast at h1 ⊢; omega) (by push_cast at h2 ⊢; omega)
    rw [this]
    simp only [List.append_assoc, List.cons_append, List.nil_append, Nat.add_assoc]

theorem Msg.Set_fresh (md : MessageDesc) (t : Nat) (fd : FieldDesc) (v : Value)
    (h : fd.accepts v = true) : Msg.Set md ⟨t, []⟩ fd v = .ok ⟨t, [(fd.number, v)]⟩ := by
  simp [Msg.Set, h, setField]

theorem Msg.Set_single (md : MessageDesc) (t : Nat) (fd : FieldDesc) (w v : Value)
    (h : fd.accepts v = true) :
    Msg.Set md ⟨t, [(fd.number, w)]⟩ fd v = .ok ⟨t, [(fd.number, v)]⟩ := by
  simp [Msg.Set, h, setField, MessageDesc.isSibling]

theorem Msg.Get_fresh_list (t : Nat) (fd : FieldDesc) (h : fd.isList = true) :
    Msg.Get ⟨t, []⟩ fd = .list [] := by
  simp [Msg.Get, Msg.lookup, h]

theorem Msg.Get_single (t : Nat) (fd : FieldDesc) (w : Value) :
    Msg.Get ⟨t, [(fd.number, w)]⟩ fd = w := by
  simp [Msg.Get, Msg.lookup]


theorem isScalarOf_kind (K : Kind) (x : Value) (h : x.isScalarOf K = true) :
    K ≠ .bytes ∧ K ≠ .string ∧ K ≠ .message := by
  cases K <;> cases x <;> simp [Value.isScalarOf] at h ⊢

/-- The packed branch of `decodeValue`: a length-delimited occurrence of a list field
whose kind is not bytes, string or message. -/
theorem decodeValue_packed (s : Schema) (fuel : Nat) (d : FieldDesc) (inp : Stream)
    (hl : d.isList = true) (hk : d.kind ≠ .bytes ∧ d.kind ≠ .string ∧ d.kind ≠ .message) :
    decodeValue s (fuel + 1) (some d) wireTypeBytesType inp =
      match decodeVarint inp with
      | .error e => .error e
      | .ok (_, maxLen, rest) => decodePacked s fuel d (toInt64 maxLen) 0 [] rest := by
  rw [decodeValue]
  have h1 : ¬ wireTypeBytesType = wireTypeVarint := by decide
  have h2 : ¬ wireTypeBytesType = wireTypeFixed64bit := by decide
  simp only [h1, h2, if_true, if_false, newFieldList, hl]
  obtain ⟨k1, k2, k3⟩ := hk
  generalize d.kind = k at k1 k2 k3
  cases k <;> first | rfl | contradiction

theorem isRepeated_iff (d : FieldDesc) (K : Kind) (f : Nat) (p : Bool)
    (h : d.isRepeated K f p = true) :
    d.kind = K ∧ d.number = f ∧ d.isList = true ∧ d.isPacked = p ∧ d.isMap = false := by
  simpa [FieldDesc.isRepeated] using h

/-- Decoding a packed field from a fresh message: the elements are read until the count
reaches the declared length `L`, which the last element may overshoot. -/
theorem decode_packed_field (s : Schema) (t f : Nat) (K : Kind) (desc : FieldDesc)
    (hdesc : (s.desc t).ByNumber f = some desc) (hrep : desc.isRepeated K f true = true)
    (hf : f ≤ 2 ^ 29 - 1) (ys : List Value) (y : Value)
    (hys : ∀ x ∈ ys ++ [y], x.isScalarOf K = true) (L : Nat)
    (hL1 : (packedPayload s desc ys).length < L)
    (hL2 : L ≤ (packedPayload s desc (ys ++ [y])).length) (hL3 : L < 2 ^ 63)
    (fuel : Nat) (hfuel : ys.length + 6 ≤ fuel) :
    Decode s fuel ⟨t, []⟩ (packedLayout s desc L (ys ++ [y]))
      = .ok ⟨t, [(f, .list (ys ++ [y]))]⟩ := by
  obtain ⟨hkind, hnum, hlist, hpacked, hmap⟩ := isRepeated_iff desc K f true hrep
  obtain ⟨F, rfl⟩ : ∃ F, fuel = F + 4 := ⟨fuel - 4, by omega⟩
  have hcodec : ∀ x ∈ ys ++ [y], ScalarCodec s desc x := fun x hx =>
    scalarCodec_of_isScalarOf s desc x (by rw [hkind]; exact hys x hx)
  have hk := isScalarOf_kind K y (hys y (by simp))
  rw [← hkind] at hk
  rw [Decode, packedLayout, List.append_assoc, hnum]
  have hval : decodeValue s (F + 1) (some desc) (wireTypeByKind .bytes)
      ((encodeVarint L).2 ++ packedPayload s desc (ys ++ [y]))
      = .ok (0 + (packedPayload s desc (ys ++ [y])).length, .list ([] ++ (ys ++ [y])), []) := by
    show decodeValue s (F + 1) (some desc) wireTypeBytesType _ = _
    rw [decodeValue_packed s F desc _ hlist hk]
    rw [decodeVarint_encodeVarint_append L (by omega)]
    have hint : toInt64 (L : Int) = L := by unfold toInt64; omega
    simp only [hint]
    have := decodePacked_elems s desc (L : Int) [] y (hcodec y (by simp)) ys F 0 []
      (fun x hx => hcodec x (List.mem_append_left _ hx)) (by omega)
      (by push_cast; omega) (by push_cast; omega)
    rw [List.append_nil] at this
    exact this
  have hset : Msg.Set (s.desc t) ⟨t, []⟩ desc (.list ([] ++ (ys ++ [y])))
      = .ok ⟨t, [(desc.number, .list ([] ++ (ys ++ [y])))]⟩ :=
    Msg.Set_fresh _ t desc _ (by simp [FieldDesc.accepts, hlist])
  rw [decodeMessage_step_set s F ⟨t, []⟩ _ .bytes f hf desc _ [] _ _ hdesc
    (by simp [hlist, hpacked]) hmap hval hset]
  rw [decodeMessage_nil, hnum]
  rfl


/-- The loop of `decodeMessage` over the unpacked occurrences of a repeated field, from
a message that holds the elements read so far. -/
theorem decodeMessage_unpacked (s : Schema) (t : Nat) (desc : FieldDesc)
    (hdesc : (s.desc t).ByNumber desc.number = some desc) (hf : desc.number ≤ 2 ^ 29 - 1)
    (hlist : desc.isList = true) (hpacked : desc.isPacked = false) :
    ∀ (xs acc : List Value) (fuel : Nat), (∀ x ∈ xs, ScalarCodec s desc x) →
      xs.length + 2 ≤ fuel →
      decodeMessage s fuel ⟨t, [(desc.number, .list acc)]⟩ (unpackedLayout s desc xs)
        = .ok ⟨t, [(desc.number, .list (acc ++ xs))]⟩ := by
  intro xs
  induction xs with
  | nil =>
    intro acc fuel _ hfuel
    obtain ⟨F, rfl⟩ : ∃ F, fuel = F + 1 := ⟨fuel - 1, by simp at hfuel; omega⟩
    rw [unpackedLayout, decodeMessage_nil, List.append_nil]
  | cons x xs ih =>
    intro acc fuel hall hfuel
    rw [List.length_cons] at hfuel
    obtain ⟨F, rfl⟩ : ∃ F, fuel = F + 3 := ⟨fuel - 3, by omega⟩
    have hx : ScalarCodec s desc x := hall x (List.mem_cons_self _ _)
    rw [unpackedLayout, List.append_assoc]
    have hset := Msg.Set_single (s.desc t) t desc (.list acc) (.list (acc ++ [x]))
      (by simp [FieldDesc.accepts, hlist])
    rw [decodeMessage_step_append s F ⟨t, [(desc.number, .list acc)]⟩ _ desc.kind desc.number hf
      desc _ (unpackedLayout s desc xs) _ x acc (acc ++ [x]) hdesc (by simp [hlist, hpacked])
      (hx.decode F desc _ rfl) (by rw [Msg.Get_single]; rfl)
      (by simp [listAppend, hx.kind]) hset]
    rw [ih (acc ++ [x]) (F + 2) (fun z hz => hall z (List.mem_cons_of_mem _ hz)) (by omega)]
    simp

/-- Decoding the unpacked occurrences of a repeated field from a fresh message. -/
theorem decode_unpacked_field (s : Schema) (t f : Nat) (K : Kind) (desc : FieldDesc)
    (hdesc : (s.desc t).ByNumber f = some desc) (hrep : desc.isRepeated K f false = true)
    (hf : f ≤ 2 ^ 29 - 1) (xs : List Value) (hne : xs ≠ [])
    (hxs : ∀ x ∈ xs, x.isScalarOf K = true) (fuel : Nat) (hfuel : xs.length + 3 ≤ fuel) :
    Decode s fuel ⟨t, []⟩ (unpackedLayout s desc xs) = .ok ⟨t, [(f, .list xs)]⟩ := by
  obtain ⟨hkind, hnum, hlist, hpacked, hmap⟩ := isRepeated_iff desc K f false hrep
  have hcodec : ∀ x ∈ xs, ScalarCodec s desc x := fun x hx =>
    scalarCodec_of_isScalarOf s desc x (by rw [hkind]; exact hxs x hx)
  subst hnum
  cases xs with
  | nil => exact absurd rfl hne
  | cons x xs =>
    rw [List.length_cons] at hfuel
    obtain ⟨F, rfl⟩ : ∃ F, fuel = F + 4 := ⟨fuel - 4, by omega⟩
    have hx : ScalarCodec s desc x := hcodec x (List.mem_cons_self _ _)
    rw [Decode, unpackedLayout, List.append_assoc]
    have hset := Msg.Set_fresh (s.desc t) t desc (.list ([] ++ [x]))
      (by simp [FieldDesc.accepts, hlist])
    rw [decodeMessage_step_append s F ⟨t, []⟩ _ desc.kind desc.number hf
      desc _ (unpackedLayout s desc xs) _ x [] ([] ++ [x]) hdesc (by simp [hlist, hpacked])
      (hx.decode F desc _ rfl) (by rw [Msg.Get_fresh_list t desc hlist]; rfl)
      (by simp [listAppend, hx.kind]) hset]
    rw [decodeMessage_unpacked s t desc hdesc hf hlist hpacked xs ([] ++ [x]) (F + 2)
      (fun z hz => hcodec z (List.mem_cons_of_mem _ hz)) (by omega)]
    simp

/-- One length-delimited block of a packed field, read by `decodeValue`: the elements
are read until the count reaches the declared length `L`, which the last element may
overstep; what follows the block is left unread. -/
theorem decodeValue_packed_block (s : Schema) (desc : FieldDesc) (hlist : desc.isList = true)
    (ys : List Value) (y : Value) (hys : ∀ x ∈ ys ++ [y], ScalarCodec s desc x)
    (hk : desc.kind ≠ .bytes ∧ desc.kind ≠ .string ∧ desc.kind ≠ .message) (L : Nat)
    (hL1 : (packedPayload s desc ys).length < L)
    (hL2 : L ≤ (packedPayload s desc (ys ++ [y])).length) (hL3 : L < 2 ^ 63)
    (F : Nat) (hF : ys.length + 2 ≤ F) (rest : Stream) :
    decodeValue s (F + 1) (some desc) (wireTypeByKind .bytes)
        ((encodeVarint L).2 ++ (packedPayload s desc (ys ++ [y]) ++ rest))
      = .ok ((packedPayload s desc (ys ++ [y])).length, .list (ys ++ [y]), rest) := by
  show decodeValue s (F + 1) (some desc) wireTypeBytesType _ = _
  rw [decodeValue_packed s F desc _ hlist hk]
  rw [decodeVarint_encodeVarint_append L (by omega)]
  have hint : toInt64 (L : Int) = L := by unfold toInt64; omega
  simp only [hint]
  have := decodePacked_elems s desc (L : Int) rest y (hys y (by simp)) ys F 0 []
    (fun x hx => hys x (List.mem_append_left _ hx)) hF
    (by push_cast; omega) (by push_cast; omega)
  rw [this, Nat.zero_add, List.nil_append]

/-- Two blocks of a packed field decoded into a fresh message: the field holds the
elements of the second block only. -/
theorem packed_blocks_replace (s : Schema) (t f : Nat) (K : Kind) (desc : FieldDesc)
    (hdesc : (s.desc t).ByNumber f = some desc) (hrep : desc.isRepeated K f true = true)
    (hf : f ≤ 2 ^ 29 - 1) (xs : List Value) (x : Value) (ys : List Value) (y : Value)
    (hxs : ∀ z ∈ xs ++ [x], z.isScalarOf K = true) (hys : ∀ z ∈ ys ++ [y], z.isScalarOf K = true)
    (hlx : (packedPayload s desc (xs ++ [x])).length < 2 ^ 63)
    (hly : (packedPayload s desc (ys ++ [y])).length < 2 ^ 63)
    (fuel : Nat) (hfuel : xs.length + ys.length + 7 ≤ fuel) :
    Decode s fuel ⟨t, []⟩
        (packedLayout s desc (packedPayload s desc (xs ++ [x])).length (xs ++ [x])
          ++ packedLayout s desc (packedPayload s desc (ys ++ [y])).length (ys ++ [y]))
      = .ok ⟨t, [(f, .list (ys ++ [y]))]⟩ := by
  obtain ⟨hkind, hnum, hlist, hpacked, hmap⟩ := isRepeated_iff desc K f true hrep
  obtain ⟨F, rfl⟩ : ∃ F, fuel = F + 5 := ⟨fuel - 5, by omega⟩
  have hcx : ∀ z ∈ xs ++ [x], ScalarCodec s desc z := fun z hz =>
    scalarCodec_of_isScalarOf s desc z (by rw [hkind]; exact hxs z hz)
  have hcy : ∀ z ∈ ys ++ [y], ScalarCodec s desc z := fun z hz =>
    scalarCodec_of_isScalarOf s desc z (by rw [hkind]; exact hys z hz)
  have hk := isScalarOf_kind K y (hys y (by simp))
  rw [← hkind] at hk
  have hpx : (packedPayload s desc xs).length < (packedPayload s desc (xs ++ [x])).length := by
    have := (hcx x (by simp)).pos
    rw [packedPayload_append, List.length_append]
    simp only [packedPayload, List.append_nil]
    omega
  have hpy : (packedPayload s desc ys).length < (packedPayload s desc (ys ++ [y])).length := by
    have := (hcy y (by simp)).pos
    rw [packedPayload_append, List.length_append]
    simp only [packedPayload, List.append_nil]
    omega
  rw [Decode]
  simp only [packedLayout, List.append_assoc, hnum]
  rw [decodeMessage_step_set s (F + 1) ⟨t, []⟩ ⟨t, [(desc.number, .list (xs ++ [x]))]⟩ .bytes f hf
    desc _ _ _ _ hdesc (by simp [hlist, hpacked]) hmap
    (decodeValue_packed_block s desc hlist xs x hcx hk _ hpx (Nat.le_refl _) hlx (F + 1)
      (by omega) _)
    (Msg.Set_fresh _ t desc _ (by simp [FieldDesc.accepts, hlist]))]
  have h2 := decodeValue_packed_block s desc hlist ys y hcy hk _ hpy (Nat.le_refl _) hly F
      (by omega) []
  rw [List.append_nil] at h2
  rw [decodeMessage_step_set s F ⟨t, [(desc.number, .list (xs ++ [x]))]⟩
    ⟨t, [(desc.number, .list (ys ++ [y]))]⟩ .bytes f hf
    desc _ _ _ _ hdesc (by simp [hlist, hpacked]) hmap h2
    (Msg.Set_single _ t desc _ _ (by simp [FieldDesc.accepts, hlist]))]
  rw [decodeMessage_nil, hnum]

/-! ## What `encodeList` writes -/

theorem foldlM_ok {α β : Type} (step : β → α → Except Err β) (g : β → α → β) (xs : List α)
    (h : ∀ acc, ∀ x ∈ xs, step acc x = .ok (g acc x)) :
    ∀ acc, xs.foldlM step acc = .ok (xs.foldl g acc) := by
  induction xs with
  | nil => intro acc; rfl
  | cons x xs ih =>
    intro acc
    rw [List.foldlM_cons, h acc x (List.mem_cons_self _ _)]
    exact ih (fun a z hz => h a z (List.mem_cons_of_mem _ hz)) (g acc x)

theorem foldl_packed (s : Schema) (desc : FieldDesc) (xs : List Value) :
    ∀ acc : Nat × List Nat,
      xs.foldl (fun acc x =>
        (acc.1 + (valueBytes s desc x).length, acc.2 ++ valueBytes s desc x)) acc
      = (acc.1 + (packedPayload s desc xs).length, acc.2 ++ packedPayload s desc xs) := by
  induction xs with
  | nil => intro acc; simp [packedPayload]
  | cons x xs ih =>
    intro acc
    rw [List.foldl_cons, ih]
    simp [packedPayload, Nat.add_assoc]

theorem foldl_unpacked (s : Schema) (desc : FieldDesc) (xs : List Value) :
    ∀ out : List Nat,
      xs.foldl (fun out x =>
        out ++ ((encodeTag desc.kind desc.number).2 ++ valueBytes s desc x)) out
      = out ++ unpackedLayout s desc xs := by
  induction xs with
  | nil => intro out; simp [unpackedLayout]
  | cons x xs ih =>
    intro out
    rw [List.foldl_cons, ih]
    simp [unpackedLayout]

/-- The bytes `encodeList` writes for a packed list of scalars: the packed layout with
the payload's byte count as declared length. -/
theorem encodeList_packed (s : Schema) (desc : FieldDesc) (xs : List Value)
    (hp : desc.isPacked = true) (hxs : ∀ x ∈ xs, ScalarCodec s desc x)
    (hlen : (packedPayload s desc xs).length < 2 ^ 63) (fuel : Nat) :
    encodeList s (fuel + 2) desc (.list xs)
      = .ok (packedLayout s desc (packedPayload s desc xs).length xs) := by
  rw [encodeList, if_pos hp]
  simp only [Value.asList, bind, Except.bind]
  rw [foldlM_ok _
    (fun acc x => (acc.1 + (valueBytes s desc x).length, acc.2 ++ valueBytes s desc x)) xs]
  · rw [foldl_packed]
    have hconv : toUint64 (toInt64 ((0 + (packedPayload s desc xs).length : Nat) : Int))
        = (packedPayload s desc xs).length := by
      unfold toUint64 toInt64; omega
    simp only [hconv, pure, Except.pure, packedLayout, List.nil_append]
  · intro acc x hx
    simp only [(hxs x hx).encode fuel, pure, Except.pure]

/-- The bytes `encodeList` writes for a list of scalars that is not packed: the unpacked
layout. -/
theorem encodeList_unpacked (s : Schema) (desc : FieldDesc) (xs : List Value)
    (hp : desc.isPacked = false) (hxs : ∀ x ∈ xs, ScalarCodec s desc x) (fuel : Nat) :
    encodeList s (fuel + 3) desc (.list xs) = .ok (unpackedLayout s desc xs) := by
  rw [encodeList, if_neg (by rw [hp]; decide)]
  simp only [Value.asList, bind, Except.bind]
  rw [foldlM_ok _
    (fun out x => out ++ ((encodeTag desc.kind desc.number).2 ++ valueBytes s desc x)) xs]
  · rw [foldl_unpacked, List.nil_append]
  · intro acc x hx
    rw [encodeField]
    simp only [(hxs x hx).encode fuel, pure, Except.pure]

/-! ## The claims -/

/-- C2. Varint round trip: for every unsigned 64-bit value `v`, `decodeVarint` reading
the bytes of `encodeVarint v` succeeds, returns `v` and reports as consumed length the
number of bytes `encodeVarint` produced, which is also the count `encodeVarint` returns;
whatever follows those bytes in the stream is left unread. -/
theorem C2_varint_round_trip (v : Nat) (h : v < 2 ^ 64) :
    decodeVarint (encodeVarint v).2 = .ok ((encodeVarint v).2.length, v, []) ∧
      (encodeVarint v).1 = (encodeVarint v).2.length ∧
      ∀ rest : Stream,
        decodeVarint ((encodeVarint v).2 ++ rest) = .ok ((encodeVarint v).2.length, v, rest) := by
  have hlen : (encodeVarint v).1 = (encodeVarint v).2.length := by simp [encodeVarint]
  refine ⟨?_, hlen, ?_⟩
  · have := decodeVarint_encodeVarint_append v h []
    rw [List.append_nil, hlen] at this
    exact this
  · intro rest
    rw [← hlen]
    exact decodeVarint_encodeVarint_append v h rest

/-- C2 at `v = 300`, the two bytes `0xac 0x02`. -/
theorem C2_varint_round_trip_witness :
    (300 : Nat) < 2 ^ 64 ∧ (encodeVarint 300).2 = [0xac, 0x02] ∧
      decodeVarint (encodeVarint 300).2 = .ok ((encodeVarint 300).2.length, 300, []) :=
  ⟨by decide, by decide, (C2_varint_round_trip 300 (by decide)).1⟩

/-- C3. ZigZag round trip: for every signed 64-bit value `n`, the minimum and the
maximum included, `decodeZigZag` applied to the unsigned value
`uint64(n<<1) ^ uint64(n>>63)` that `encodeZigZag n` encodes returns `n`; that value is
the one `decodeVarint` reads back from the bytes of `encodeZigZag n`. -/
theorem C3_zigzag_round_trip (n : Int) (h1 : -2 ^ 63 ≤ n) (h2 : n < 2 ^ 63) :
    decodeZigZag (toUint64 (shl64 n 1) ^^^ toUint64 (sar64 n 63)) = n ∧
      decodeVarint (encodeZigZag n).2 =
        .ok ((encodeZigZag n).1, toUint64 (shl64 n 1) ^^^ toUint64 (sar64 n 63), []) := by
  constructor
  · rw [zigzag_value n h1 h2]
    exact decodeZigZag_value n h1 h2
  · have hv : toUint64 (shl64 n 1) ^^^ toUint64 (sar64 n 63) < 2 ^ 64 := by
      rw [zigzag_value n h1 h2]
      split <;> omega
    have := decodeVarint_encodeVarint_append _ hv []
    rw [List.append_nil] at this
    exact this

/-- C3 at the minimum `int64`, whose ZigZag value is `2^64 - 1`. -/
theorem C3_zigzag_round_trip_witness :
    decodeZigZag (toUint64 (shl64 (-2 ^ 63) 1) ^^^ toUint64 (sar64 (-2 ^ 63) 63)) = -2 ^ 63 ∧
      toUint64 (shl64 (-2 ^ 63) 1) ^^^ toUint64 (sar64 (-2 ^ 63) 63) = 2 ^ 64 - 1 :=
  ⟨(C3_zigzag_round_trip (-2 ^ 63) (by decide) (by decide)).1, by decide⟩

/-- C4. Tag round trip: for every field kind `k` and every field number `f` with
`1 ≤ f ≤ 2^29 - 1`, `decodeTag` reading the bytes of `encodeTag k f` yields a varint `t`
with `t >> 3 = f` (so the field number `decodeMessage` derives is `f`) and `t & 7` the
wire type of `k`: 0 for int32/int64/uint32/uint64/sint32/sint64/bool/enum, 1 for
fixed64/sfixed64/double, 2 for bytes/string/message and 5 for fixed32/sfixed32/float. -/
theorem C4_tag_round_trip (k : Kind) (f : Nat) (_h1 : 1 ≤ f) (h2 : f ≤ 2 ^ 29 - 1) :
    ∃ t : Nat, decodeTag (encodeTag k f).2 = .ok (t, []) ∧
      t >>> 3 = f ∧ toInt32 ((t >>> 3 : Nat) : Int) = f ∧ t &&& 0x07 = wireTypeByKind k ∧
      (k ∈ [Kind.int32, .int64, .uint32, .uint64, .sint32, .sint64, .bool, .enum] →
        t &&& 0x07 = 0) ∧
      (k ∈ [Kind.fixed64, .sfixed64, .double] → t &&& 0x07 = 1) ∧
      (k ∈ [Kind.bytes, .string, .message] → t &&& 0x07 = 2) ∧
      (k ∈ [Kind.fixed32, .sfixed32, .float] → t &&& 0x07 = 5) := by
  have hw : wireTypeByKind k < 8 := by cases k <;> decide
  have hdec : decodeTag (encodeTag k f).2 = .ok (8 * f + wireTypeByKind k, []) := by
    have e : encodeTag k f = encodeVarint (8 * f + wireTypeByKind k) := by
      show encodeVarint (toUint64 (toInt64 _)) = _
      rw [tag_value k f h2]
    have := decodeVarint_encodeVarint_append (8 * f + wireTypeByKind k) (by omega) []
    rw [List.append_nil] at this
    rw [e]
    unfold decodeTag
    rw [this]
  have hshift : (8 * f + wireTypeByKind k) >>> 3 = f := by
    rw [Nat.shiftRight_eq_div_pow]; omega
  have hand : (8 * f + wireTypeByKind k) &&& 0x07 = wireTypeByKind k := by
    have := Nat.and_pow_two_sub_one_eq_mod (8 * f + wireTypeByKind k) 3
    norm_num at this
    rw [this]; omega
  refine ⟨8 * f + wireTypeByKind k, hdec, hshift, ?_, hand, ?_, ?_, ?_, ?_⟩
  · rw [hshift]; unfold toInt32; omega
  all_goals
    rw [hand]
    cases k <;> decide

/-- C4 for a string field of number 16: the tag is the two bytes `0x82 0x01`. -/
theorem C4_tag_round_trip_witness :
    (encodeTag .string 16).2 = [0x82, 0x01] ∧
      ∃ t : Nat, decodeTag (encodeTag .string 16).2 = .ok (t, []) ∧
        t >>> 3 = 16 ∧ t &&& 0x07 = 2 := by
  obtain ⟨t, h1, h2, _, _, _, _, h3, _⟩ :=
    C4_tag_round_trip .string 16 (by decide) (by decide)
  exact ⟨by decide, t, h1, h2, h3 (by decide)⟩

/-- Argument `desc = nil`: `decodeValue` never returns a value for a field without a
descriptor, whatever the wire type and the stream. -/
theorem decodeValue_nil_desc (s : Schema) (fuel wireType : Nat) (inp : Stream)
    (r : Nat × Value × Stream) : decodeValue s fuel none wireType inp ≠ .ok r := by
  cases fuel with
  | zero => rw [decodeValue]; intro h; cases h
  | succ n =>
    rw [decodeValue]
    split_ifs
    · cases decodeVarint inp <;> intro h <;> cases h
    · cases decodeFixed64bit inp <;> intro h <;> cases h
    · intro h; cases h
    · cases decodeFixed32bit inp <;> intro h <;> cases h
    · intro h; cases h

/-- The populated example message survives the round trip: `Decode` of the bytes of
`Encode` into a fresh message gives the message back. -/
theorem round_trip_exPopulated (fuel : Nat) :
    (Encode exSchema (fuel + 12) exPopulated).bind (Decode exSchema (fuel + 20) exFresh)
      = .ok exPopulated := rfl

/-- C1 (code defect). The round trip fails for a message whose encoding ends with a
length-delimited value of length zero. For `Message{embedded_message_field: {}}`,
`Encode` returns the two bytes `0x1a 0x00`; `Decode` of these bytes into a fresh message
returns `io.EOF`, because `decodeBytes` calls `Read` with an empty buffer on the
exhausted reader; with different budgets it never returns a message. The same value
followed by another field decodes. -/
theorem C1_round_trip_fails_on_trailing_empty_message (fuel : Nat) :
    Encode exSchema (fuel + 6) ⟨0, [(3, .message 1 [])]⟩ = .ok [0x1a, 0x00] ∧
      Decode exSchema (fuel + 4) exFresh [0x1a, 0x00] = .error .eof ∧
      (∀ m : Msg, Decode exSchema fuel exFresh [0x1a, 0x00] ≠ .ok m) ∧
      Decode exSchema (fuel + 6) exFresh [0x1a, 0x00, 0x08, 0x01]
        = .ok ⟨0, [(3, .message 1 []), (1, .int32 1)]⟩ := by
  refine ⟨rfl, rfl, ?_, rfl⟩
  intro m
  match fuel with
  | 0 | 1 | 2 | 3 => intro h; cases h
  | n + 4 => intro h; cases h

/-- C5 (code defect). A cut inside a length-delimited payload is not detected. For
`Message{string_field: "ab"}`, `Encode` returns `0x12 0x02 0x61 0x62`; `Decode` of these
bytes without the last one succeeds and sets `string_field` to the two bytes `0x61 0x00`:
`decodeBytes` discards the count of the short `Read` and keeps the zero byte of the
buffer. -/
theorem C5_truncated_payload_accepted (fuel : Nat) :
    Encode exSchema (fuel + 4) ⟨0, [(2, .string [0x61, 0x62])]⟩ = .ok [0x12, 0x02, 0x61, 0x62] ∧
      Decode exSchema (fuel + 5) exFresh ([0x12, 0x02, 0x61, 0x62] : List Nat).dropLast
        = .ok ⟨0, [(2, .string [0x61, 0x00])]⟩ :=
  ⟨rfl, rfl⟩

/-- C6 (code defect). An unknown field is not skipped: `decodeValue` is called with the
nil descriptor and never returns a value, so `Decode` of any input that starts with the
tag of a field without descriptor cannot succeed. For the example message, the input
`0x08 0x01 0x38 0x01` (field 1, then the unknown field 7 as a varint) panics, while the
same input without the unknown field's two bytes decodes. -/
theorem C6_unknown_field_panics (fuel : Nat) :
    (∀ (s : Schema) (wireType : Nat) (inp : Stream) (r : Nat × Value × Stream),
        decodeValue s fuel none wireType inp ≠ .ok r) ∧
      (exSchema.desc 0).ByNumber 7 = none ∧
      Decode exSchema (fuel + 5) exFresh [0x08, 0x01, 0x38, 0x01] = .error .panic ∧
      Decode exSchema (fuel + 5) exFresh [0x08, 0x01] = .ok ⟨0, [(1, .int32 1)]⟩ :=
  ⟨fun s w inp r => decodeValue_nil_desc s fuel w inp r, rfl, rfl, rfl⟩

/-- C7 (code defect). A packed field does not accumulate: each length-delimited block
is decoded into a new list that `Set` stores in place of the previous one. For
`repeated_packed_int32_field`, the blocks `[1, 2]` and `[3]` leave the list `[3]`; the
same elements sent unpacked to `repeated_int32_field` give `[1, 2, 3]`. -/
theorem C7_packed_blocks_replace (fuel : Nat) :
    Decode exSchema (fuel + 8) exFresh [0x22, 0x02, 0x01, 0x02, 0x22, 0x01, 0x03]
        = .ok ⟨0, [(4, .list [.int32 3])]⟩ ∧
      Decode exSchema (fuel + 8) exFresh [0x28, 0x01, 0x28, 0x02, 0x28, 0x03]
        = .ok ⟨0, [(5, .list [.int32 1, .int32 2, .int32 3])]⟩ :=
  ⟨rfl, rfl⟩

/-- C8. Packed/unpacked equivalence: for every integer, bool or enum kind `K` and every
non-empty list `xs` of `K`-values, the packed layout of `xs` (one tag of wire type 2,
the varint of the payload length, the bare element encodings), which is what
`encodeList` writes for a packed field, decoded into a fresh message with a
repeated-and-packed field of kind `K`, and the unpacked layout (tag and value once per
element), which is what `encodeList` writes for a field that is not packed, decoded
into a fresh message with a repeated-not-packed field of kind `K`, both succeed and both
set the field to the list `xs`. -/
theorem C8_packed_unpacked_equivalence (s : Schema) (K : Kind) (xs : List Value)
    (tp fp : Nat) (packed : FieldDesc) (tu fu : Nat) (unpacked : FieldDesc)
    (hP : (s.desc tp).ByNumber fp = some packed) (hrepP : packed.isRepeated K fp true = true)
    (hfp : 1 ≤ fp ∧ fp ≤ 2 ^ 29 - 1)
    (hU : (s.desc tu).ByNumber fu = some unpacked)
    (hrepU : unpacked.isRepeated K fu false = true) (hfu : 1 ≤ fu ∧ fu ≤ 2 ^ 29 - 1)
    (hne : xs ≠ []) (hxs : ∀ x ∈ xs, x.isScalarOf K = true)
    (hlen : (packedPayload s packed xs).length < 2 ^ 63)
    (fuel : Nat) (hfuel : xs.length + 5 ≤ fuel) :
    encodeList s fuel packed (.list xs)
        = .ok (packedLayout s packed (packedPayload s packed xs).length xs) ∧
      Decode s fuel ⟨tp, []⟩ (packedLayout s packed (packedPayload s packed xs).length xs)
        = .ok ⟨tp, [(fp, .list xs)]⟩ ∧
      encodeList s fuel unpacked (.list xs) = .ok (unpackedLayout s unpacked xs) ∧
      Decode s fuel ⟨tu, []⟩ (unpackedLayout s unpacked xs) = .ok ⟨tu, [(fu, .list xs)]⟩ := by
  obtain ⟨hkP, _, _, hpP, _⟩ := isRepeated_iff packed K fp true hrepP
  obtain ⟨hkU, _, _, hpU, _⟩ := isRepeated_iff unpacked K fu false hrepU
  have hcP : ∀ x ∈ xs, ScalarCodec s packed x := fun x hx =>
    scalarCodec_of_isScalarOf s packed x (by rw [hkP]; exact hxs x hx)
  have hcU : ∀ x ∈ xs, ScalarCodec s unpacked x := fun x hx =>
    scalarCodec_of_isScalarOf s unpacked x (by rw [hkU]; exact hxs x hx)
  obtain ⟨F, rfl⟩ : ∃ F, fuel = F + 3 := ⟨fuel - 3, by omega⟩
  refine ⟨encodeList_packed s packed xs hpP hcP hlen (F + 1), ?_,
    encodeList_unpacked s unpacked xs hpU hcU F,
    decode_unpacked_field s tu fu K unpacked hU hrepU hfu.2 xs hne hxs (F + 3) (by omega)⟩
  have hsplit : xs.dropLast ++ [xs.getLast hne] = xs := List.dropLast_append_getLast hne
  have hylen := (hcP (xs.getLast hne) (List.getLast_mem hne)).pos
  have hpay : (packedPayload s packed xs).length
      = (packedPayload s packed xs.dropLast).length
        + (valueBytes s packed (xs.getLast hne)).length := by
    conv_lhs => rw [← hsplit]
    rw [packedPayload_append, List.length_append]
    simp [packedPayload]
  have hdl : xs.dropLast.length + 1 = xs.length := by
    conv_rhs => rw [← hsplit]
    simp
  have := decode_packed_field s tp fp K packed hP hrepP hfp.2 xs.dropLast (xs.getLast hne)
    (by rw [hsplit]; exact hxs) (packedPayload s packed xs).length
    (by omega) (by rw [hsplit]) hlen (F + 3) (by omega)
  rw [hsplit] at this
  exact this

/-- C8 for the `int32` list `[1, 2, 3]` and the fields 4 (packed) and 5 (not packed) of
the example message: the layouts are `0x22 0x03 0x01 0x02 0x03` and
`0x28 0x01 0x28 0x02 0x28 0x03`. -/
theorem C8_packed_unpacked_equivalence_witness :
    packedLayout exSchema ⟨4, .int32, true, false, true, 0, none⟩ 3
        [.int32 1, .int32 2, .int32 3] = [0x22, 0x03, 0x01, 0x02, 0x03] ∧
      unpackedLayout exSchema ⟨5, .int32, true, false, false, 0, none⟩
        [.int32 1, .int32 2, .int32 3] = [0x28, 0x01, 0x28, 0x02, 0x28, 0x03] ∧
      Decode exSchema 8 ⟨0, []⟩ (packedLayout exSchema ⟨4, .int32, true, false, true, 0, none⟩
          (packedPayload exSchema ⟨4, .int32, true, false, true, 0, none⟩
            [.int32 1, .int32 2, .int32 3]).length [.int32 1, .int32 2, .int32 3])
        = .ok ⟨0, [(4, .list [.int32 1, .int32 2, .int32 3])]⟩ ∧
      Decode exSchema 8 ⟨0, []⟩ (unpackedLayout exSchema ⟨5, .int32, true, false, false, 0, none⟩
          [.int32 1, .int32 2, .int32 3])
        = .ok ⟨0, [(5, .list [.int32 1, .int32 2, .int32 3])]⟩ := by
  have h := C8_packed_unpacked_equivalence exSchema .int32 [.int32 1, .int32 2, .int32 3]
    0 4 ⟨4, .int32, true, false, true, 0, none⟩ 0 5 ⟨5, .int32, true, false, false, 0, none⟩
    rfl rfl (by decide) rfl rfl (by decide) (by simp)
    (by intro x hx; simp only [List.mem_cons, List.mem_singleton, List.not_mem_nil, or_false] at hx
        rcases hx with rfl | rfl | rfl <;> rfl)
    (by decide) 8 (by decide)
  exact ⟨rfl, rfl, h.2.1, h.2.2.2⟩

/-- C9 (code defect). The merge of a later entry fails when the later value is an empty
string, bytes or message written as the last field of the entry, which is how `Encode`
writes it (`0x32 0x05 0x0a 0x01 0x61 0x12 0x00` for the entry `"a" ↦ ""`). For
`map_string`, the entries `"a" ↦ "x"` and then `"a" ↦ ""` make `Decode` return
`io.EOF` (the nested `Decode` of the second entry ends in `decodeBytes` on an exhausted
reader), so `"a"` is not bound to the later value. With the later value `"y"` the map is
merged: `"a" ↦ "y"` only. -/
theorem C9_map_merge_fails_on_empty_value (fuel : Nat) :
    Encode exSchema (fuel + 6) ⟨0, [(6, .map [(.string [0x61], .string [])])]⟩
        = .ok [0x32, 0x05, 0x0a, 0x01, 0x61, 0x12, 0x00] ∧
      Decode exSchema (fuel + 10) exFresh
          [0x32, 0x06, 0x0a, 0x01, 0x61, 0x12, 0x01, 0x78,
           0x32, 0x05, 0x0a, 0x01, 0x61, 0x12, 0x00] = .error .eof ∧
      Decode exSchema (fuel + 10) exFresh
          [0x32, 0x06, 0x0a, 0x01, 0x61, 0x12, 0x01, 0x78,
           0x32, 0x06, 0x0a, 0x01, 0x61, 0x12, 0x01, 0x79]
        = .ok ⟨0, [(6, .map [(.string [0x61], .string [0x79])])]⟩ :=
  ⟨rfl, rfl, rfl⟩

/-- C10 (code defect). A packed payload that oversteps its declared length is not
rejected. The packed `int32` field 4 of the example message with the declared length 1
followed by the two-byte varint `0x80 0x01` is accepted, and the list is `[128]`. The
element that straddles the end of the block is read from the bytes of the next field:
in `0x22 0x01 0x80 0x12 0x08 ...` the element takes the tag `0x12` of the string field
that follows (the list is `[2304]`), the string payload is then read as occurrences of
field 1, and the string field is left empty. The sibling length-delimited path does
confine a value to its declared length: the embedded message `0x1a 0x01 0x08 0x01`,
whose inner value straddles the end of the declared length, makes `Decode` return
`io.EOF`; so does a packed block that the input ends before completing. In general, for
every packed repeated field of an integer, bool or enum kind, if the encodings of the
elements `ys` take fewer than the declared length `L` bytes and those of `ys` and `y`
together more than `L`, `Decode` succeeds with the list of all the elements, `y`
included: the loop stops at the first byte count that is not below `L` and never
compares it with `L`. -/
theorem C10_packed_overshoot_accepted (fuel : Nat) :
    Decode exSchema (fuel + 7) exFresh [0x22, 0x01, 0x80, 0x01]
        = .ok ⟨0, [(4, .list [.int32 128])]⟩ ∧
      (∃ m, Decode exSchema (fuel + 8) exFresh
            [0x22, 0x01, 0x80, 0x12, 0x08, 0x81, 0x00, 0x08, 0x01, 0x08, 0x02, 0x08, 0x03]
          = .ok m ∧
        m.Get ⟨4, .int32, true, false, true, 0, none⟩ = .list [.int32 2304] ∧
        m.Get ⟨1, .int32, false, false, false, 0, none⟩ = .int32 3 ∧
        m.Get ⟨2, .string, false, false, false, 0, none⟩ = .string []) ∧
      Decode exSchema (fuel + 8) exFresh [0x1a, 0x01, 0x08, 0x01] = .error .eof ∧
      Decode exSchema (fuel + 8) exFresh [0x22, 0x01, 0x80] = .error .eof ∧
      (∀ (s : Schema) (K : Kind) (ys : List Value) (y : Value) (t f : Nat) (desc : FieldDesc)
          (L fuel' : Nat),
        (s.desc t).ByNumber f = some desc → desc.isRepeated K f true = true →
        1 ≤ f ∧ f ≤ 2 ^ 29 - 1 → (∀ x ∈ ys ++ [y], x.isScalarOf K = true) →
        (packedPayload s desc ys).length < L →
        L < (packedPayload s desc (ys ++ [y])).length → L < 2 ^ 63 →
        ys.length + 6 ≤ fuel' →
        Decode s fuel' ⟨t, []⟩ (packedLayout s desc L (ys ++ [y]))
          = .ok ⟨t, [(f, .list (ys ++ [y]))]⟩) :=
  ⟨rfl, ⟨_, rfl, rfl, rfl, rfl⟩, rfl, rfl,
    fun s K ys y t f desc L fuel' hdesc hrep hf hys hL1 hL2 hL3 hfuel =>
      decode_packed_field s t f K desc hdesc hrep hf.2 ys y hys L hL1 (Nat.le_of_lt hL2) hL3
        fuel' hfuel⟩

/-- C10 (code defect) for the `int32` elements `1` and `128` with the declared length 2:
the input is `0x22 0x02 0x01 0x80 0x01`, and the list is `[1, 128]`. -/
theorem C10_packed_overshoot_accepted_witness :
    packedLayout exSchema ⟨4, .int32, true, false, true, 0, none⟩ 2 ([.int32 1] ++ [.int32 128])
        = [0x22, 0x02, 0x01, 0x80, 0x01] ∧
      Decode exSchema 7 ⟨0, []⟩
          (packedLayout exSchema ⟨4, .int32, true, false, true, 0, none⟩ 2
            ([.int32 1] ++ [.int32 128]))
        = .ok ⟨0, [(4, .list ([.int32 1] ++ [.int32 128]))]⟩ :=
  ⟨rfl, (C10_packed_overshoot_accepted 0).2.2.2.2 exSchema .int32 [.int32 1] (.int32 128) 0 4
    ⟨4, .int32, true, false, true, 0, none⟩ 2 7 rfl rfl (by decide)
    (by intro x hx; simp only [List.singleton_append, List.mem_cons, List.mem_singleton,
          List.not_mem_nil, or_false] at hx
        rcases hx with rfl | rfl <;> rfl)
    (by decide) (by decide) (by decide) (by decide)⟩

/-! ## Lemmas for the varint, fixed-width and length-delimited readers -/

theorem ok_inj {α : Type} (a b : α) (h : (Except.ok a : Except Err α) = .ok b) : a = b := by
  injection h

theorem encodeVarintLength_le (fuel : Nat) : ∀ (v length : Nat),
    length ≤ encodeVarintLength fuel v length := by
  induction fuel with
  | zero => intro v length; exact Nat.le_refl _
  | succ fuel ih =>
    intro v length
    unfold encodeVarintLength
    split
    · exact Nat.le_trans (Nat.le_succ _) (ih _ _)
    · exact Nat.le_refl _

theorem encodeVarintLength_min (fuel : Nat) : ∀ (v length : Nat),
    encodeVarintLength fuel v length = length ∨
      128 ^ (encodeVarintLength fuel v length - length) ≤ v := by
  induction fuel with
  | zero => intro v length; left; rfl
  | succ fuel ih =>
    intro v length
    unfold encodeVarintLength
    have e : v >>> 7 = v / 128 := by rw [Nat.shiftRight_eq_div_pow]
    rw [e]
    split
    · rename_i hge
      right
      have hge' : 128 ≤ v := hge
      rcases ih (v / 128) (length + 1) with h | h
      · rw [h]
        have : length + 1 - length = 1 := by omega
        rw [this]; simpa using hge'
      · have hle := (encodeVarintLength_le fuel (v / 128) (length + 1))
        generalize encodeVarintLength fuel (v / 128) (length + 1) = L at h hle
        have : L - length = (L - (length + 1)) + 1 := by omega
        rw [this, pow_succ]
        generalize 128 ^ (L - (length + 1)) = P at h
        omega
    · left; rfl

/-- The length of a varint: the least `L ≥ 1` with `v < 128^L`. -/
theorem encodeVarint_length_char (v : Nat) (h : v < 2 ^ 64) :
    1 ≤ (encodeVarint v).2.length ∧ v < 128 ^ (encodeVarint v).2.length ∧
      ((encodeVarint v).2.length = 1 ∨ 128 ^ ((encodeVarint v).2.length - 1) ≤ v) := by
  have hl : (encodeVarint v).2.length = encodeVarintLength 64 v 1 := by simp [encodeVarint]
  obtain ⟨h1, h2⟩ := encodeVarint_length_bound v h
  rw [hl]
  exact ⟨h1, h2, encodeVarintLength_min 64 v 1⟩

theorem encodeVarint_length_le_ten (v : Nat) (h : v < 2 ^ 64) :
    (encodeVarint v).2.length ≤ 10 := by
  obtain ⟨h1, _, h3⟩ := encodeVarint_length_char v h
  rcases h3 with h3 | h3
  · omega
  · by_contra hc
    have h10 : 10 ≤ (encodeVarint v).2.length - 1 := by omega
    have : (128 : Nat) ^ 10 ≤ 128 ^ ((encodeVarint v).2.length - 1) :=
      Nat.pow_le_pow_right (by decide) h10
    have h64 : (2 : Nat) ^ 64 ≤ 128 ^ 10 := by norm_num
    omega

theorem encodeVarint_length_size (v : Nat) (h : v < 2 ^ 64) :
    (encodeVarint v).2.length = max 1 ((Nat.size v + 6) / 7) := by
  obtain ⟨h1, h2, h3⟩ := encodeVarint_length_char v h
  generalize (encodeVarint v).2.length = L at h1 h2 h3
  have hp : ∀ k, (128 : Nat) ^ k = 2 ^ (7 * k) := by intro k; rw [pow_mul]; norm_num
  rw [hp] at h2
  have hs : Nat.size v ≤ 7 * L := Nat.size_le.mpr h2
  rcases h3 with h3 | h3
  · subst h3
    have : (Nat.size v + 6) / 7 ≤ 1 := by omega
    omega
  · rw [hp] at h3
    have hs2 : 7 * (L - 1) < Nat.size v := Nat.lt_size.mpr h3
    have : (Nat.size v + 6) / 7 = L := by omega
    omega

theorem encodeVarint_getElem? (v i : Nat) (hi : i < (encodeVarint v).2.length) :
    (encodeVarint v).2[i]? = some (if i + 1 ≠ (encodeVarint v).2.length
      then v / 128 ^ i % 128 + 128 else v / 128 ^ i % 128) := by
  have hl : (encodeVarint v).2.length = encodeVarintLength 64 v 1 := by simp [encodeVarint]
  rw [hl] at hi ⊢
  rw [encodeVarint_snd, List.getElem?_map, List.getElem?_range' _ _ hi]
  simp only [Option.map_some', Nat.zero_add, Nat.one_mul]
  split
  · rw [group_high, shiftRight_seven]
  · rw [group_low, shiftRight_seven]

theorem putLittleEndian_getElem? (n v i : Nat) (hi : i < n) :
    (putLittleEndian n v)[i]? = some ((v >>> (8 * i)) % 256) := by
  unfold putLittleEndian
  rw [List.getElem?_map, List.getElem?_range hi]
  rfl

theorem ReadFull_short (n : Nat) (inp : Stream) (h : inp.length < n) :
    ReadFull n inp = .error (if inp.length = 0 then .eof else .unexpectedEOF) := by
  unfold ReadFull
  rw [if_neg (by omega)]
  split <;> rfl

theorem Read_cons (n b : Nat) (l : Stream) :
    Read n (b :: l) = .ok ((b :: l).take n ++ List.replicate (n - (b :: l).length) 0,
      (b :: l).drop n) := rfl

theorem Read_append (bs rest : Stream) (hne : bs ++ rest ≠ []) :
    Read bs.length (bs ++ rest) = .ok (bs, rest) := by
  obtain ⟨b, l, hl⟩ := List.exists_cons_of_ne_nil hne
  rw [hl, Read_cons, ← hl]
  simp

/-- Reading a length-delimited value: the varint of `L`, then `L` bytes, with at least
one byte left in the stream after the varint. -/
theorem decodeBytes_encodeVarint_append (bs rest : Stream) (hL : bs.length < 2 ^ 64)
    (hne : bs ++ rest ≠ []) :
    decodeBytes ((encodeVarint bs.length).2 ++ (bs ++ rest)) = .ok (bs, rest) := by
  unfold decodeBytes
  rw [decodeVarint_encodeVarint_append bs.length hL (bs ++ rest)]
  exact Read_append bs rest hne

/-- When nothing follows the length varint, `decodeBytes` returns `io.EOF`, also for the
length zero. -/
theorem decodeBytes_encodeVarint_nil (L : Nat) (hL : L < 2 ^ 64) :
    decodeBytes (encodeVarint L).2 = .error .eof := by
  unfold decodeBytes
  have := decodeVarint_encodeVarint_append L hL []
  rw [List.append_nil] at this
  rw [this]
  rfl

theorem or_mod_two_pow (a b k : Nat) : (a ||| b) % 2 ^ k = a % 2 ^ k ||| b % 2 ^ k := by
  apply Nat.eq_of_testBit_eq
  intro j
  simp only [Nat.testBit_mod_two_pow, Nat.testBit_or]
  cases decide (j < k) <;> simp

theorem or_group_mod (S y i : Nat) (hS : S < 2 ^ (7 * i)) :
    S % 2 ^ 64 ||| (y <<< (7 * i)) % 2 ^ 64 = (S + y * 2 ^ (7 * i)) % 2 ^ 64 := by
  rw [← or_mod_two_pow, Nat.shiftLeft_eq, Nat.lor_comm, Nat.mul_comm y,
    ← Nat.mul_add_lt_is_or hS y, Nat.add_comm]

theorem dropMSB_of_high (b : Nat) (h1 : 128 ≤ b) (h2 : b < 256) :
    dropMSB b = (b &&& 0x7f, true) ∧ b &&& 0x7f < 128 := by
  revert b; decide

theorem dropMSB_of_low (b : Nat) (h : b < 128) :
    dropMSB b = (b &&& 0x7f, false) ∧ b &&& 0x7f < 128 := by
  revert b; decide

theorem groupSum_cons (b : Nat) (bs : List Nat) (i : Nat) :
    groupSum (b :: bs) i = (b &&& 0x7f) * 2 ^ (7 * i) + groupSum bs (i + 1) := rfl

theorem decodeVarintLoop_cons (b : Nat) (rest : Stream) (i length n : Nat) :
    decodeVarintLoop (b :: rest) i length n =
      if !(dropMSB b).2 then
        .ok (length + 1, n ||| ((dropMSB b).1 <<< (7 * i)) % 2 ^ 64, rest)
      else decodeVarintLoop rest (i + 1) (length + 1)
        (n ||| ((dropMSB b).1 <<< (7 * i)) % 2 ^ 64) := rfl

theorem groupSum_append (xs ys : List Nat) : ∀ i,
    groupSum (xs ++ ys) i = groupSum xs i + groupSum ys (i + xs.length) := by
  induction xs with
  | nil => intro i; simp [groupSum]
  | cons x xs ih =>
    intro i
    rw [List.cons_append, groupSum_cons, groupSum_cons, ih, List.length_cons]
    have : i + 1 + xs.length = i + (xs.length + 1) := by omega
    rw [this]; omega

/-- The loop of `decodeVarint` on continuation bytes followed by a final byte. -/
theorem decodeVarintLoop_groups (last : Nat) (hlast : last < 128) (rest : Stream) :
    ∀ (pre : List Nat) (i length S : Nat), (∀ b ∈ pre, 128 ≤ b ∧ b < 256) →
      S < 2 ^ (7 * i) →
      decodeVarintLoop (pre ++ last :: rest) i length (S % 2 ^ 64)
        = .ok (length + pre.length + 1, (S + groupSum (pre ++ [last]) i) % 2 ^ 64, rest) := by
  intro pre
  induction pre with
  | nil =>
    intro i length S _ hS
    obtain ⟨hd, _⟩ := dropMSB_of_low last hlast
    rw [List.nil_append, List.nil_append, decodeVarintLoop_cons, hd, groupSum_cons]
    simp only [Bool.not_false, if_true, or_group_mod S _ i hS, groupSum, Nat.add_zero,
      List.length_nil]
  | cons b pre ih =>
    intro i length S hall hS
    obtain ⟨hb1, hb2⟩ := hall b (List.mem_cons_self _ _)
    obtain ⟨hd, hlt⟩ := dropMSB_of_high b hb1 hb2
    rw [List.cons_append, List.cons_append, decodeVarintLoop_cons, hd, groupSum_cons]
    simp only [Bool.not_true, Bool.false_eq_true, if_false, or_group_mod S _ i hS]
    have hS' : S + (b &&& 0x7f) * 2 ^ (7 * i) < 2 ^ (7 * (i + 1)) := by
      have e : 2 ^ (7 * (i + 1)) = 2 ^ (7 * i) * 128 := by
        rw [Nat.mul_add, pow_add]; norm_num
      rw [e]
      have : (b &&& 0x7f) * 2 ^ (7 * i) ≤ 127 * 2 ^ (7 * i) :=
        Nat.mul_le_mul_right _ (by omega)
      omega
    rw [ih (i + 1) (length + 1) (S + (b &&& 0x7f) * 2 ^ (7 * i))
      (fun c hc => hall c (List.mem_cons_of_mem _ hc)) hS']
    rw [List.length_cons, Nat.add_assoc S]
    have : length + 1 + pre.length + 1 = length + (pre.length + 1) + 1 := by omega
    rw [this]

/-- The loop of `decodeVarint` on continuation bytes alone: the stream ends first. -/
theorem decodeVarintLoop_all_high : ∀ (bs : List Nat) (i length n : Nat),
    (∀ b ∈ bs, 128 ≤ b ∧ b < 256) → decodeVarintLoop bs i length n = .error .eof := by
  intro bs
  induction bs with
  | nil => intro i length n _; rfl
  | cons b bs ih =>
    intro i length n hall
    obtain ⟨hb1, hb2⟩ := hall b (List.mem_cons_self _ _)
    obtain ⟨hd, _⟩ := dropMSB_of_high b hb1 hb2
    rw [decodeVarintLoop_cons, hd]
    simp only [Bool.not_true, Bool.false_eq_true, if_false]
    exact ih _ _ _ (fun c hc => hall c (List.mem_cons_of_mem _ hc))

theorem decodeVarintLoop_error : ∀ (inp : Stream) (i length n : Nat) (e : Err),
    decodeVarintLoop inp i length n = .error e → e = .eof := by
  intro inp
  induction inp with
  | nil => intro i length n e h; cases h; rfl
  | cons b rest ih =>
    intro i length n e h
    rw [decodeVarintLoop_cons] at h
    split at h
    · cases h
    · exact ih _ _ _ e h

theorem decodeVarint_error (inp : Stream) (e : Err) (h : decodeVarint inp = .error e) :
    e = .eof := decodeVarintLoop_error inp 0 0 0 e h

theorem ReadFull_error (n : Nat) (inp : Stream) (e : Err) (h : ReadFull n inp = .error e) :
    e = .eof ∨ e = .unexpectedEOF := by
  unfold ReadFull at h
  split at h
  · cases h
  · split at h
    · cases h; left; rfl
    · cases h; right; rfl

/-- A wire type that is not the one of the field's kind, among 0, 1 and 5, and any wire
type other than 0, 1, 2 and 5 make `decodeValue` return a read error or the error
`unreachable`. -/
theorem decodeValue_mismatch (s : Schema) (fuel : Nat) (d : FieldDesc) (w : Nat) (inp : Stream)
    (hw : w ≠ wireTypeBytesType) (hk : w ≠ wireTypeByKind d.kind) :
    ∃ e, decodeValue s (fuel + 1) (some d) w inp = .error e ∧
      (e = .eof ∨ e = .unexpectedEOF ∨ e = .unreachable) := by
  rw [decodeValue]
  by_cases h0 : w = wireTypeVarint
  · rw [if_pos h0]
    subst h0
    cases hv : decodeVarint inp with
    | error e => exact ⟨e, rfl, Or.inl (decodeVarint_error inp e hv)⟩
    | ok r =>
      refine ⟨.unreachable, ?_, Or.inr (Or.inr rfl)⟩
      generalize d.kind = k at hk
      cases k <;> first | rfl | exact absurd rfl hk
  rw [if_neg h0]
  by_cases h1 : w = wireTypeFixed64bit
  · rw [if_pos h1]
    subst h1
    unfold decodeFixed64bit
    cases hv : ReadFull 8 inp with
    | error e =>
      rcases ReadFull_error 8 inp e hv with h | h
      · exact ⟨e, rfl, Or.inl h⟩
      · exact ⟨e, rfl, Or.inr (Or.inl h)⟩
    | ok r =>
      refine ⟨.unreachable, ?_, Or.inr (Or.inr rfl)⟩
      generalize d.kind = k at hk
      cases k <;> first | rfl | exact absurd rfl hk
  rw [if_neg h1, if_neg hw]
  by_cases h5 : w = wireTypeFixed32bit
  · rw [if_pos h5]
    subst h5
    unfold decodeFixed32bit
    cases hv : ReadFull 4 inp with
    | error e =>
      rcases ReadFull_error 4 inp e hv with h | h
      · exact ⟨e, rfl, Or.inl h⟩
      · exact ⟨e, rfl, Or.inr (Or.inl h)⟩
    | ok r =>
      refine ⟨.unreachable, ?_, Or.inr (Or.inr rfl)⟩
      generalize d.kind = k at hk
      cases k <;> first | rfl | exact absurd rfl hk
  · rw [if_neg h5]
    exact ⟨.unreachable, rfl, Or.inr (Or.inr rfl)⟩

theorem decodeTag_encodeVarint_append (t : Nat) (h : t < 2 ^ 64) (rest : Stream) :
    decodeTag ((encodeVarint t).2 ++ rest) = .ok (t, rest) := by
  unfold decodeTag
  rw [decodeVarint_encodeVarint_append t h rest]

theorem shiftLeft_three_or (f w : Nat) (hw : w < 8) : f <<< 3 ||| w = 8 * f + w := by
  rw [Nat.shiftLeft_eq, Nat.mul_comm]
  exact (Nat.mul_add_lt_is_or (by simpa using hw : w < 2 ^ 3) f).symm

/-- One iteration of `decodeMessage` on a field whose value `decodeValue` rejects: the
error is returned. -/
theorem decodeMessage_step_error (s : Schema) (fuel : Nat) (msg : Msg) (f w : Nat)
    (hf : f ≤ 2 ^ 29 - 1) (hw : w < 8) (fd : Option FieldDesc) (inp : Stream) (e : Err)
    (hfd : (s.desc msg.typ).ByNumber f = fd)
    (hval : decodeValue s (fuel + 1) fd w inp = .error e) :
    decodeMessage s (fuel + 3) msg ((encodeVarint (f <<< 3 ||| w)).2 ++ inp) = .error e := by
  obtain ⟨h1, h2⟩ := tag_fields f w hf hw
  rw [shiftLeft_three_or f w hw, decodeMessage]
  simp only [decodeTag_encodeVarint_append (8 * f + w) (by omega) inp, h1, h2, hfd]
  rw [decodeField]
  simp only [hval]

/-- A length-delimited occurrence of a field that is not a list and whose kind is not
bytes, string or message: `NewField(desc).List()` panics before any byte is read. -/
theorem decodeValue_packed_singular (s : Schema) (fuel : Nat) (d : FieldDesc) (inp : Stream)
    (hl : d.isList = false) (hk : d.kind ≠ .bytes ∧ d.kind ≠ .string ∧ d.kind ≠ .message) :
    decodeValue s (fuel + 1) (some d) wireTypeBytesType inp = .error .panic := by
  rw [decodeValue]
  have h1 : ¬ wireTypeBytesType = wireTypeVarint := by decide
  have h2 : ¬ wireTypeBytesType = wireTypeFixed64bit := by decide
  simp only [h1, h2, if_true, if_false, newFieldList, hl]
  obtain ⟨k1, k2, k3⟩ := hk
  generalize d.kind = k at k1 k2 k3
  cases k <;> first | rfl | contradiction

theorem encodeVarint_length_ten (v : Nat) (h1 : 2 ^ 63 ≤ v) (h2 : v < 2 ^ 64) :
    (encodeVarint v).2.length = 10 := by
  have hle := encodeVarint_length_le_ten v h2
  obtain ⟨_, hlt, _⟩ := encodeVarint_length_char v h2
  by_contra hc
  have h9 : (encodeVarint v).2.length ≤ 9 := by omega
  have : (128 : Nat) ^ (encodeVarint v).2.length ≤ 128 ^ 9 :=
    Nat.pow_le_pow_right (by decide) h9
  have e : (128 : Nat) ^ 9 = 2 ^ 63 := by norm_num
  omega

theorem valueBytes_eq (s : Schema) (desc : FieldDesc) (x : Value) (n : Nat) (b : List Nat)
    (h : encodeValue s 1 desc x = .ok (n, b)) : valueBytes s desc x = b := by
  unfold valueBytes; rw [h]

theorem valueBytes_negative (s : Schema) (desc : FieldDesc) (n : Int) (h1 : -2 ^ 31 ≤ n)
    (h2 : n < 0) :
    (desc.kind = .int32 → (valueBytes s desc (.int32 n)).length = 10) ∧
      (desc.kind = .enum → (valueBytes s desc (.enum n)).length = 10) := by
  have hv : toUint64 n = (n + 2 ^ 64).toNat := by unfold toUint64; omega
  have h32 : toInt32 n = n := by unfold toInt32; omega
  have hlen : (encodeVarint (toUint64 n)).2.length = 10 :=
    encodeVarint_length_ten _ (by rw [hv]; omega) (by rw [hv]; omega)
  constructor
  · intro hK
    have : encodeValue s 1 desc (.int32 n) = .ok (encodeVarint (toUint64 (toInt32 n))) := by
      rw [encodeValue]; simp only [hK]; rfl
    rw [valueBytes_eq s desc _ _ _ this, h32]
    exact hlen
  · intro hK
    have : encodeValue s 1 desc (.enum n) = .ok (encodeVarint (toUint64 n)) := by
      rw [encodeValue]; simp only [hK]; rfl
    rw [valueBytes_eq s desc _ _ _ this]
    exact hlen

theorem lookup_setField (t num : Nat) (v : Value) : ∀ l : List (Nat × Value),
    Msg.lookup ⟨t, setField num v l⟩ num = some v := by
  intro l
  induction l with
  | nil => simp [setField, Msg.lookup]
  | cons p l ih =>
    obtain ⟨n', v'⟩ := p
    unfold setField
    by_cases h : n' = num
    · simp [h, Msg.lookup]
    · simp only [h, if_false]
      simp only [Msg.lookup, List.find?_cons, h, decide_False] at ih ⊢
      exact ih

theorem encodeTag_eq (k : Kind) (f : Nat) (hf : f ≤ 2 ^ 29 - 1) :
    encodeTag k f = encodeVarint (f <<< 3 ||| wireTypeByKind k) := by
  have hw : wireTypeByKind k < 8 := by cases k <;> decide
  show encodeVarint (toUint64 (toInt64 _)) = _
  rw [tag_value k f hf, shiftLeft_three_or f _ hw]

theorem encodeZigZag_count (n : Int) : (encodeZigZag n).1 = (encodeZigZag n).2.length :=
  encodeVarint_fst_eq_length _

theorem encodeFixed64_count (n : Nat) : (encodeFixed64 n).1 = (encodeFixed64 n).2.length :=
  (putLittleEndian_length 8 n).symm

theorem encodeFixed32_count (n : Nat) : (encodeFixed32 n).1 = (encodeFixed32 n).2.length :=
  (putLittleEndian_length 4 n).symm

theorem encodeBytes_count (b : List Nat) : (encodeBytes b).1 = (encodeBytes b).2.length := by
  show (encodeVarint _).1 + b.length = ((encodeVarint _).2 ++ b).length
  rw [List.length_append, encodeVarint_fst_eq_length]

theorem ok_count (p : Nat × List Nat) (hp : p.1 = p.2.length) (n : Nat) (b : List Nat)
    (h : (Except.ok p : Except Err (Nat × List Nat)) = .ok (n, b)) : n = b.length := by
  cases h
  exact hp

/-- The count `encodeValue` returns is the length of the bytes it returns. -/
theorem encodeValue_count (s : Schema) (fuel : Nat) (desc : FieldDesc) (val : Value)
    (n : Nat) (b : List Nat) (h : encodeValue s fuel desc val = .ok (n, b)) : n = b.length := by
  cases fuel with
  | zero => rw [encodeValue] at h; cases h
  | succ fuel =>
    rw [encodeValue] at h
    generalize desc.kind = k at h
    cases k
    case message =>
      simp only [bind, Except.bind, pure, Except.pure] at h
      split at h
      · cases h
      · split at h
        · cases h
        · exact ok_count (encodeBytes _) (encodeBytes_count _) n b h
    case group => cases h
    case int32 | int64 | uint32 | uint64 | bool | enum =>
      simp only [bind, Except.bind, pure, Except.pure] at h
      split at h
      · cases h
      · exact ok_count (encodeVarint _) (encodeVarint_fst_eq_length _) n b h
    case sint32 | sint64 =>
      simp only [bind, Except.bind, pure, Except.pure] at h
      split at h
      · cases h
      · exact ok_count (encodeZigZag _) (encodeZigZag_count _) n b h
    case fixed64 | sfixed64 | double =>
      simp only [bind, Except.bind, pure, Except.pure] at h
      split at h
      · cases h
      · exact ok_count (encodeFixed64 _) (encodeFixed64_count _) n b h
    case fixed32 | sfixed32 | float =>
      simp only [bind, Except.bind, pure, Except.pure] at h
      split at h
      · cases h
      · exact ok_count (encodeFixed32 _) (encodeFixed32_count _) n b h
    case bytes | string =>
      simp only [bind, Except.bind, pure, Except.pure] at h
      split at h
      · cases h
      · exact ok_count (encodeBytes _) (encodeBytes_count _) n b h

theorem field_ok (t : Nat × List Nat) (vn : Nat) (vb : List Nat) (n : Nat) (b : List Nat)
    (h : (Except.ok (t.1 + vn, t.2 ++ vb) : Except Err (Nat × List Nat)) = .ok (n, b)) :
    n = t.1 + vn ∧ b = t.2 ++ vb := by
  cases h
  exact ⟨rfl, rfl⟩

/-- The count `encodeField` returns is the length of the bytes it returns. -/
theorem encodeField_count (s : Schema) (fuel : Nat) (desc : FieldDesc) (val : Value)
    (n : Nat) (b : List Nat) (h : encodeField s fuel desc val = .ok (n, b)) : n = b.length := by
  cases fuel with
  | zero => rw [encodeField] at h; cases h
  | succ fuel =>
    rw [encodeField] at h
    cases hv : encodeValue s fuel desc val with
    | error e => rw [hv] at h; cases h
    | ok r =>
      obtain ⟨vn, vb⟩ := r
      rw [hv] at h
      have hvc := encodeValue_count s fuel desc val vn vb hv
      obtain ⟨h1, h2⟩ := field_ok (encodeTag desc.kind desc.number) vn vb n b h
      have ht : (encodeTag desc.kind desc.number).1 = (encodeTag desc.kind desc.number).2.length :=
        encodeVarint_fst_eq_length _
      rw [h1, h2, List.length_append, hvc, ht]


theorem foldlM_inv {α β : Type} (step : β → α → Except Err β) (P : β → Prop)
    (hstep : ∀ acc x r, P acc → step acc x = .ok r → P r) :
    ∀ (xs : List α) (acc r : β), P acc → xs.foldlM step acc = .ok r → P r := by
  intro xs
  induction xs with
  | nil =>
    intro acc r hP h
    cases h
    exact hP
  | cons x xs ih =>
    intro acc r hP h
    rw [List.foldlM_cons] at h
    cases hs : step acc x with
    | error e => rw [hs] at h; cases h
    | ok a =>
      rw [hs] at h
      exact ih a r (hstep acc x a hP hs) h

theorem toUint64_toInt64_of_lt (n : Nat) (h : n < 2 ^ 63) : toUint64 (toInt64 (n : Int)) = n := by
  unfold toUint64 toInt64; omega

/-- The bytes `encodeList` writes for a packed list, whenever it succeeds: the tag, the
varint of the count `total`, and a buffer of exactly `total` bytes. -/
theorem encodeList_packed_count (s : Schema) (fuel : Nat) (desc : FieldDesc) (xs : List Value)
    (out : List Nat) (hp : desc.isPacked = true)
    (h : encodeList s fuel desc (.list xs) = .ok out) :
    ∃ buf : List Nat,
      out = (encodeTag .bytes desc.number).2
        ++ (encodeVarint (toUint64 (toInt64 (buf.length : Int)))).2 ++ buf := by
  cases fuel with
  | zero => rw [encodeList] at h; cases h
  | succ fuel =>
    rw [encodeList, if_pos hp] at h
    simp only [Value.asList, bind, Except.bind, pure, Except.pure] at h
    split at h
    · cases h
    · rename_i r hr
      have hinv := foldlM_inv _ (fun acc : Nat × List Nat => acc.1 = acc.2.length)
        (by
          intro acc x r hacc hs
          cases hv : encodeValue s fuel desc x with
          | error e => rw [hv] at hs; cases hs
          | ok p =>
            rw [hv] at hs
            have hc := encodeValue_count s fuel desc x p.1 p.2 hv
            have hr := ok_inj _ _ hs
            rw [← hr]
            show acc.1 + p.1 = (acc.2 ++ p.2).length
            rw [List.length_append, hacc, hc])
        xs (0, []) r rfl hr
      refine ⟨r.2, ?_⟩
      rw [← hinv]
      exact (ok_inj _ _ h).symm

theorem framedLayout_append (tag : List Nat) (ps qs : List (List Nat)) :
    framedLayout tag (ps ++ qs) = framedLayout tag ps ++ framedLayout tag qs := by
  induction ps with
  | nil => rfl
  | cons p ps ih =>
    show tag ++ (encodeVarint p.length).2 ++ p ++ framedLayout tag (ps ++ qs) = _
    rw [ih]
    show _ = (tag ++ (encodeVarint p.length).2 ++ p ++ framedLayout tag ps) ++ _
    simp only [List.append_assoc]

theorem framedLayout_snoc (tag : List Nat) (ps : List (List Nat)) (p : List Nat) :
    framedLayout tag (ps ++ [p]) = framedLayout tag ps ++ (tag ++ (encodeVarint p.length).2 ++ p) := by
  rw [framedLayout_append]
  show _ ++ (tag ++ (encodeVarint p.length).2 ++ p ++ []) = _
  rw [List.append_nil]

/-- A fold whose every step appends one framed payload (a tag, the varint of the
payload's byte count, the payload) writes a sequence of framed payloads, one per
element. -/
theorem foldlM_framed {α : Type} (tag : List Nat) (step : List Nat → α → Except Err (List Nat))
    (hstep : ∀ out e r, step out e = .ok r → ∃ p : List Nat,
      r = out ++ (tag ++ (encodeVarint (toUint64 (toInt64 (p.length : Int)))).2 ++ p)) :
    ∀ (es : List α) (ps0 : List (List Nat)) (r : List Nat),
      es.foldlM step (framedLayout tag ps0) = .ok r → r.length < 2 ^ 63 →
      ∃ ps : List (List Nat), ps.length = es.length ∧ r = framedLayout tag (ps0 ++ ps) := by
  intro es
  induction es with
  | nil =>
    intro ps0 r h _
    exact ⟨[], rfl, by rw [List.append_nil]; exact (ok_inj _ _ h).symm⟩
  | cons e es ih =>
    intro ps0 r h hlen
    rw [List.foldlM_cons] at h
    cases hs : step (framedLayout tag ps0) e with
    | error err => rw [hs] at h; cases h
    | ok a =>
      rw [hs] at h
      obtain ⟨p, hp⟩ := hstep _ _ _ hs
      have hgrow : a.length ≤ r.length :=
        foldlM_inv step (fun x => a.length ≤ x.length)
          (by
            intro acc x r' hacc hs'
            obtain ⟨q, hq⟩ := hstep _ _ _ hs'
            rw [hq, List.length_append]; omega)
          es a r (Nat.le_refl _) h
      have hpl : p.length < 2 ^ 63 := by
        have : p.length ≤ a.length := by
          rw [hp]; simp only [List.length_append]; omega
        omega
      rw [toUint64_toInt64_of_lt _ hpl, ← framedLayout_snoc] at hp
      rw [hp] at h
      obtain ⟨ps, hps1, hps2⟩ := ih (ps0 ++ [p]) r h hlen
      refine ⟨p :: ps, by simp [hps1], ?_⟩
      rw [hps2, List.append_assoc]
      rfl

/-- The bytes `encodeMap` writes, whenever it succeeds: one framed entry per map entry,
the length varint of each being the byte count of the key and value fields that follow
it. -/
theorem encodeMap_count (s : Schema) (fuel : Nat) (desc : FieldDesc)
    (es : List (Value × Value)) (out : List Nat)
    (h : encodeMap s fuel desc (.map es) = .ok out) (hlen : out.length < 2 ^ 63) :
    ∃ ps : List (List Nat), ps.length = es.length ∧
      out = framedLayout (encodeTag .bytes desc.number).2 ps := by
  cases fuel with
  | zero => rw [encodeMap] at h; cases h
  | succ fuel =>
    rw [encodeMap] at h
    simp only [Value.asMap, bind, Except.bind, pure, Except.pure] at h
    have := foldlM_framed (encodeTag .bytes desc.number).2 _
      (by
        intro out e r hs
        split at hs
        · cases hs
        · rename_i _ kd hkd
          split at hs
          · cases hs
          · rename_i _ kr hkr
            split at hs
            · cases hs
            · rename_i _ vd hvd
              split at hs
              · cases hs
              · rename_i _ vr hvr
                have hkc := encodeField_count s fuel kd e.1 kr.1 kr.2 hkr
                have hvc := encodeField_count s fuel vd e.2 vr.1 vr.2 hvr
                refine ⟨kr.2 ++ vr.2, ?_⟩
                rw [← ok_inj _ _ hs, List.length_append, ← hkc, ← hvc]
                simp only [List.append_assoc])
      es [] out h hlen
    simpa using this

theorem decodePacked_list (s : Schema) : ∀ (fuel : Nat) (d : FieldDesc) (maxLen : Int)
    (total : Nat) (list : List Value) (inp : Stream) (n : Nat) (v : Value) (rest : Stream),
    decodePacked s fuel d maxLen total list inp = .ok (n, v, rest) → ∃ l, v = .list l := by
  intro fuel
  induction fuel with
  | zero => intro d maxLen total list inp n v rest h; rw [decodePacked] at h; cases h
  | succ fuel ih =>
    intro d maxLen total list inp n v rest h
    rw [decodePacked] at h
    split at h
    · split at h
      · cases h
      · split at h
        · cases h
        · exact ih _ _ _ _ _ _ _ _ h
    · have := ok_inj _ _ h
      exact ⟨list, (congrArg (fun p => p.2.1) this).symm⟩

/-- A length-delimited occurrence of a field whose kind is not bytes, string or message:
whatever `decodeValue` returns as a value is a list. -/
theorem decodeValue_bytes_scalar_list (s : Schema) (fuel : Nat) (d : FieldDesc) (inp : Stream)
    (hk : d.kind ≠ .bytes ∧ d.kind ≠ .string ∧ d.kind ≠ .message)
    (n : Nat) (v : Value) (rest : Stream)
    (h : decodeValue s fuel (some d) wireTypeBytesType inp = .ok (n, v, rest)) :
    ∃ l, v = .list l := by
  cases fuel with
  | zero => rw [decodeValue] at h; cases h
  | succ fuel =>
    rw [decodeValue] at h
    have h1 : ¬ wireTypeBytesType = wireTypeVarint := by decide
    have h2 : ¬ wireTypeBytesType = wireTypeFixed64bit := by decide
    simp only [h1, h2, if_true, if_false] at h
    obtain ⟨k1, k2, k3⟩ := hk
    generalize d.kind = k at k1 k2 k3 h
    cases k <;> first
      | contradiction
      | (simp only [] at h
         split at h
         · cases h
         · split at h
           · cases h
           · exact decodePacked_list s _ _ _ _ _ _ _ _ _ h)

theorem listAppend_list (fd : FieldDesc) (xs l : List Value) :
    listAppend fd xs (.list l) = .error .panic := rfl

/-- A length-delimited occurrence of a field that is not packed and whose kind is not
bytes, string or message never lets `decodeMessage` return a message: the value, if
`decodeValue` returns one, is a list that neither `Append` nor `Set` accepts. -/
theorem decodeMessage_scalar_bytes_never_ok (s : Schema) (msg : Msg) (f : Nat) (desc : FieldDesc)
    (inp : Stream) (hf : f ≤ 2 ^ 29 - 1) (hdesc : (s.desc msg.typ).ByNumber f = some desc)
    (hk : desc.kind ≠ .bytes ∧ desc.kind ≠ .string ∧ desc.kind ≠ .message)
    (hnp : desc.isPacked = false) (fuel : Nat) (m : Msg) :
    decodeMessage s fuel msg ((encodeVarint (f <<< 3 ||| 2)).2 ++ inp) ≠ .ok m := by
  obtain ⟨h1, h2⟩ := tag_fields f 2 hf (by decide)
  intro h
  cases fuel with
  | zero => rw [decodeMessage] at h; cases h
  | succ fuel =>
    rw [shiftLeft_three_or f 2 (by decide), decodeMessage] at h
    simp only [decodeTag_encodeVarint_append (8 * f + 2) (by omega) inp, h1, h2, hdesc] at h
    cases fuel with
    | zero => rw [decodeField] at h; cases h
    | succ fuel =>
      rw [decodeField] at h
      cases hv : decodeValue s fuel (some desc) 2 inp with
      | error e => rw [hv] at h; cases h
      | ok r =>
        obtain ⟨n, v, rest⟩ := r
        obtain ⟨l, rfl⟩ := decodeValue_bytes_scalar_list s fuel desc inp hk n v rest hv
        rw [hv] at h
        simp only [hnp, Bool.not_false, Bool.and_true] at h
        cases hl : desc.isList with
        | true =>
          simp only [hl, if_true] at h
          cases hg : (msg.Get desc).asList with
          | error e => rw [hg] at h; cases h
          | ok list =>
            rw [hg] at h
            simp only [listAppend_list] at h
            cases h
        | false =>
          cases fuel with
          | zero => rw [decodeValue] at hv; cases hv
          | succ fuel =>
            have hp : decodeValue s (fuel + 1) (some desc) 2 inp = .error .panic :=
              decodeValue_packed_singular s fuel desc inp hl hk
            rw [hp] at hv
            cases hv

/-! ## One field decoded into a message: what `Set` does and leaves -/

/-- One iteration of `decodeMessage` on a field stored by `Set` alone, when `Set` fails. -/
theorem decodeMessage_step_set_error (s : Schema) (fuel : Nat) (msg : Msg) (k : Kind) (f : Nat)
    (hf : f ≤ 2 ^ 29 - 1) (fd : FieldDesc) (inp rest : Stream) (n : Nat) (v : Value) (e : Err)
    (hfd : (s.desc msg.typ).ByNumber f = some fd)
    (hlist : (fd.isList && !fd.isPacked) = false) (hmap : fd.isMap = false)
    (hval : decodeValue s (fuel + 1) (some fd) (wireTypeByKind k) inp = .ok (n, v, rest))
    (hset : msg.Set (s.desc msg.typ) fd v = .error e) :
    decodeMessage s (fuel + 3) msg ((encodeTag k f).2 ++ inp) = .error e := by
  have hw : wireTypeByKind k < 8 := by cases k <;> decide
  obtain ⟨h1, h2⟩ := tag_fields f (wireTypeByKind k) hf hw
  rw [decodeMessage]
  simp only [decodeTag_encodeTag_append k f hf inp, h1, h2, hfd]
  rw [decodeField]
  simp only [hval, hlist, hmap, hset, Bool.false_eq_true, if_false]

/-- One iteration of `decodeMessage` on a map field whose decoded value is not a message:
`v.Message()` panics. -/
theorem decodeMessage_step_map_panic (s : Schema) (fuel : Nat) (msg : Msg) (k : Kind) (f : Nat)
    (hf : f ≤ 2 ^ 29 - 1) (fd : FieldDesc) (inp rest : Stream) (n : Nat) (v : Value)
    (hfd : (s.desc msg.typ).ByNumber f = some fd)
    (hlist : (fd.isList && !fd.isPacked) = false) (hmap : fd.isMap = true)
    (hval : decodeValue s (fuel + 1) (some fd) (wireTypeByKind k) inp = .ok (n, v, rest))
    (hv : v.asMessage = .error .panic) :
    decodeMessage s (fuel + 3) msg ((encodeTag k f).2 ++ inp) = .error .panic := by
  have hw : wireTypeByKind k < 8 := by cases k <;> decide
  obtain ⟨h1, h2⟩ := tag_fields f (wireTypeByKind k) hf hw
  rw [decodeMessage]
  simp only [decodeTag_encodeTag_append k f hf inp, h1, h2, hfd]
  rw [decodeField]
  simp only [hval, hlist, hmap, hv, Bool.false_eq_true, if_false, if_true]
  cases (msg.Get fd).asMap <;> rfl

theorem lookup_setField_ne (t num g : Nat) (v : Value) (h : g ≠ num) :
    ∀ l : List (Nat × Value), Msg.lookup ⟨t, setField num v l⟩ g = Msg.lookup ⟨t, l⟩ g := by
  intro l
  induction l with
  | nil =>
    simp [Msg.lookup, setField, List.find?, Ne.symm h]
  | cons p l ih =>
    obtain ⟨a, b⟩ := p
    simp only [setField]
    by_cases ha : a = num
    · subst ha
      simp only [if_true]
      simp [Msg.lookup, List.find?, Ne.symm h]
    · simp only [if_neg ha]
      simp only [Msg.lookup, List.find?] at ih ⊢
      by_cases hg : a = g
      · simp [hg]
      · simp only [hg, decide_False]
        exact ih

theorem lookup_filter_keep (t g : Nat) (p : Nat → Bool) (hg : p g = true) :
    ∀ l : List (Nat × Value),
      Msg.lookup ⟨t, l.filter (fun q => p q.1)⟩ g = Msg.lookup ⟨t, l⟩ g := by
  intro l
  induction l with
  | nil => rfl
  | cons q l ih =>
    obtain ⟨a, b⟩ := q
    simp only [Msg.lookup] at ih ⊢
    by_cases ha : a = g
    · subst ha
      simp [List.filter, hg, List.find?]
    · by_cases hp : p a = true
      · simp only [List.filter, hp, List.find?, ha, decide_False]
        exact ih
      · simp only [Bool.not_eq_true] at hp
        simp only [List.filter, hp, List.find?, ha, decide_False]
        exact ih

/-- What `Set(fd, v)` leaves of the other fields: `Get` of a field of another number that
is not a member of the oneof of `fd` returns what it returned before. -/
theorem Get_Set_other (md : MessageDesc) (m m' : Msg) (fd fd' : FieldDesc) (v : Value)
    (hset : m.Set md fd v = .ok m') (hne : fd'.number ≠ fd.number)
    (hsib : md.isSibling fd fd'.number = false) : m'.Get fd' = m.Get fd' := by
  unfold Msg.Set at hset
  split at hset
  · have := ok_inj _ _ hset
    subst this
    have h1 := lookup_setField_ne m.typ fd.number fd'.number v hne
      (m.fields.filter (fun p => !md.isSibling fd p.1))
    have h2 := lookup_filter_keep m.typ fd'.number (fun g => !md.isSibling fd g)
      (by simp [hsib]) m.fields
    simp only [Msg.Get]
    rw [h1, h2]
  · cases hset

/-! ## The claims on the codecs and on `decodeValue` -/

/-- C11 (code defect). A length-delimited value of length zero that ends the input is
not read: `decodeBytes` on the single length byte `0x00` returns `io.EOF`, because
`bytes.Reader.Read` reports `io.EOF` on an exhausted reader also for an empty buffer.
The same length byte followed by anything is read as the empty value. So `Decode` fails
on an empty embedded message (`0x1a 0x00`, the very bytes `Encode` writes for it) and on
an empty string (`0x12 0x00`) in last position. -/
theorem C11_empty_value_at_end_fails (fuel : Nat) :
    (encodeVarint 0).2 = [0x00] ∧ decodeBytes [0x00] = .error .eof ∧
      decodeBytes [0x00, 0x08, 0x01] = .ok ([], [0x08, 0x01]) ∧
      Encode exSchema (fuel + 6) ⟨0, [(3, .message 1 [])]⟩ = .ok [0x1a, 0x00] ∧
      Decode exSchema (fuel + 4) exFresh [0x1a, 0x00] = .error .eof ∧
      Decode exSchema (fuel + 4) exFresh [0x12, 0x00] = .error .eof :=
  ⟨by decide, rfl, rfl, rfl, rfl, rfl⟩

/-- C12 (code defect). Encoding of a `sint32` field: for every field of kind `sint32`
with number `f`, `1 ≤ f ≤ 2^29 - 1`, and every `int32` value `n`, `encodeField` returns
the varint of `(f << 3) | 0` followed by the varint of `z`, where `z = 2n` for `n ≥ 0`
and `z = -2n - 1` for `n < 0`, with their byte count. `Decode` of exactly those bytes
into a message with that field depends on how the field is declared. A singular field is
left equal to `n`. A repeated field that is not packed has `n` appended to its list. In
both cases `Get` of every other field outside the oneof of the field returns what it
returned before. A repeated field that is declared packed makes `Decode` panic:
`decodeMessage` appends only for a list that is not packed, and otherwise calls `Set`
with the one `int32` value on the list field. -/
theorem C12_sint32_field (s : Schema) (desc : FieldDesc) (f : Nat) (n : Int) (msg : Msg)
    (hdesc : (s.desc msg.typ).ByNumber f = some desc) (hk : desc.kind = .sint32)
    (hf : 1 ≤ f ∧ f ≤ 2 ^ 29 - 1) (hn : -2 ^ 31 ≤ n ∧ n < 2 ^ 31)
    (fuel : Nat) (hfuel : 4 ≤ fuel) :
    encodeField s fuel desc (.int32 n)
        = .ok (((encodeVarint (f <<< 3 ||| 0)).2
              ++ (encodeVarint (if 0 ≤ n then (2 * n).toNat else (-2 * n - 1).toNat)).2).length,
            (encodeVarint (f <<< 3 ||| 0)).2
              ++ (encodeVarint (if 0 ≤ n then (2 * n).toNat else (-2 * n - 1).toNat)).2) ∧
      (desc.isList = false → desc.isMap = false →
        ∃ msg', Decode s fuel msg ((encodeVarint (f <<< 3 ||| 0)).2
              ++ (encodeVarint (if 0 ≤ n then (2 * n).toNat else (-2 * n - 1).toNat)).2)
            = .ok msg' ∧
          msg'.Get desc = .int32 n ∧
          ∀ fd : FieldDesc, fd.number ≠ f → (s.desc msg.typ).isSibling desc fd.number = false →
            msg'.Get fd = msg.Get fd) ∧
      (desc.isList = true → desc.isPacked = false → ∀ xs, msg.Get desc = .list xs →
        ∃ msg', Decode s fuel msg ((encodeVarint (f <<< 3 ||| 0)).2
              ++ (encodeVarint (if 0 ≤ n then (2 * n).toNat else (-2 * n - 1).toNat)).2)
            = .ok msg' ∧
          msg'.Get desc = .list (xs ++ [.int32 n]) ∧
          ∀ fd : FieldDesc, fd.number ≠ f → (s.desc msg.typ).isSibling desc fd.number = false →
            msg'.Get fd = msg.Get fd) ∧
      (desc.isList = true → desc.isPacked = true →
        Decode s fuel msg ((encodeVarint (f <<< 3 ||| 0)).2
              ++ (encodeVarint (if 0 ≤ n then (2 * n).toNat else (-2 * n - 1).toNat)).2)
            = .error .panic) := by
  obtain ⟨F, rfl⟩ : ∃ F, fuel = F + 4 := ⟨fuel - 4, by omega⟩
  have hnum : desc.number = f := by
    have := ByNumber_number _ _ _ hdesc
    exact_mod_cast this
  subst hnum
  have hc := scalarCodec_sint32 s desc hk n hn.1 hn.2
  have hz := zigzag_value n (by omega) (by omega)
  have hvb : valueBytes s desc (.int32 n)
      = (encodeVarint (if 0 ≤ n then (2 * n).toNat else (-2 * n - 1).toNat)).2 := by
    have : encodeValue s 1 desc (.int32 n) = .ok (encodeZigZag n) := by
      rw [encodeValue]; simp only [hk]; rfl
    rw [valueBytes_eq s desc _ _ _ this]
    show (encodeVarint _).2 = _
    rw [hz]
  have htag : encodeTag desc.kind desc.number = encodeVarint (desc.number <<< 3 ||| 0) := by
    rw [encodeTag_eq _ _ (by omega), hk]; rfl
  have hval := hc.decode F desc [] rfl
  rw [hk, List.append_nil] at hval
  refine ⟨?_, ?_, ?_, ?_⟩
  · rw [encodeField]
    simp only [hc.encode (F + 2), htag, hvb, List.length_append, encodeVarint_fst_eq_length]
  · intro hl hm
    have hacc : desc.accepts (.int32 n) = true := by
      simp [FieldDesc.accepts, hl, hm, Value.hasKind, hk]
    have hset : msg.Set (s.desc msg.typ) desc (.int32 n)
        = .ok ⟨msg.typ, setField desc.number (.int32 n)
            (msg.fields.filter (fun p => !(s.desc msg.typ).isSibling desc p.1))⟩ := by
      simp [Msg.Set, hacc]
    refine ⟨⟨msg.typ, setField desc.number (.int32 n)
      (msg.fields.filter (fun p => !(s.desc msg.typ).isSibling desc p.1))⟩, ?_, ?_, ?_⟩
    · rw [Decode, ← htag, ← hvb]
      have hstep := decodeMessage_step_set s F msg _ .sint32 desc.number hf.2 desc
        (valueBytes s desc (.int32 n)) [] _ _ hdesc (by simp [hl]) hm hval hset
      rw [hk, hstep, decodeMessage_nil]
    · simp only [Msg.Get, lookup_setField]
    · intro fd hne hsib
      exact Get_Set_other _ _ _ _ _ _ hset hne hsib
  · intro hl hp xs hxs
    have hacc : desc.accepts (.list (xs ++ [.int32 n])) = true := by
      simp [FieldDesc.accepts, hl]
    have hset : msg.Set (s.desc msg.typ) desc (.list (xs ++ [.int32 n]))
        = .ok ⟨msg.typ, setField desc.number (.list (xs ++ [.int32 n]))
            (msg.fields.filter (fun p => !(s.desc msg.typ).isSibling desc p.1))⟩ := by
      simp [Msg.Set, hacc]
    refine ⟨⟨msg.typ, setField desc.number (.list (xs ++ [.int32 n]))
      (msg.fields.filter (fun p => !(s.desc msg.typ).isSibling desc p.1))⟩, ?_, ?_, ?_⟩
    · rw [Decode, ← htag, ← hvb]
      have hstep := decodeMessage_step_append s F msg _ .sint32 desc.number hf.2 desc
        (valueBytes s desc (.int32 n)) [] _ _ xs (xs ++ [.int32 n]) hdesc (by simp [hl, hp])
        hval (by rw [hxs]; rfl) (by simp [listAppend, Value.hasKind, hk]) hset
      rw [hk, hstep, decodeMessage_nil]
    · simp only [Msg.Get, lookup_setField]
    · intro fd hne hsib
      exact Get_Set_other _ _ _ _ _ _ hset hne hsib
  · intro hl hp
    rw [Decode, ← htag, ← hvb, hk]
    by_cases hm : desc.isMap = true
    · exact decodeMessage_step_map_panic s F msg .sint32 desc.number hf.2 desc
        (valueBytes s desc (.int32 n)) [] _ _ hdesc (by simp [hl, hp]) hm hval rfl
    · have hm' : desc.isMap = false := by simpa using hm
      exact decodeMessage_step_set_error s F msg .sint32 desc.number hf.2 desc
        (valueBytes s desc (.int32 n)) [] _ _ .panic hdesc (by simp [hl, hp]) hm' hval
        (by simp [Msg.Set, FieldDesc.accepts, hl])

/-- C12 at `f = 1`, `n = -5`: the bytes are `0x08 0x09`; decoding them into the singular
field gives `int32_field = -5`, decoding them into the repeated field that is not packed
and holds `[7]` gives `[7, -5]`, and decoding them into the field declared as a packed
repeated `sint32` field panics. -/
theorem C12_sint32_field_witness :
    (encodeVarint (1 <<< 3 ||| 0)).2
        ++ (encodeVarint (if (0 : Int) ≤ -5 then (2 * (-5 : Int)).toNat
            else (-2 * (-5 : Int) - 1).toNat)).2 = [0x08, 0x09] ∧
      encodeField exSint32Schema 4 ⟨1, .sint32, false, false, false, 0, none⟩ (.int32 (-5))
        = .ok (2, [0x08, 0x09]) ∧
      (∃ msg', Decode exSint32Schema 4 ⟨0, []⟩ [0x08, 0x09] = .ok msg' ∧
        msg'.Get ⟨1, .sint32, false, false, false, 0, none⟩ = .int32 (-5)) ∧
      (∃ msg', Decode exRepeatedSint32Schema 4 ⟨1, [(1, .list [.int32 7])]⟩ [0x08, 0x09]
          = .ok msg' ∧
        msg'.Get ⟨1, .sint32, true, false, false, 0, none⟩ = .list [.int32 7, .int32 (-5)]) ∧
      encodeField exRepeatedSint32Schema 4 ⟨1, .sint32, true, false, true, 0, none⟩
          (.int32 (-5)) = .ok (2, [0x08, 0x09]) ∧
      Decode exRepeatedSint32Schema 4 ⟨0, []⟩ [0x08, 0x09] = .error .panic := by
  have h := C12_sint32_field exSint32Schema ⟨1, .sint32, false, false, false, 0, none⟩ 1 (-5)
    ⟨0, []⟩ rfl rfl (by decide) (by decide) 4 (by decide)
  have hu := C12_sint32_field exRepeatedSint32Schema ⟨1, .sint32, true, false, false, 0, none⟩
    1 (-5) ⟨1, [(1, .list [.int32 7])]⟩ rfl rfl (by decide) (by decide) 4 (by decide)
  have hp := C12_sint32_field exRepeatedSint32Schema ⟨1, .sint32, true, false, true, 0, none⟩
    1 (-5) ⟨0, []⟩ rfl rfl (by decide) (by decide) 4 (by decide)
  have hb : (encodeVarint (1 <<< 3 ||| 0)).2
        ++ (encodeVarint (if (0 : Int) ≤ -5 then (2 * (-5 : Int)).toNat
            else (-2 * (-5 : Int) - 1).toNat)).2 = [0x08, 0x09] := by decide
  obtain ⟨h1, h2, _, _⟩ := h
  obtain ⟨_, _, hu3, _⟩ := hu
  obtain ⟨hp1, _, _, hp4⟩ := hp
  obtain ⟨m, hm1, hm2, _⟩ := h2 rfl rfl
  obtain ⟨mu, hmu1, hmu2, _⟩ := hu3 rfl rfl [.int32 7] rfl
  have h4 := hp4 rfl rfl
  rw [hb] at h1 hm1 hmu1 hp1 h4
  exact ⟨hb, h1, ⟨m, hm1, hm2⟩, ⟨mu, hmu1, hmu2⟩, hp1, h4⟩

/-- C13. Packed list layout: for every packed repeated field of an integer, bool or enum
kind with number `f` and every non-empty list `xs` of values of the kind, `encodeList`
writes exactly the varint of `(f << 3) | 2`, then the varint of the byte length of the
payload, then the payload, which is the bare encodings `encodeValue` returns for the
elements of `xs`, in list order and with nothing between them. -/
theorem C13_packed_list_layout (s : Schema) (desc : FieldDesc) (K : Kind) (f : Nat)
    (xs : List Value) (hrep : desc.isRepeated K f true = true) (hf : 1 ≤ f ∧ f ≤ 2 ^ 29 - 1)
    (_hne : xs ≠ []) (hxs : ∀ x ∈ xs, x.isScalarOf K = true)
    (hlen : (packedPayload s desc xs).length < 2 ^ 63) (fuel : Nat) (hfuel : 2 ≤ fuel) :
    encodeList s fuel desc (.list xs)
        = .ok ((encodeVarint (f <<< 3 ||| 2)).2
            ++ (encodeVarint (packedPayload s desc xs).length).2 ++ packedPayload s desc xs) ∧
      (∀ x ∈ xs, encodeValue s (fuel - 1) desc x
        = .ok ((valueBytes s desc x).length, valueBytes s desc x)) ∧
      (∀ x ys, packedPayload s desc (x :: ys) = valueBytes s desc x ++ packedPayload s desc ys) ∧
      packedPayload s desc [] = [] := by
  obtain ⟨hkind, hnum, _, hpacked, _⟩ := isRepeated_iff desc K f true hrep
  obtain ⟨F, rfl⟩ : ∃ F, fuel = F + 2 := ⟨fuel - 2, by omega⟩
  have hc : ∀ x ∈ xs, ScalarCodec s desc x := fun x hx =>
    scalarCodec_of_isScalarOf s desc x (by rw [hkind]; exact hxs x hx)
  refine ⟨?_, fun x hx => (hc x hx).encode F, fun _ _ => rfl, rfl⟩
  rw [encodeList_packed s desc xs hpacked hc hlen F, packedLayout, hnum,
    encodeTag_eq .bytes f hf.2]
  rfl

/-- C13 for the packed `int32` list `[1, 2, 3]` at field number 7: the bytes are
`0x3A 0x03 0x01 0x02 0x03`. -/
theorem C13_packed_list_layout_witness :
    (encodeVarint (7 <<< 3 ||| 2)).2
        ++ (encodeVarint (packedPayload [] ⟨7, .int32, true, false, true, 0, none⟩
            [.int32 1, .int32 2, .int32 3]).length).2
        ++ packedPayload [] ⟨7, .int32, true, false, true, 0, none⟩
            [.int32 1, .int32 2, .int32 3] = [0x3A, 0x03, 0x01, 0x02, 0x03] ∧
      encodeList [] 2 ⟨7, .int32, true, false, true, 0, none⟩
          (.list [.int32 1, .int32 2, .int32 3])
        = .ok [0x3A, 0x03, 0x01, 0x02, 0x03] := by
  have h := (C13_packed_list_layout [] ⟨7, .int32, true, false, true, 0, none⟩ .int32 7
    [.int32 1, .int32 2, .int32 3] rfl (by decide) (by simp)
    (by intro x hx; simp only [List.mem_cons, List.mem_singleton, List.not_mem_nil, or_false] at hx
        rcases hx with rfl | rfl | rfl <;> rfl)
    (by decide) 2 (by decide)).1
  have hb : (encodeVarint (7 <<< 3 ||| 2)).2
        ++ (encodeVarint (packedPayload [] ⟨7, .int32, true, false, true, 0, none⟩
            [.int32 1, .int32 2, .int32 3]).length).2
        ++ packedPayload [] ⟨7, .int32, true, false, true, 0, none⟩
            [.int32 1, .int32 2, .int32 3] = [0x3A, 0x03, 0x01, 0x02, 0x03] := by decide
  rw [hb] at h
  exact ⟨hb, h⟩

/-- C14. Varint length and minimality: for every unsigned 64-bit value `v`,
`encodeVarint v` has exactly `max(1, ceil(bit_length(v) / 7))` bytes (`Nat.size` is the
bit length, and `(k + 6) / 7` the ceiling of `k / 7`), hence between 1 and 10; every byte
but the last has its high bit set, the last byte has its high bit clear, and the last
byte is not zero unless `v = 0`. -/
theorem C14_varint_length_minimal (v : Nat) (h : v < 2 ^ 64) :
    (encodeVarint v).2.length = max 1 ((Nat.size v + 6) / 7) ∧
      1 ≤ (encodeVarint v).2.length ∧ (encodeVarint v).2.length ≤ 10 ∧
      (∀ i, i + 1 < (encodeVarint v).2.length →
        ∃ x, (encodeVarint v).2[i]? = some x ∧ x < 256 ∧ x >>> 7 = 1) ∧
      (∃ x, (encodeVarint v).2[(encodeVarint v).2.length - 1]? = some x ∧ x >>> 7 = 0 ∧
        (v ≠ 0 → x ≠ 0)) := by
  obtain ⟨h1, h2, h3⟩ := encodeVarint_length_char v h
  refine ⟨encodeVarint_length_size v h, h1, encodeVarint_length_le_ten v h, ?_, ?_⟩
  · intro i hi
    refine ⟨v / 128 ^ i % 128 + 128, ?_, ?_, ?_⟩
    · rw [encodeVarint_getElem? v i (by omega), if_pos (by omega)]
    · have := Nat.mod_lt (v / 128 ^ i) (by decide : 0 < 128); omega
    · rw [Nat.shiftRight_eq_div_pow]
      have := Nat.mod_lt (v / 128 ^ i) (by decide : 0 < 128); omega
  · refine ⟨v / 128 ^ ((encodeVarint v).2.length - 1) % 128, ?_, ?_, ?_⟩
    · rw [encodeVarint_getElem? v _ (by omega), if_neg (by omega)]
    · rw [Nat.shiftRight_eq_div_pow]
      have := Nat.mod_lt (v / 128 ^ ((encodeVarint v).2.length - 1)) (by decide : 0 < 128)
      omega
    · intro hv
      generalize (encodeVarint v).2.length = L at h1 h2 h3
      rcases h3 with h3 | h3
      · subst h3
        simp only [Nat.sub_self, pow_zero, Nat.div_one]
        simp only [pow_one] at h2
        omega
      · have hpos : 0 < 128 ^ (L - 1) := by positivity
        have hge : 1 ≤ v / 128 ^ (L - 1) := (Nat.le_div_iff_mul_le hpos).mpr (by omega)
        have hlt : v / 128 ^ (L - 1) < 128 := by
          apply Nat.div_lt_of_lt_mul
          have : 128 ^ (L - 1) * 128 = 128 ^ L := by
            rw [← pow_succ]; congr 1; omega
          omega
        omega

/-- C14 at `v = 300`: two bytes, `0xac 0x02`. -/
theorem C14_varint_length_minimal_witness :
    (300 : Nat) < 2 ^ 64 ∧ (encodeVarint 300).2 = [0xac, 0x02] ∧
      (encodeVarint 300).2.length = max 1 ((Nat.size 300 + 6) / 7) :=
  ⟨by decide, by decide, (C14_varint_length_minimal 300 (by decide)).1⟩

/-- C15. Fixed-width codec: for every 32-bit value `n`, `encodeFixed32 n` is exactly 4
bytes, the `i`-th being `(n >> 8i) mod 256`, and `decodeFixed32bit` reading them returns
`n` and leaves what follows; likewise `encodeFixed64` gives exactly 8 little-endian bytes
that `decodeFixed64bit` reads back; and each decoder fails when fewer than 4
(respectively 8) bytes remain, with `io.EOF` for none and `io.ErrUnexpectedEOF`
otherwise. -/
theorem C15_fixed_width_codec (n32 n64 : Nat) (h32 : n32 < 2 ^ 32) (h64 : n64 < 2 ^ 64) :
    ((encodeFixed32 n32).1 = 4 ∧ (encodeFixed32 n32).2.length = 4 ∧
        (∀ i, i < 4 → (encodeFixed32 n32).2[i]? = some ((n32 >>> (8 * i)) % 256)) ∧
        (∀ rest : Stream, decodeFixed32bit ((encodeFixed32 n32).2 ++ rest) = .ok (n32, rest))) ∧
      ((encodeFixed64 n64).1 = 8 ∧ (encodeFixed64 n64).2.length = 8 ∧
        (∀ i, i < 8 → (encodeFixed64 n64).2[i]? = some ((n64 >>> (8 * i)) % 256)) ∧
        (∀ rest : Stream, decodeFixed64bit ((encodeFixed64 n64).2 ++ rest) = .ok (n64, rest))) ∧
      (∀ inp : Stream, inp.length < 4 →
        decodeFixed32bit inp = .error (if inp.length = 0 then .eof else .unexpectedEOF)) ∧
      (∀ inp : Stream, inp.length < 8 →
        decodeFixed64bit inp = .error (if inp.length = 0 then .eof else .unexpectedEOF)) := by
  refine ⟨⟨rfl, putLittleEndian_length 4 n32, fun i hi => putLittleEndian_getElem? 4 n32 i hi,
      fun rest => decodeFixed32bit_encode n32 h32 rest⟩,
    ⟨rfl, putLittleEndian_length 8 n64, fun i hi => putLittleEndian_getElem? 8 n64 i hi,
      fun rest => decodeFixed64bit_encode n64 h64 rest⟩, ?_, ?_⟩
  · intro inp hlt
    unfold decodeFixed32bit
    rw [ReadFull_short 4 inp hlt]
  · intro inp hlt
    unfold decodeFixed64bit
    rw [ReadFull_short 8 inp hlt]

/-- C15 at `0x01020304` and `0x0102030405060708`, and on two short inputs. -/
theorem C15_fixed_width_codec_witness :
    (encodeFixed32 0x01020304).2 = [0x04, 0x03, 0x02, 0x01] ∧
      decodeFixed32bit ((encodeFixed32 0x01020304).2 ++ [0xff]) = .ok (0x01020304, [0xff]) ∧
      (encodeFixed64 0x0102030405060708).2 = [0x08, 0x07, 0x06, 0x05, 0x04, 0x03, 0x02, 0x01] ∧
      decodeFixed64bit ((encodeFixed64 0x0102030405060708).2 ++ [0xff])
        = .ok (0x0102030405060708, [0xff]) ∧
      decodeFixed32bit [0x04, 0x03, 0x02] = .error .unexpectedEOF ∧
      decodeFixed64bit [] = .error .eof := by
  have h := C15_fixed_width_codec 0x01020304 0x0102030405060708 (by decide) (by decide)
  exact ⟨by decide, h.1.2.2.2 [0xff], by decide, h.2.1.2.2.2 [0xff],
    h.2.2.1 [0x04, 0x03, 0x02] (by decide), h.2.2.2 [] (by decide)⟩

/-- C16. Wire-type/kind mismatch is fatal: for every field kind and every observed wire
type `w` among 0, 1 and 5 that is not the wire type of the kind, and for every `w` among
3, 4, 6 and 7 with any kind, `decodeValue` returns an error (a read error or
`unreachable`), whatever the stream; and `Decode`, when it reaches the tag of such a
field with any message built so far, returns that error. -/
theorem C16_wire_type_mismatch_fatal (s : Schema) (desc : FieldDesc) (w : Nat)
    (hw : (w ∈ [0, 1, 5] ∧ w ≠ wireTypeByKind desc.kind) ∨ w ∈ [3, 4, 6, 7]) :
    (∀ (fuel : Nat) (inp : Stream), ∃ e,
        decodeValue s (fuel + 1) (some desc) w inp = .error e ∧
          (e = .eof ∨ e = .unexpectedEOF ∨ e = .unreachable)) ∧
      (∀ (fuel : Nat) (msg : Msg) (f : Nat) (inp : Stream), f ≤ 2 ^ 29 - 1 →
        (s.desc msg.typ).ByNumber f = some desc → ∃ e,
          Decode s (fuel + 4) msg ((encodeVarint (f <<< 3 ||| w)).2 ++ inp) = .error e ∧
            (e = .eof ∨ e = .unexpectedEOF ∨ e = .unreachable)) := by
  have hw8 : w < 8 := by
    rcases hw with ⟨h, _⟩ | h <;> simp at h <;> omega
  have hne : w ≠ wireTypeBytesType := by
    rcases hw with ⟨h, _⟩ | h <;> simp at h <;> unfold wireTypeBytesType <;> omega
  have hk : w ≠ wireTypeByKind desc.kind := by
    rcases hw with ⟨_, h⟩ | h
    · exact h
    · have : wireTypeByKind desc.kind ∈ [0, 1, 2, 5] := by
        generalize desc.kind = k; cases k <;> decide
      simp at h this; omega
  constructor
  · intro fuel inp
    exact decodeValue_mismatch s fuel desc w inp hne hk
  · intro fuel msg f inp hf hdesc
    obtain ⟨e, he, hcases⟩ := decodeValue_mismatch s fuel desc w inp hne hk
    exact ⟨e, by rw [Decode]; exact decodeMessage_step_error s fuel msg f w hf hw8 _ inp e hdesc he,
      hcases⟩

/-- C16 for the `int32` field 1 of the example message sent with wire type 5: the input
`0x0d 0x01 0x00 0x00 0x00` makes `Decode` return `unreachable`. -/
theorem C16_wire_type_mismatch_fatal_witness :
    (encodeVarint (1 <<< 3 ||| 5)).2 ++ [0x01, 0x00, 0x00, 0x00] = [0x0d, 0x01, 0x00, 0x00, 0x00] ∧
      Decode exSchema 4 exFresh [0x0d, 0x01, 0x00, 0x00, 0x00] = .error .unreachable ∧
      ∃ e, Decode exSchema (0 + 4) exFresh
          ((encodeVarint (1 <<< 3 ||| 5)).2 ++ [0x01, 0x00, 0x00, 0x00]) = .error e ∧
        (e = .eof ∨ e = .unexpectedEOF ∨ e = .unreachable) :=
  ⟨by decide, rfl,
    (C16_wire_type_mismatch_fatal exSchema ⟨1, .int32, false, false, false, 0, none⟩ 5
      (Or.inl ⟨by decide, by decide⟩)).2 0 exFresh 1 [0x01, 0x00, 0x00, 0x00] (by decide) rfl⟩

/-- C17 (code defect). A length-delimited occurrence of a scalar field that is not
packed does not make `Decode` return an error: it panics. For the singular `int32` field
1 of the example message (`0x0a 0x01 0x01`), `NewField(desc).List()` panics at once. For
the repeated `int32` field 5 that is not packed (`0x2a 0x02 0x01 0x02`), `decodeValue`
does run the packed loop and returns the list `[1, 2]`; `Append` then panics on the list
given as one element. The sibling mismatches of C16 return the error `unreachable`. What
does hold for every such field: `Decode` never returns a message, so no list is stored
in a singular field or appended as an element. -/
theorem C17_length_delimited_scalar_panics (fuel : Nat) :
    Decode exSchema (fuel + 4) exFresh [0x0a, 0x01, 0x01] = .error .panic ∧
      decodeValue exSchema (fuel + 4) (some ⟨5, .int32, true, false, false, 0, none⟩)
          wireTypeBytesType [0x02, 0x01, 0x02]
        = .ok (2, .list [.int32 1, .int32 2], []) ∧
      Decode exSchema (fuel + 7) exFresh [0x2a, 0x02, 0x01, 0x02] = .error .panic ∧
      Decode exSchema (fuel + 6) exFresh [0x0d, 0x01, 0x00, 0x00, 0x00] = .error .unreachable ∧
      (∀ (s : Schema) (msg : Msg) (f : Nat) (desc : FieldDesc) (inp : Stream) (m : Msg),
        f ≤ 2 ^ 29 - 1 → (s.desc msg.typ).ByNumber f = some desc →
        desc.kind ≠ .bytes ∧ desc.kind ≠ .string ∧ desc.kind ≠ .message →
        desc.isPacked = false →
        Decode s fuel msg ((encodeVarint (f <<< 3 ||| 2)).2 ++ inp) ≠ .ok m) := by
  refine ⟨rfl, rfl, rfl, rfl, ?_⟩
  intro s msg f desc inp m hf hdesc hk hnp
  cases fuel with
  | zero => intro h; rw [Decode] at h; cases h
  | succ fuel =>
    rw [Decode]
    exact decodeMessage_scalar_bytes_never_ok s msg f desc inp hf hdesc hk hnp fuel m

/-- C18. Scalar value round trip per kind: for every kind among int32, int64, uint32,
uint64, sint32, sint64, bool, enum, fixed32, sfixed32, fixed64 and sfixed64 and every
value of the kind within its range, `encodeValue` returns bytes with their count, and
`decodeValue` called with the kind and its wire type on those bytes (followed by
anything) returns the value, the same count and the untouched rest. A negative `int32`
or enum value is sign-extended to 64 bits and takes 10 bytes. -/
theorem C18_scalar_round_trip (s : Schema) (desc d : FieldDesc) (x : Value)
    (hx : x.isScalarOf desc.kind = true) (hd : d.kind = desc.kind) (fuel : Nat)
    (rest : Stream) :
    encodeValue s (fuel + 1) desc x
        = .ok ((valueBytes s desc x).length, valueBytes s desc x) ∧
      decodeValue s (fuel + 1) (some d) (wireTypeByKind desc.kind)
          (valueBytes s desc x ++ rest)
        = .ok ((valueBytes s desc x).length, x, rest) ∧
      (∀ n : Int, n < 0 → x = .int32 n → desc.kind = .int32 →
        (valueBytes s desc x).length = 10) ∧
      (∀ n : Int, n < 0 → x = .enum n → desc.kind = .enum →
        (valueBytes s desc x).length = 10) := by
  have hc := scalarCodec_of_isScalarOf s desc x hx
  refine ⟨hc.encode fuel, hc.decode fuel d rest hd, ?_, ?_⟩
  · intro n hn hxn hK
    subst hxn
    rw [hK] at hx
    simp only [Value.isScalarOf, decide_eq_true_eq] at hx
    exact (valueBytes_negative s desc n hx.1 hn).1 hK
  · intro n hn hxn hK
    subst hxn
    rw [hK] at hx
    simp only [Value.isScalarOf, decide_eq_true_eq] at hx
    exact (valueBytes_negative s desc n hx.1 hn).2 hK

/-- C18 for the `int32` value `-5`: ten bytes, read back as `-5`. -/
theorem C18_scalar_round_trip_witness :
    valueBytes exSchema ⟨1, .int32, false, false, false, 0, none⟩ (.int32 (-5))
        = [0xfb, 0xff, 0xff, 0xff, 0xff, 0xff, 0xff, 0xff, 0xff, 0x01] ∧
      decodeValue exSchema (0 + 1) (some ⟨1, .int32, false, false, false, 0, none⟩)
          (wireTypeByKind .int32)
          (valueBytes exSchema ⟨1, .int32, false, false, false, 0, none⟩ (.int32 (-5)) ++ [0x08])
        = .ok ((valueBytes exSchema ⟨1, .int32, false, false, false, 0, none⟩
            (.int32 (-5))).length, .int32 (-5), [0x08]) :=
  ⟨by decide, (C18_scalar_round_trip exSchema ⟨1, .int32, false, false, false, 0, none⟩
    ⟨1, .int32, false, false, false, 0, none⟩ (.int32 (-5)) (by decide) rfl 0 [0x08]).2.1⟩

/-- C19. The function `decodeVarint` on arbitrary input: for every byte sequence whose
first byte with a clear high bit is at index `k` (the bytes `pre` before it all have the
high bit set; `k = pre.length` is unbounded), `decodeVarint` succeeds, reports the length
`k + 1`, returns the sum over `i ≤ k` of `(b_i & 0x7f) * 2^(7i)` reduced modulo `2^64`
and leaves the later bytes unread; for every byte sequence in which all bytes have the
high bit set, the empty one included, it fails with `io.EOF`. -/
theorem C19_decodeVarint_arbitrary (pre : List Nat) (last : Nat) (rest : Stream)
    (hpre : ∀ b ∈ pre, 128 ≤ b ∧ b < 256) (hlast : last < 128) :
    decodeVarint (pre ++ last :: rest)
        = .ok (pre.length + 1, groupSum (pre ++ [last]) 0 % 2 ^ 64, rest) ∧
      (∀ bs : List Nat, (∀ b ∈ bs, 128 ≤ b ∧ b < 256) → decodeVarint bs = .error .eof) := by
  constructor
  · have := decodeVarintLoop_groups last hlast rest pre 0 0 0 hpre (by norm_num)
    simp only [Nat.zero_mod, Nat.zero_add] at this
    exact this
  · intro bs hbs
    exact decodeVarintLoop_all_high bs 0 0 0 hbs

/-- C19 on an eleven-byte input: `0x81`, nine times `0x80`, then `0x7f`. The length is 11
and the value is 1: the group at index 10 contributes nothing. -/
theorem C19_decodeVarint_arbitrary_witness :
    groupSum ([0x81, 0x80, 0x80, 0x80, 0x80, 0x80, 0x80, 0x80, 0x80, 0x80] ++ [0x7f]) 0 % 2 ^ 64
        = 1 ∧
      decodeVarint
          ([0x81, 0x80, 0x80, 0x80, 0x80, 0x80, 0x80, 0x80, 0x80, 0x80] ++ 0x7f :: [0xff])
        = .ok (([0x81, 0x80, 0x80, 0x80, 0x80, 0x80, 0x80, 0x80, 0x80, 0x80] : List Nat).length
            + 1,
          groupSum ([0x81, 0x80, 0x80, 0x80, 0x80, 0x80, 0x80, 0x80, 0x80, 0x80] ++ [0x7f]) 0
            % 2 ^ 64, [0xff]) ∧
      decodeVarint [0x80, 0xff] = .error .eof := by
  have h := C19_decodeVarint_arbitrary
    [0x81, 0x80, 0x80, 0x80, 0x80, 0x80, 0x80, 0x80, 0x80, 0x80] 0x7f [0xff]
    (by decide) (by decide)
  exact ⟨by decide, h.1, h.2 [0x80, 0xff] (by decide)⟩

/-- C20. Returned counts equal byte lengths: each of `encodeVarint`, `encodeZigZag`,
`encodeFixed32`, `encodeFixed64`, `encodeBytes`, `encodeValue` and `encodeField`, on
every input on which it succeeds, returns a pair `(n, b)` with `n = len(b)`.
Consequently the bytes `encodeList` writes for a packed list are the tag, the varint of
a length and exactly that many payload bytes, and the bytes `encodeMap` writes are, for
each map entry, the tag, the varint of a length and exactly that many bytes of key and
value fields (outputs shorter than `2^63` bytes, as every Go slice is). -/
theorem C20_counts_equal_lengths :
    (∀ v : Nat, (encodeVarint v).1 = (encodeVarint v).2.length) ∧
      (∀ n : Int, (encodeZigZag n).1 = (encodeZigZag n).2.length) ∧
      (∀ n : Nat, (encodeFixed32 n).1 = (encodeFixed32 n).2.length) ∧
      (∀ n : Nat, (encodeFixed64 n).1 = (encodeFixed64 n).2.length) ∧
      (∀ b : List Nat, (encodeBytes b).1 = (encodeBytes b).2.length) ∧
      (∀ (s : Schema) (fuel : Nat) (desc : FieldDesc) (val : Value) (n : Nat) (b : List Nat),
        encodeValue s fuel desc val = .ok (n, b) → n = b.length) ∧
      (∀ (s : Schema) (fuel : Nat) (desc : FieldDesc) (val : Value) (n : Nat) (b : List Nat),
        encodeField s fuel desc val = .ok (n, b) → n = b.length) ∧
      (∀ (s : Schema) (fuel : Nat) (desc : FieldDesc) (xs : List Value) (out : List Nat),
        desc.isPacked = true → encodeList s fuel desc (.list xs) = .ok out →
        out.length < 2 ^ 63 →
        ∃ payload : List Nat, out = (encodeTag .bytes desc.number).2
          ++ (encodeVarint payload.length).2 ++ payload) ∧
      (∀ (s : Schema) (fuel : Nat) (desc : FieldDesc) (es : List (Value × Value))
          (out : List Nat),
        encodeMap s fuel desc (.map es) = .ok out → out.length < 2 ^ 63 →
        ∃ ps : List (List Nat), ps.length = es.length ∧
          out = framedLayout (encodeTag .bytes desc.number).2 ps) := by
  refine ⟨encodeVarint_fst_eq_length, encodeZigZag_count, encodeFixed32_count,
    encodeFixed64_count, encodeBytes_count, encodeValue_count, encodeField_count, ?_,
    encodeMap_count⟩
  intro s fuel desc xs out hp h hlen
  obtain ⟨buf, hbuf⟩ := encodeList_packed_count s fuel desc xs out hp h
  have hb : buf.length < 2 ^ 63 := by
    have : buf.length ≤ out.length := by
      rw [hbuf]; simp only [List.length_append]; omega
    omega
  rw [toUint64_toInt64_of_lt _ hb] at hbuf
  exact ⟨buf, hbuf⟩

end Pb
